import Mathlib

/-!
# Quad-edge store and Guibas–Stolfi Delaunay builder

A shallow embedding of `src/quad_edge.hh` and of the core of `src/main.cc`.

* The free store is a list of cells indexed by address: `some rec` is a live
  `quad_edge`, `none` is a record that has been `delete`d.  `new` returns the least
  address that was never handed out (`h.length`).
* Every memory access of the C++ code is an explicit read or write that faults
  (`Except Fault`) when the record is not live, so use-after-free and double free are
  observable.
* `int` is modelled by `Int` wrapped to 32 bits, `int64_t` by `Int` wrapped to 64 bits,
  `unsigned` by `Int` reduced modulo `2^32`.
* `DEBUG(...)` output and `RENDER_STEP(...)` only observe the graph and are left out.
-/

namespace DV

/-! ## Machine integers -/

/-- Conversion to `unsigned` (32 bit): the residue modulo `2^32`. -/
def u32 (z : Int) : Int := z % 4294967296

/-- Conversion to `int` (32 bit, two's complement). -/
def i32 (z : Int) : Int := (z + 2147483648) % 4294967296 - 2147483648

/-- Conversion to `int64_t` (two's complement). -/
def i64 (z : Int) : Int :=
  (z + 9223372036854775808) % 18446744073709551616 - 9223372036854775808

/-- Source `inline unsigned modulo(int a, int b)`: `a % b` is the truncating remainder of C++;
the `int` result `m` is converted to `unsigned` on return. -/
def modulo (a b : Int) : Int :=
  let m := Int.tmod a b
  let m := if m < 0 then (if b < 0 then i32 (m - b) else i32 (m + b)) else m
  u32 m

/-! ## Handles and records -/

/-- Source `edge_reference<T>`: parent record `q` (an address) and rotation `r` (`unsigned`). -/
structure edge_reference where
  q : Nat
  r : Nat
  deriving DecidableEq, Inhabited

/-- Source `quarter_record<T>` with `T = const vertex *`: the pointer is an index into the point
vector, `none` while the field is still indeterminate. -/
structure quarter_record where
  next : edge_reference
  data : Option Nat
  deriving DecidableEq, Inhabited

/-- Source `quad_edge<T>`: the array `e[4]`. -/
structure quad_edge where
  e0 : quarter_record
  e1 : quarter_record
  e2 : quarter_record
  e3 : quarter_record
  deriving DecidableEq, Inhabited

/-- The free store. -/
abbrev Heap := List (Option quad_edge)

/-- What can go wrong when the C++ code touches memory (undefined behaviour made
visible), plus the bound of the model on loop and recursion depth. -/
inductive Fault where
  | use_after_free (q : Nat)
  | wild_pointer (q : Nat)
  | out_of_bounds (r : Nat)
  | double_free (q : Nat)
  | bad_vertex
  | fuel_exhausted
  deriving DecidableEq, Inhabited

namespace edge_reference

/-- Source `rot(int n)`: `{q, modulo(r + n, 4)}`.  `r + n` is an `unsigned` sum (`n` is converted
to `unsigned` first) which is then converted to the `int` parameter of `modulo`. -/
def rot (e : edge_reference) (n : Int) : edge_reference :=
  ⟨e.q, (modulo (i32 (u32 ((e.r : Int) + u32 n))) 4).toNat⟩

/-- Source `sym()`: `rot(2)`. -/
def sym (e : edge_reference) : edge_reference := e.rot 2

end edge_reference

namespace quad_edge

/-- Array access `e[r]` for `r < 4`. -/
def slot (rec : quad_edge) (r : Nat) : quarter_record :=
  match r with
  | 0 => rec.e0
  | 1 => rec.e1
  | 2 => rec.e2
  | _ => rec.e3

/-- Array update `e[r] = s` for `r < 4`. -/
def setSlot (rec : quad_edge) (r : Nat) (s : quarter_record) : quad_edge :=
  match r with
  | 0 => { rec with e0 := s }
  | 1 => { rec with e1 := s }
  | 2 => { rec with e2 := s }
  | _ => { rec with e3 := s }

end quad_edge

/-! ## Memory access -/

/-- Dereference `q->`: the record at address `q`, or the fault. -/
def record (h : Heap) (q : Nat) : Except Fault quad_edge :=
  match h[q]? with
  | some (some rec) => .ok rec
  | some none => .error (.use_after_free q)
  | none => .error (.wild_pointer q)

/-- Read `q->e[r]`. -/
def quarter (h : Heap) (e : edge_reference) : Except Fault quarter_record :=
  match record h e.q with
  | .ok rec => if e.r < 4 then .ok (rec.slot e.r) else .error (.out_of_bounds e.r)
  | .error f => .error f

/-- Write `q->e[r] = s`. -/
def setQuarter (h : Heap) (e : edge_reference) (s : quarter_record) : Except Fault Heap :=
  match record h e.q with
  | .ok rec =>
    if e.r < 4 then .ok (h.set e.q (some (rec.setSlot e.r s))) else .error (.out_of_bounds e.r)
  | .error f => .error f

/-- Source `o_next()`: `q->e[r].next`. -/
def o_next (h : Heap) (e : edge_reference) : Except Fault edge_reference :=
  match quarter h e with
  | .ok s => .ok s.next
  | .error f => .error f

/-- Source `data()` read. -/
def data (h : Heap) (e : edge_reference) : Except Fault (Option Nat) :=
  match quarter h e with
  | .ok s => .ok s.data
  | .error f => .error f

/-- Assignment `e.q->e[e.r].next = v`. -/
def setNext (h : Heap) (e v : edge_reference) : Except Fault Heap :=
  match quarter h e with
  | .ok s => setQuarter h e { s with next := v }
  | .error f => .error f

/-- Assignment `e.data() = p`. -/
def setData (h : Heap) (e : edge_reference) (p : Option Nat) : Except Fault Heap :=
  match quarter h e with
  | .ok s => setQuarter h e { s with data := p }
  | .error f => .error f

/-- Source `delete q`. -/
def free (h : Heap) (q : Nat) : Except Fault Heap :=
  match h[q]? with
  | some (some _) => .ok (h.set q none)
  | some none => .error (.double_free q)
  | none => .error (.wild_pointer q)

/-! ## Derived navigation (`edge_reference` members that read the store) -/

/-- Source `l_next()`: `rot(-1).o_next().rot()`. -/
def l_next (h : Heap) (e : edge_reference) : Except Fault edge_reference := do
  let x ← o_next h (e.rot (-1))
  pure (x.rot 1)

/-- Source `r_next()`: `rot().o_next().rot(-1)`. -/
def r_next (h : Heap) (e : edge_reference) : Except Fault edge_reference := do
  let x ← o_next h (e.rot 1)
  pure (x.rot (-1))

/-- Source `d_next()`: `sym().o_next().sym()`. -/
def d_next (h : Heap) (e : edge_reference) : Except Fault edge_reference := do
  let x ← o_next h e.sym
  pure x.sym

/-- Source `o_prev()`: `rot().o_next().rot()`. -/
def o_prev (h : Heap) (e : edge_reference) : Except Fault edge_reference := do
  let x ← o_next h (e.rot 1)
  pure (x.rot 1)

/-- Source `l_prev()`: `o_next().sym()`. -/
def l_prev (h : Heap) (e : edge_reference) : Except Fault edge_reference := do
  let x ← o_next h e
  pure x.sym

/-- Source `r_prev()`: `sym().o_next()`. -/
def r_prev (h : Heap) (e : edge_reference) : Except Fault edge_reference :=
  o_next h e.sym

/-- Source `d_prev()`: `rot(-1).o_next().rot(-1)`. -/
def d_prev (h : Heap) (e : edge_reference) : Except Fault edge_reference := do
  let x ← o_next h (e.rot (-1))
  pure (x.rot (-1))

/-- The macro `ORG`: `data()`. -/
def ORG (h : Heap) (e : edge_reference) : Except Fault (Option Nat) := data h e

/-- The macro `DEST`: `sym().data()`. -/
def DEST (h : Heap) (e : edge_reference) : Except Fault (Option Nat) := data h e.sym

/-! ## Topology primitives -/

/-- The record written by `make_edge` at address `q`; the data fields are indeterminate. -/
def fresh_record (q : Nat) : quad_edge :=
  { e0 := ⟨⟨q, 0⟩, none⟩, e1 := ⟨⟨q, 3⟩, none⟩, e2 := ⟨⟨q, 2⟩, none⟩, e3 := ⟨⟨q, 1⟩, none⟩ }

/-- Source `make_edge()`: allocate a record with its four self-contained rings and return the
canonical handle `{q, 0}`. -/
def make_edge (h : Heap) : Heap × edge_reference :=
  (h ++ [some (fresh_record h.length)], ⟨h.length, 0⟩)

/-- Source `splice(a, b)`. -/
def splice (h : Heap) (a b : edge_reference) : Except Fault Heap := do
  let alph := (← o_next h a).rot 1
  let beta := (← o_next h b).rot 1
  let a_o_temp ← o_next h a
  let b_o_temp ← o_next h b
  let alph_o_temp ← o_next h alph
  let beta_o_temp ← o_next h beta
  let h ← setNext h a b_o_temp
  let h ← setNext h b a_o_temp
  let h ← setNext h alph beta_o_temp
  setNext h beta alph_o_temp

/-- Source `connect(a, b)`. -/
def connect (h : Heap) (a b : edge_reference) : Except Fault (Heap × edge_reference) := do
  let (h, e) := make_edge h
  let h ← setData h e (← DEST h a)
  let h ← setData h e.sym (← ORG h b)
  let h ← splice h e (← l_next h a)
  let h ← splice h e.sym b
  pure (h, e)

/-- Source `delete_edge(e)`; the caller's handle is nulled by the C++ code, which the model
leaves to the caller (every caller overwrites or drops the handle). -/
def delete_edge (h : Heap) (e : edge_reference) : Except Fault Heap := do
  let h ← splice h e (← o_prev h e)
  let h ← splice h e.sym (← o_prev h e.sym)
  free h e.q

/-- Source `kill_graph(e)`; `fuel` bounds the recursion depth. -/
def kill_graph : Nat → Heap → edge_reference → Except Fault Heap
  | 0, _, _ => .error .fuel_exhausted
  | fuel + 1, h, e => do
    let a ← o_next h e
    let b ← d_next h e
    let del_a := a.q != e.q
    let del_b := b.q != e.q
    let h ← delete_edge h e
    let h ← if del_a then kill_graph fuel h a else pure h
    if del_b then kill_graph fuel h b else pure h

/-! ## Geometric predicates (`src/main.cc`) -/

/-- Source `struct vertex`: the coordinates (`vx`, `vy` belong to the demo effect only). -/
structure vertex where
  x : Int
  y : Int
  deriving DecidableEq, Inhabited

/-- Source `vertex::operator<`: `x != rhs.x ? x < rhs.x : y < rhs.y`. -/
def vertex.lt (a b : vertex) : Bool :=
  if a.x != b.x then decide (a.x < b.x) else decide (a.y < b.y)

/-- An `int` product. -/
def mul32 (a b : Int) : Int := i32 (a * b)

/-- An `int` difference. -/
def sub32 (a b : Int) : Int := i32 (a - b)

/-- An `int` sum. -/
def add32 (a b : Int) : Int := i32 (a + b)

/-- The `int` expression `p.x * q.y - p.y * q.x`. -/
def cross32 (p q : vertex) : Int := sub32 (mul32 p.x q.y) (mul32 p.y q.x)

/-- The `int` expression `(p.x*q.y - p.y*q.x) - (p.x*s.y - p.y*s.x) + (q.x*s.y - q.y*s.x)`. -/
def det32 (p q s : vertex) : Int :=
  add32 (sub32 (cross32 p q) (cross32 p s)) (cross32 q s)

/-- The `int64_t` expression `(int64_t)p.x * p.x + p.y * p.y`: the second product is
computed in `int` and then widened. -/
def mag64 (p : vertex) : Int := i64 (i64 (p.x * p.x) + mul32 p.y p.y)

/-- Source `in_circle(a, b, c, d)` with the arithmetic of the source. -/
def in_circle (a b c d : vertex) : Bool :=
  decide (0 <
    i64 (i64 (i64 (i64 (mag64 a * det32 b c d) - i64 (mag64 b * det32 a c d))
      + i64 (mag64 c * det32 a b d)) - i64 (mag64 d * det32 a b c)))

/-- Source `ccw(a, b, c)` with the arithmetic of the source. -/
def ccw (a b c : vertex) : Bool := decide (0 < det32 a b c)

/-- Dereference a `const vertex *` into the point vector. -/
def deref (pts : List vertex) (p : Option Nat) : Except Fault vertex :=
  match p with
  | some i =>
    match pts[i]? with
    | some v => .ok v
    | none => .error .bad_vertex
  | none => .error .bad_vertex

/-- Source `right_of(x, e)`: `ccw(x, *e.DEST, *e.ORG)`. -/
def right_of (pts : List vertex) (h : Heap) (x : vertex) (e : edge_reference) :
    Except Fault Bool := do
  let d ← deref pts (← DEST h e)
  let o ← deref pts (← ORG h e)
  pure (ccw x d o)

/-- Source `left_of(x, e)`: `ccw(x, *e.ORG, *e.DEST)`. -/
def left_of (pts : List vertex) (h : Heap) (x : vertex) (e : edge_reference) :
    Except Fault Bool := do
  let o ← deref pts (← ORG h e)
  let d ← deref pts (← DEST h e)
  pure (ccw x o d)

/-- Source `valid(e, base)`: `right_of(*e.DEST, base)`. -/
def valid (pts : List vertex) (h : Heap) (e base : edge_reference) : Except Fault Bool := do
  let d ← deref pts (← DEST h e)
  right_of pts h d base

/-! ## The Delaunay builder -/

/-- The loop of `delaunay` that finds the lower common tangent of L and R. -/
def tangent_loop (pts : List vertex) (h : Heap) :
    Nat → edge_reference → edge_reference → Except Fault (edge_reference × edge_reference)
  | 0, _, _ => .error .fuel_exhausted
  | fuel + 1, ldi, rdi => do
    let ro ← deref pts (← ORG h rdi)
    if (← left_of pts h ro ldi) then
      tangent_loop pts h fuel (← l_next h ldi) rdi
    else
      let lo ← deref pts (← ORG h ldi)
      if (← right_of pts h lo rdi) then
        tangent_loop pts h fuel ldi (← r_prev h rdi)
      else
        pure (ldi, rdi)

/-- The inner loop `while (in_circle(*base_l.DEST, *base_l.ORG, *l_cand.DEST,
*l_cand.o_next().DEST))` of the merge step, deleting left candidates. -/
def l_cand_loop (pts : List vertex) (base_l : edge_reference) :
    Nat → Heap → edge_reference → Except Fault (Heap × edge_reference)
  | 0, _, _ => .error .fuel_exhausted
  | fuel + 1, h, l_cand => do
    let bd ← deref pts (← DEST h base_l)
    let bo ← deref pts (← ORG h base_l)
    let ld ← deref pts (← DEST h l_cand)
    let nd ← deref pts (← DEST h (← o_next h l_cand))
    if in_circle bd bo ld nd then
      let t ← o_next h l_cand
      let h ← delete_edge h l_cand
      l_cand_loop pts base_l fuel h t
    else
      pure (h, l_cand)

/-- The inner loop `while (in_circle(*base_l.DEST, *base_l.ORG, *r_cand.DEST,
*r_cand.o_prev().DEST))` of the merge step, deleting right candidates. -/
def r_cand_loop (pts : List vertex) (base_l : edge_reference) :
    Nat → Heap → edge_reference → Except Fault (Heap × edge_reference)
  | 0, _, _ => .error .fuel_exhausted
  | fuel + 1, h, r_cand => do
    let bd ← deref pts (← DEST h base_l)
    let bo ← deref pts (← ORG h base_l)
    let rd ← deref pts (← DEST h r_cand)
    let pd ← deref pts (← DEST h (← o_prev h r_cand))
    if in_circle bd bo rd pd then
      let t ← o_prev h r_cand
      let h ← delete_edge h r_cand
      r_cand_loop pts base_l fuel h t
    else
      pure (h, r_cand)

/-- The merge loop of `delaunay`. -/
def merge_loop (pts : List vertex) : Nat → Heap → edge_reference → Except Fault Heap
  | 0, _, _ => .error .fuel_exhausted
  | fuel + 1, h, base_l => do
    let l_cand ← o_next h base_l.sym
    let (h, l_cand) ←
      if (← valid pts h l_cand base_l) then l_cand_loop pts base_l fuel h l_cand
      else pure (h, l_cand)
    let r_cand ← o_prev h base_l
    let (h, r_cand) ←
      if (← valid pts h r_cand base_l) then r_cand_loop pts base_l fuel h r_cand
      else pure (h, r_cand)
    let vl ← valid pts h l_cand base_l
    let vr ← valid pts h r_cand base_l
    if !vl && !vr then
      pure h
    else
      let pick_r ←
        if !vl then pure true
        else if vr then do
          let ld ← deref pts (← DEST h l_cand)
          let lo ← deref pts (← ORG h l_cand)
          let ro ← deref pts (← ORG h r_cand)
          let rd ← deref pts (← DEST h r_cand)
          pure (in_circle ld lo ro rd)
        else pure false
      if pick_r then
        let (h, base_l) ← connect h r_cand base_l.sym
        merge_loop pts fuel h base_l
      else
        let (h, base_l) ← connect h base_l.sym l_cand.sym
        merge_loop pts fuel h base_l

/-- Source `delaunay(begin, end)`: the iterators are the indices `b` and `e` into the point vector
`pts`, and `&begin[i]` is the index `b + i`.  `fuel` bounds the recursion depth and the
number of iterations of every loop. -/
def delaunay (pts : List vertex) :
    Nat → Heap → Nat → Nat → Except Fault (Heap × edge_reference × edge_reference)
  | 0, _, _, _ => .error .fuel_exhausted
  | fuel + 1, h, b, e =>
    if (e : Int) - b = 2 then do
      let (h, a) := make_edge h
      let h ← setData h a (some b)
      let h ← setData h a.sym (some (b + 1))
      pure (h, a, a.sym)
    else if (e : Int) - b = 3 then do
      let (h, a) := make_edge h
      let (h, b') := make_edge h
      let h ← splice h a.sym b'
      let h ← setData h a (some b)
      let h ← setData h a.sym (some (b + 1))
      let h ← setData h b' (some (b + 1))
      let h ← setData h b'.sym (some (b + 2))
      let s1 ← deref pts (some b)
      let s2 ← deref pts (some (b + 1))
      let s3 ← deref pts (some (b + 2))
      if ccw s1 s2 s3 then
        let (h, _) ← connect h b' a
        pure (h, a, b'.sym)
      else if ccw s1 s3 s2 then
        let (h, c) ← connect h b' a
        pure (h, c.sym, c)
      else
        pure (h, a, b'.sym)
    else do
      let mid := b + (Int.tdiv ((e : Int) - b) 2).toNat
      let (h, ldo, ldi) ← delaunay pts fuel h b mid
      let (h, rdi, rdo) ← delaunay pts fuel h mid e
      let (ldi, rdi) ← tangent_loop pts h fuel ldi rdi
      let (h, base_l) ← connect h rdi.sym ldi
      let ldo := if (← ORG h ldi) = (← ORG h ldo) then base_l.sym else ldo
      let rdo := if (← ORG h rdi) = (← ORG h rdo) then base_l else rdo
      let h ← merge_loop pts fuel h base_l
      pure (h, ldo, rdo)

/-! ## Well-formedness (specification level) -/

/-- Address `q` holds a live record. -/
def isLive (h : Heap) (q : Nat) : Bool :=
  match h[q]? with
  | some (some _) => true
  | _ => false

/-- A live handle: its record is live and its rotation indexes the array `e[4]`. -/
def Live (h : Heap) (e : edge_reference) : Prop := isLive h e.q = true ∧ e.r < 4

instance (h : Heap) (e : edge_reference) : Decidable (Live h e) := by
  unfold Live; infer_instance

/-- Total reading of `q->e[r].next` (the handle itself where the access would fault). -/
def nxt (h : Heap) (e : edge_reference) : edge_reference :=
  match quarter h e with
  | .ok s => s.next
  | .error _ => e

/-- Total reading of `q->e[r].data`. -/
def dat (h : Heap) (e : edge_reference) : Option Nat :=
  match quarter h e with
  | .ok s => s.data
  | .error _ => none

/-- The store `h'` has the same addresses, the same live records and the same data fields
as `h` (only `next` fields may differ). -/
structure SameShape (h h' : Heap) : Prop where
  len : h'.length = h.length
  live : ∀ q, isLive h' q = isLive h q
  dat : ∀ x, dat h' x = dat h x

/-- The successor function after `splice(a, b)` in terms of the successor function `σ`
before it: the four assignments of `splice` in their order (a later one wins). -/
def spliceF (σ : edge_reference → edge_reference) (a b : edge_reference) :
    edge_reference → edge_reference := fun x =>
  if x = (σ b).rot 1 then σ ((σ a).rot 1)
  else if x = (σ a).rot 1 then σ ((σ b).rot 1)
  else if x = b then σ a
  else if x = a then σ b
  else σ x

/-- Well-formed store: for every handle `e` of a live record, `e.o_next()` is again a
handle of a live record, has the rotation parity of `e` (primal rings stay primal, dual
rings dual), and `e.o_next().o_prev() == e` where `o_prev = rot().o_next().rot()`. -/
def WellFormed (h : Heap) : Prop :=
  ∀ q, q < h.length → ∀ r, r < 4 → isLive h q = true →
    Live h (nxt h ⟨q, r⟩) ∧ (nxt h ⟨q, r⟩).r % 2 = r % 2 ∧
      (nxt h ((nxt h ⟨q, r⟩).rot 1)).rot 1 = ⟨q, r⟩

instance (h : Heap) : Decidable (WellFormed h) := by
  unfold WellFormed; infer_instance

/-! ## Example stores -/

/-- One isolated edge, as left by `make_edge()` on the empty store. -/
def oneEdge : Heap := (make_edge []).1

/-- Two isolated edges `{0, ·}` and `{1, ·}`. -/
def twoEdges : Heap := (make_edge oneEdge).1

/-- The effect of `connect(a, b)` on a store `h`: `h0` is the store after the allocation
and the two data assignments, `h2` the store returned.  The new record lives at address
`h.length`; `x` below is the old `a.l_next()`. -/
structure ConnectPost (h : Heap) (a b : edge_reference) (h0 h2 : Heap) : Prop where
  len0 : h0.length = h.length + 1
  live0 : ∀ q, isLive h0 q = (decide (q = h.length) || isLive h q)
  nxt0_old : ∀ y : edge_reference, y.q < h.length → nxt h0 y = nxt h y
  nxt0_new : ∀ r, r < 4 → nxt h0 ⟨h.length, r⟩ = ⟨h.length, (4 - r) % 4⟩
  dat0_old : ∀ y : edge_reference, y.q < h.length → dat h0 y = dat h y
  dat0_org : dat h0 ⟨h.length, 0⟩ = dat h a.sym
  dat0_dest : dat h0 ⟨h.length, 2⟩ = dat h b
  wf0 : WellFormed h0
  shape : SameShape h0 h2
  wf2 : WellFormed h2
  nxt2 : ∀ y, Live h0 y → y.r % 2 = 0 →
    nxt h2 y =
      if y = ⟨h.length, 2⟩ then
        (if b = (nxt h (a.rot (-1))).rot 1 then ⟨h.length, 0⟩ else nxt h b)
      else if y = b then ⟨h.length, 2⟩
      else if y = ⟨h.length, 0⟩ then a.sym
      else if y = (nxt h (a.rot (-1))).rot 1 then ⟨h.length, 0⟩
      else nxt h0 y

/-- The effect of `delete_edge(e)` on a store `h`: `h1` and `h2` are the stores after the
first and the second `splice`, `h3` the store after `delete e.q`. -/
structure DeletePost (h : Heap) (e : edge_reference) (h1 h2 h3 : Heap) : Prop where
  s1 : SameShape h h1
  wf1 : WellFormed h1
  n1 : ∀ y : edge_reference, y.r % 2 = e.r % 2 →
    nxt h1 y =
      if y = e then e else if y = (nxt h (e.rot 1)).rot 1 then nxt h e else nxt h y
  s2 : SameShape h1 h2
  wf2 : WellFormed h2
  n2 : ∀ y : edge_reference, y.r % 2 = e.r % 2 →
    nxt h2 y =
      if y = e.sym then e.sym
      else if y = (nxt h1 (e.sym.rot 1)).rot 1 then nxt h1 e.sym else nxt h1 y
  own : ∀ y : edge_reference, Live h2 y → y.q = e.q → (nxt h2 y).q = e.q
  iso : ∀ y : edge_reference, Live h2 y → (nxt h2 y).q = e.q → y.q = e.q
  len3 : h3.length = h2.length
  live3 : ∀ q, isLive h3 q = (isLive h2 q && !decide (q = e.q))
  nxt3 : ∀ y : edge_reference, y.q ≠ e.q → nxt h3 y = nxt h2 y
  dat3 : ∀ y : edge_reference, y.q ≠ e.q → dat h3 y = dat h2 y
  wf3 : WellFormed h3

/-- The stores that can be built from the empty store by `make_edge`, `splice` on handles
of equal rotation parity, `connect` on primal handles, `delete_edge`, and assignments to
data fields, every call being made on handles of live records. -/
inductive Reachable : Heap → Prop where
  | empty : Reachable []
  | make_edge (h : Heap) : Reachable h → Reachable (make_edge h).1
  | splice (h : Heap) (a b : edge_reference) (h' : Heap) :
      Reachable h → Live h a → Live h b → a.r % 2 = b.r % 2 →
      splice h a b = .ok h' → Reachable h'
  | connect (h : Heap) (a b : edge_reference) (h' : Heap) (e : edge_reference) :
      Reachable h → Live h a → Live h b → a.r % 2 = 0 → b.r % 2 = 0 →
      connect h a b = .ok (h', e) → Reachable h'
  | delete_edge (h : Heap) (e : edge_reference) (h' : Heap) :
      Reachable h → Live h e → delete_edge h e = .ok h' → Reachable h'
  | setData (h : Heap) (e : edge_reference) (p : Option Nat) (h' : Heap) :
      Reachable h → Live h e → setData h e p = .ok h' → Reachable h'

/-- The store `oneEdge` after `connect({0,0}, {0,1})`, a `connect` whose second argument
is a dual handle. -/
def dualConnectStore : Heap :=
  match connect oneEdge ⟨0, 0⟩ ⟨0, 1⟩ with
  | .ok r => r.1
  | .error _ => []

/-- The store `dualConnectStore` after `splice({0,0}, {1,2})`. -/
def dualSpliceStore : Heap :=
  match splice dualConnectStore ⟨0, 0⟩ ⟨1, 2⟩ with
  | .ok h => h
  | .error _ => []

/-- The store `dualSpliceStore` after `splice({0,0}, {0,2})`. -/
def dualBrokenStore : Heap :=
  match splice dualSpliceStore ⟨0, 0⟩ ⟨0, 2⟩ with
  | .ok h => h
  | .error _ => []

/-- The store of a triangle: three edges `0 → 1 → 2 → 0` built by `make_edge`,
`make_edge`, `splice(a.sym(), b)` and `connect(b, a)`. -/
def triangleStore : Heap :=
  match splice twoEdges ⟨0, 2⟩ ⟨1, 0⟩ with
  | .ok h =>
    match connect h ⟨1, 0⟩ ⟨0, 0⟩ with
    | .ok (h', _) => h'
    | .error _ => []
  | .error _ => []

/-- The successor function obtained from `σ` by exchanging its values at `a` and `b`: what
`splice(a, b)` does to the rings of the parity of `a` and `b`. -/
def swapVal {α : Type} [DecidableEq α] (σ : α → α) (a b : α) : α → α := fun x =>
  if x = a then σ b else if x = b then σ a else σ x

/-- Follow `o_next` from `e` for `k` steps. -/
def ring_walk (h : Heap) : Nat → edge_reference → Except Fault edge_reference
  | 0, e => .ok e
  | k + 1, e =>
    match o_next h e with
    | .ok e' => ring_walk h k e'
    | .error f => .error f

/-- The handle `x` lies in the Onext ring of `a`: it is reached from `a` by following
`o_next`. -/
def InRing (h : Heap) (a x : edge_reference) : Prop := ∃ k, ring_walk h k a = .ok x

/-- The core of `main`: triangulate the (already sorted) points on the empty store, then
`kill_graph(l)` on the returned left handle. -/
def triangulate_then_kill (pts : List vertex) (fuel : Nat) : Except Fault Heap :=
  match delaunay pts fuel [] 0 pts.length with
  | .ok (h, l, _) => kill_graph fuel h l
  | .error f => .error f

/-- Three non-collinear points in sorted order, counter-clockwise. -/
def trianglePoints : List vertex := [⟨0, 0⟩, ⟨1, 0⟩, ⟨1, 1⟩]

/-- Ascending order by `vertex::operator<` of neighbouring elements. -/
def sortedPoints : List vertex → Bool
  | [] => true
  | [_] => true
  | p :: q :: rest => vertex.lt p q && sortedPoints (q :: rest)

/-! ## The predicates over exact integers and with overflow detection -/

/-- The expression `p.x * q.y - p.y * q.x` over the integers. -/
def crossZ (p q : vertex) : Int := p.x * q.y - p.y * q.x

/-- The expression `(p.x*q.y - p.y*q.x) - (p.x*s.y - p.y*s.x) + (q.x*s.y - q.y*s.x)` of
`ccw` and `in_circle` over the integers. -/
def detZ (p q s : vertex) : Int := crossZ p q - crossZ p s + crossZ q s

/-- The expression `p.x * p.x + p.y * p.y` over the integers. -/
def magZ (p : vertex) : Int := p.x * p.x + p.y * p.y

/-- The body of `ccw` evaluated over the integers. -/
def ccw_exact (a b c : vertex) : Bool := decide (0 < detZ a b c)

/-- The body of `in_circle` evaluated over the integers. -/
def in_circle_exact (a b c d : vertex) : Bool :=
  decide (0 < magZ a * detZ b c d - magZ b * detZ a c d + magZ c * detZ a b d
    - magZ d * detZ a b c)

/-- Twice the signed area of the triangle `a b c`. -/
def area2 (a b c : vertex) : Int := (b.x - a.x) * (c.y - a.y) - (b.y - a.y) * (c.x - a.x)

/-- The lifted 4×4 matrix with rows `(p.x, p.y, p.x² + p.y², 1)` for `p = a, b, c, d`. -/
def liftedMatrix (a b c d : vertex) : Matrix (Fin 4) (Fin 4) Int :=
  !![a.x, a.y, a.x ^ 2 + a.y ^ 2, 1;
     b.x, b.y, b.x ^ 2 + b.y ^ 2, 1;
     c.x, c.y, c.x ^ 2 + c.y ^ 2, 1;
     d.x, d.y, d.x ^ 2 + d.y ^ 2, 1]

/-- Squared distance of the point `p` from the point `(cx, cy)` of the rational plane. -/
def distSq (cx cy : ℚ) (p : vertex) : ℚ := ((p.x : ℚ) - cx) ^ 2 + ((p.y : ℚ) - cy) ^ 2

/-- The point `(cx, cy)` is the centre of a circle through `a`, `b` and `c`. -/
def Circumcentre (cx cy : ℚ) (a b c : vertex) : Prop :=
  distSq cx cy b = distSq cx cy a ∧ distSq cx cy c = distSq cx cy a

/-- An `int` result: `none` when the value does not fit (signed overflow). -/
def chk32 (z : Int) : Option Int :=
  if -2147483648 ≤ z ∧ z ≤ 2147483647 then some z else none

/-- An `int64_t` result: `none` when the value does not fit (signed overflow). -/
def chk64 (z : Int) : Option Int :=
  if -9223372036854775808 ≤ z ∧ z ≤ 9223372036854775807 then some z else none

/-- The `int` expression `p.x * q.y - p.y * q.x`, `none` if a product or the difference
overflows. -/
def cross32c (p q : vertex) : Option Int :=
  (chk32 (p.x * q.y)).bind fun m1 => (chk32 (p.y * q.x)).bind fun m2 => chk32 (m1 - m2)

/-- The `int` determinant expression of `ccw` and `in_circle`, `none` if any intermediate
result overflows. -/
def det32c (p q s : vertex) : Option Int :=
  (cross32c p q).bind fun c1 => (cross32c p s).bind fun c2 => (chk32 (c1 - c2)).bind fun d =>
  (cross32c q s).bind fun c3 => chk32 (d + c3)

/-- The `int64_t` expression `(int64_t)p.x * p.x + p.y * p.y`, `none` on overflow (the
second product is an `int` product). -/
def mag64c (p : vertex) : Option Int :=
  (chk64 (p.x * p.x)).bind fun m1 => (chk32 (p.y * p.y)).bind fun m2 => chk64 (m1 + m2)

/-- The body of `ccw` with overflow detection: `none` if any intermediate overflows. -/
def ccw_checked (a b c : vertex) : Option Bool :=
  (det32c a b c).bind fun d => some (decide (0 < d))

/-- One `int64_t` product `((int64_t)p.x * p.x + p.y * p.y) * (...)` of `in_circle`: the
squared magnitude of `p` times the `int` determinant expression of `q`, `r`, `s`; `none` if
any intermediate result overflows. -/
def term64c (p q r s : vertex) : Option Int :=
  (mag64c p).bind fun m => (det32c q r s).bind fun d => chk64 (m * d)

/-- The body of `in_circle` with overflow detection: `none` if any intermediate result
(32-bit products, differences and sums, 64-bit products and sums) overflows. -/
def in_circle_checked (a b c d : vertex) : Option Bool :=
  (term64c a b c d).bind fun t1 => (term64c b a c d).bind fun t2 =>
  (chk64 (t1 - t2)).bind fun s1 =>
  (term64c c a b d).bind fun t3 => (chk64 (s1 + t3)).bind fun s2 =>
  (term64c d a b c).bind fun t4 => (chk64 (s2 - t4)).bind fun s3 =>
  some (decide (0 < s3))

/-- Both coordinates have absolute value at most `16384`. -/
def SmallPoint (p : vertex) : Prop :=
  -16384 ≤ p.x ∧ p.x ≤ 16384 ∧ -16384 ≤ p.y ∧ p.y ≤ 16384

instance (p : vertex) : Decidable (SmallPoint p) := by
  unfold SmallPoint; infer_instance

/-! ## The three-point case -/

/-- The first statements of the three-point case of `delaunay` (`begin` is the index `b`):
two `make_edge` calls, `splice(a.sym(), b)` and the four data assignments; returns the
store and the handles `a` and `b`. -/
def three_point_chain (h : Heap) (b : Nat) :
    Except Fault (Heap × edge_reference × edge_reference) := do
  let (h, a) := make_edge h
  let (h, b') := make_edge h
  let h ← splice h a.sym b'
  let h ← setData h a (some b)
  let h ← setData h a.sym (some (b + 1))
  let h ← setData h b' (some (b + 1))
  let h ← setData h b'.sym (some (b + 2))
  pure (h, a, b')

/-- The store of the chain `a = {0, 0}` from point `0` to point `1` and `b = {1, 0}` from
point `1` to point `2`, joined at point `1`. -/
def chain3 : Heap :=
  [some { e0 := ⟨⟨0, 0⟩, some 0⟩, e1 := ⟨⟨0, 3⟩, none⟩, e2 := ⟨⟨1, 0⟩, some 1⟩,
          e3 := ⟨⟨1, 3⟩, none⟩ },
   some { e0 := ⟨⟨0, 2⟩, some 1⟩, e1 := ⟨⟨0, 1⟩, none⟩, e2 := ⟨⟨1, 2⟩, some 2⟩,
          e3 := ⟨⟨1, 1⟩, none⟩ }]

/-- The store of the closed triangle: the chain `a`, `b` of `chain3` and the closing edge
`c = {2, 0}` from point `2` to point `0`. -/
def triangle3 : Heap :=
  [some { e0 := ⟨⟨2, 2⟩, some 0⟩, e1 := ⟨⟨2, 1⟩, none⟩, e2 := ⟨⟨1, 0⟩, some 1⟩,
          e3 := ⟨⟨1, 3⟩, none⟩ },
   some { e0 := ⟨⟨0, 2⟩, some 1⟩, e1 := ⟨⟨0, 1⟩, none⟩, e2 := ⟨⟨2, 0⟩, some 2⟩,
          e3 := ⟨⟨2, 3⟩, none⟩ },
   some { e0 := ⟨⟨1, 2⟩, some 2⟩, e1 := ⟨⟨1, 1⟩, none⟩, e2 := ⟨⟨0, 0⟩, some 0⟩,
          e3 := ⟨⟨0, 3⟩, none⟩ }]

/-- The point at the origin of `e`: `*e.ORG`. -/
def orgPoint (pts : List vertex) (h : Heap) (e : edge_reference) : Except Fault vertex :=
  match ORG h e with
  | .ok p => deref pts p
  | .error f => .error f

/-- The point at the destination of `e`: `*e.DEST`. -/
def destPoint (pts : List vertex) (h : Heap) (e : edge_reference) : Except Fault vertex :=
  match DEST h e with
  | .ok p => deref pts p
  | .error f => .error f

/-- Apply `l_next` three times. -/
def l_next3 (h : Heap) (e : edge_reference) : Except Fault edge_reference :=
  match l_next h e with
  | .ok e1 =>
    match l_next h e1 with
    | .ok e2 => l_next h e2
    | .error f => .error f
  | .error f => .error f

/-- The number of live records of a store. -/
def liveCount (h : Heap) : Nat := (h.filter Option.isSome).length

instance {α : Type} [DecidableEq α] : DecidableEq (Except Fault α) := fun a b =>
  match a, b with
  | .ok x, .ok y =>
    if h : x = y then isTrue (by rw [h]) else isFalse (fun hc => h (Except.ok.inj hc))
  | .error x, .error y =>
    if h : x = y then isTrue (by rw [h]) else isFalse (fun hc => h (Except.error.inj hc))
  | .ok _, .error _ => isFalse (fun hc => Except.noConfusion hc)
  | .error _, .ok _ => isFalse (fun hc => Except.noConfusion hc)

/-- Three sorted, pairwise distinct, non-collinear points on which the 32-bit arithmetic
of `ccw` overflows. -/
def overflowPoints : List vertex := [⟨0, 0⟩, ⟨65536, 0⟩, ⟨65536, 65536⟩]

/-! ## The unit square -/

/-- The unit square in sorted order. -/
def squarePoints : List vertex := [⟨0, 0⟩, ⟨0, 1⟩, ⟨1, 0⟩, ⟨1, 1⟩]

/-- The store `delaunay` builds for the unit square: records `0` and `1` are the left and
the right side, `2` the bottom side, `3` the diagonal from `(1,0)` to `(0,1)`, `4` the top
side. -/
def squareStore : Heap :=
  [some { e0 := ⟨⟨2, 2⟩, some 0⟩, e1 := ⟨⟨2, 1⟩, none⟩, e2 := ⟨⟨3, 2⟩, some 1⟩,
          e3 := ⟨⟨4, 1⟩, none⟩ },
   some { e0 := ⟨⟨3, 0⟩, some 2⟩, e1 := ⟨⟨2, 3⟩, none⟩, e2 := ⟨⟨4, 0⟩, some 3⟩,
          e3 := ⟨⟨4, 3⟩, none⟩ },
   some { e0 := ⟨⟨1, 0⟩, some 2⟩, e1 := ⟨⟨3, 3⟩, none⟩, e2 := ⟨⟨0, 0⟩, some 0⟩,
          e3 := ⟨⟨0, 3⟩, none⟩ },
   some { e0 := ⟨⟨2, 0⟩, some 2⟩, e1 := ⟨⟨1, 3⟩, none⟩, e2 := ⟨⟨4, 2⟩, some 1⟩,
          e3 := ⟨⟨0, 1⟩, none⟩ },
   some { e0 := ⟨⟨1, 2⟩, some 3⟩, e1 := ⟨⟨1, 1⟩, none⟩, e2 := ⟨⟨0, 2⟩, some 1⟩,
          e3 := ⟨⟨3, 1⟩, none⟩ }]

/-- The undirected edges of a store: for every live record the end points of its
rotation-0 handle. -/
def edgeList (pts : List vertex) (h : Heap) : List (vertex × vertex) :=
  (List.range h.length).flatMap fun q =>
    match orgPoint pts h ⟨q, 0⟩, destPoint pts h ⟨q, 0⟩ with
    | .ok o, .ok d => [(o, d)]
    | _, _ => []

/-- The corners `(Org(e), Org(e.l_next()), Org(e.l_next().l_next()))` of the face left of
the primal handle `e`, when that face is a counter-clockwise triangle:
`e.l_next().l_next().l_next() == e` and `ccw` of the corners. -/
def triangleAt (pts : List vertex) (h : Heap) (e : edge_reference) :
    Option (vertex × vertex × vertex) :=
  match l_next h e with
  | .ok e1 =>
    match l_next h e1 with
    | .ok e2 =>
      match l_next h e2, orgPoint pts h e, orgPoint pts h e1, orgPoint pts h e2 with
      | .ok e3, .ok a, .ok b, .ok c => if e3 = e ∧ ccw a b c = true then some (a, b, c) else none
      | _, _, _, _ => none
    | .error _ => none
  | .error _ => none

/-- The counter-clockwise triangular faces of a store, one entry for each primal handle on
the boundary of such a face. -/
def triangleList (pts : List vertex) (h : Heap) : List (vertex × vertex × vertex) :=
  (List.range h.length).flatMap fun q =>
    ([0, 2] : List Nat).flatMap fun r =>
      match triangleAt pts h ⟨q, r⟩ with
      | some t => [t]
      | none => []

/-! ## No dangling references -/

/-- No dangling references: the `next` field of every quarter slot of every live record
names a live record. -/
def NoDangling (h : Heap) : Prop :=
  ∀ q, q < h.length → ∀ r, r < 4 → isLive h q = true → isLive h (nxt h ⟨q, r⟩).q = true

instance (h : Heap) : Decidable (NoDangling h) := by
  unfold NoDangling; infer_instance

/-- Five sorted, pairwise distinct points whose coordinates make the 32-bit products of the
predicates wrap (`48065 * 48065` exceeds `2^31`). -/
def wrapPoints : List vertex :=
  [⟨-45329, 32109⟩, ⟨-43494, -5625⟩, ⟨-34271, -11793⟩, ⟨3827, -41310⟩, ⟨22258, 48065⟩]

/-! ## Basic facts -/

theorem modulo_four (a : Int) (ha : -2147483648 ≤ a ∧ a < 2147483648) :
    modulo a 4 = a % 4 := by
  unfold modulo
  cases a with
  | ofNat k =>
    have h1 : Int.tmod (Int.ofNat k) 4 = ((k % 4 : Nat) : Int) := rfl
    simp only [h1, u32, i32]
    have : ¬ (((k % 4 : Nat) : Int) < 0) := by omega
    simp only [this, if_false]
    simp only [Int.ofNat_eq_coe]
    omega
  | negSucc k =>
    have h1 : Int.tmod (Int.negSucc k) 4 = -(((k + 1) % 4 : Nat) : Int) := rfl
    simp only [h1, u32, i32]
    have h4 : ¬ ((4 : Int) < 0) := by decide
    simp only [h4, if_false]
    have hk : Int.negSucc k = -((k : Int) + 1) := rfl
    rw [hk]
    split_ifs <;> omega

theorem rot_eq (e : edge_reference) (n : Int) :
    e.rot n = ⟨e.q, (((e.r : Int) % 4294967296 + n) % 4).toNat⟩ := by
  unfold edge_reference.rot
  congr 2
  rw [modulo_four]
  · simp only [i32, u32]; omega
  · simp only [i32, u32]; omega

theorem rot_one (e : edge_reference) : e.rot 1 = ⟨e.q, (e.r + 1) % 4⟩ := by
  rw [rot_eq]; congr 1; omega

theorem rot_neg_one (e : edge_reference) :
    e.rot (-1) = ⟨e.q, (e.r + 3) % 4⟩ := by
  rw [rot_eq]; congr 1; omega

theorem sym_eq (e : edge_reference) : e.sym = ⟨e.q, (e.r + 2) % 4⟩ := by
  unfold edge_reference.sym; rw [rot_eq]; congr 1; omega

theorem rot_q (e : edge_reference) (n : Int) : (e.rot n).q = e.q := rfl

theorem rot_r_lt (e : edge_reference) (n : Int) : (e.rot n).r < 4 := by
  rw [rot_eq]
  show ((((e.r : Int) % 4294967296 + n) % 4).toNat) < 4
  omega

theorem sym_q (e : edge_reference) : e.sym.q = e.q := by
  unfold edge_reference.sym
  exact rot_q e 2

theorem sym_r_lt (e : edge_reference) : e.sym.r < 4 := by
  unfold edge_reference.sym
  exact rot_r_lt e 2

theorem live_rot {h : Heap} {e : edge_reference} (n : Int) (he : Live h e) :
    Live h (e.rot n) := ⟨he.1, rot_r_lt e n⟩

theorem live_sym {h : Heap} {e : edge_reference} (he : Live h e) : Live h e.sym :=
  ⟨by rw [sym_q]; exact he.1, sym_r_lt e⟩

theorem isLive_iff {h : Heap} {q : Nat} : isLive h q = true ↔ ∃ rec, h[q]? = some (some rec) := by
  unfold isLive
  split
  · next rec hq => simp [hq]
  · next hq =>
    simp only [Bool.false_eq_true, false_iff, not_exists]
    intro rec hrec
    exact hq rec hrec

theorem quarter_of_live {h : Heap} {e : edge_reference} (he : Live h e) :
    ∃ rec, h[e.q]? = some (some rec) ∧ quarter h e = .ok (rec.slot e.r) := by
  obtain ⟨rec, hrec⟩ := isLive_iff.1 he.1
  refine ⟨rec, hrec, ?_⟩
  simp [quarter, record, hrec, he.2]

theorem live_of_quarter {h : Heap} {e : edge_reference} {s : quarter_record}
    (hq : quarter h e = .ok s) : Live h e := by
  unfold quarter record at hq
  split at hq
  · next rec hrec =>
    split at hrec
    · next rec' hh =>
      split at hq
      · next hr => exact ⟨isLive_iff.2 ⟨rec', hh⟩, hr⟩
      · cases hq
    · cases hrec
    · cases hrec
  · cases hq

theorem o_next_of_live {h : Heap} {e : edge_reference} (he : Live h e) :
    o_next h e = .ok (nxt h e) := by
  obtain ⟨rec, -, hq⟩ := quarter_of_live he
  simp [o_next, nxt, hq]

theorem data_of_live {h : Heap} {e : edge_reference} (he : Live h e) :
    data h e = .ok (dat h e) := by
  obtain ⟨rec, -, hq⟩ := quarter_of_live he
  simp [data, dat, hq]

theorem live_of_o_next {h : Heap} {e x : edge_reference} (hx : o_next h e = .ok x) :
    Live h e := by
  unfold o_next at hx
  split at hx
  · next s hs => exact live_of_quarter hs
  · cases hx

theorem record_append_new (h : Heap) (rec : quad_edge) :
    record (h ++ [some rec]) h.length = .ok rec := by
  simp [record]

theorem record_append_old (h : Heap) (c : Option quad_edge) {q : Nat} (hq : q < h.length) :
    record (h ++ [c]) q = record h q := by
  simp [record, List.getElem?_append_left hq]

theorem quarter_append_old (h : Heap) (c : Option quad_edge) {e : edge_reference}
    (hq : e.q < h.length) : quarter (h ++ [c]) e = quarter h e := by
  simp [quarter, record_append_old h c hq]

theorem o_next_make_edge (h : Heap) (r : Nat) (hr : r < 4) :
    o_next (make_edge h).1 ⟨h.length, r⟩ = .ok ((fresh_record h.length).slot r).next := by
  simp [o_next, quarter, make_edge, record_append_new, hr]

theorem slot_setSlot (rec : quad_edge) (r r' : Nat) (s : quarter_record) (hr : r < 4)
    (hr' : r' < 4) : (rec.setSlot r s).slot r' = if r' = r then s else rec.slot r' := by
  interval_cases r <;> interval_cases r' <;> simp [quad_edge.setSlot, quad_edge.slot]

theorem quarter_set {h : Heap} {e : edge_reference} {rec : quad_edge}
    (he : Live h e) (hrec : h[e.q]? = some (some rec)) (s : quarter_record)
    (x : edge_reference) :
    quarter (h.set e.q (some (rec.setSlot e.r s))) x = if x = e then .ok s else quarter h x := by
  have hlt : e.q < h.length := by
    by_contra hcon
    rw [List.getElem?_eq_none (by omega)] at hrec
    cases hrec
  by_cases hq : x.q = e.q
  · have hrec' : record (h.set e.q (some (rec.setSlot e.r s))) x.q = .ok (rec.setSlot e.r s) := by
      simp [record, hq, List.getElem?_set_self, hlt]
    have hrec0 : record h x.q = .ok rec := by simp [record, hq, hrec]
    by_cases hr : x.r < 4
    · simp only [quarter, hrec', hrec0, hr, if_true, slot_setSlot rec e.r x.r s he.2 hr]
      by_cases hxe : x = e
      · simp [hxe]
      · have : x.r ≠ e.r := by
          intro hre
          apply hxe
          cases x; cases e; simp_all
        simp [hxe, this]
    · have hxe : x ≠ e := by
        intro hxe; rw [hxe] at hr; exact hr he.2
      simp [quarter, hrec', hrec0, hr, hxe]
  · have hxe : x ≠ e := by
      intro hxe; rw [hxe] at hq; exact hq rfl
    have : record (h.set e.q (some (rec.setSlot e.r s))) x.q = record h x.q := by
      simp [record, List.getElem?_set_ne (Ne.symm hq)]
    simp [quarter, this, hxe]

theorem isLive_set {h : Heap} {q : Nat} {rec : quad_edge} (hq : isLive h q = true) (q' : Nat) :
    isLive (h.set q (some rec)) q' = isLive h q' := by
  by_cases hqq : q' = q
  · subst hqq
    obtain ⟨rec0, hrec0⟩ := isLive_iff.1 hq
    have hlt : q' < h.length := by
      by_contra hcon
      rw [List.getElem?_eq_none (by omega)] at hrec0
      cases hrec0
    rw [hq]
    simp [isLive, List.getElem?_set_self, hlt]
  · simp [isLive, List.getElem?_set_ne (Ne.symm hqq)]

theorem setNext_spec {h : Heap} {e : edge_reference} (he : Live h e) (v : edge_reference) :
    ∃ h', setNext h e v = .ok h' ∧ SameShape h h' ∧
      ∀ x, nxt h' x = if x = e then v else nxt h x := by
  obtain ⟨rec, hrec, hq⟩ := quarter_of_live he
  refine ⟨h.set e.q (some (rec.setSlot e.r { rec.slot e.r with next := v })), ?_, ⟨?_, ?_, ?_⟩, ?_⟩
  · simp [setNext, hq, setQuarter, record, hrec, he.2]
  · simp
  · exact isLive_set he.1
  · intro x
    simp only [dat, quarter_set he hrec]
    by_cases hxe : x = e
    · simp [hxe, hq]
    · simp [hxe]
  · intro x
    simp only [nxt, quarter_set he hrec]
    by_cases hxe : x = e
    · simp [hxe]
    · simp [hxe]

theorem setData_spec {h : Heap} {e : edge_reference} (he : Live h e) (p : Option Nat) :
    ∃ h', setData h e p = .ok h' ∧ h'.length = h.length ∧ (∀ q, isLive h' q = isLive h q) ∧
      (∀ x, nxt h' x = nxt h x) ∧ ∀ x, dat h' x = if x = e then p else dat h x := by
  obtain ⟨rec, hrec, hq⟩ := quarter_of_live he
  refine ⟨h.set e.q (some (rec.setSlot e.r { rec.slot e.r with data := p })), ?_, ?_, ?_, ?_, ?_⟩
  · simp [setData, hq, setQuarter, record, hrec, he.2]
  · simp
  · exact isLive_set he.1
  · intro x
    simp only [nxt, quarter_set he hrec]
    by_cases hxe : x = e
    · simp [hxe, hq]
    · simp [hxe]
  · intro x
    simp only [dat, quarter_set he hrec]
    by_cases hxe : x = e
    · simp [hxe]
    · simp [hxe]

theorem isLive_lt {h : Heap} {q : Nat} (hq : isLive h q = true) : q < h.length := by
  obtain ⟨rec, hrec⟩ := isLive_iff.1 hq
  by_contra hcon
  rw [List.getElem?_eq_none (by omega)] at hrec
  cases hrec

theorem wf_live {h : Heap} (hwf : WellFormed h) {e : edge_reference} (he : Live h e) :
    Live h (nxt h e) ∧ (nxt h e).r % 2 = e.r % 2 ∧ (nxt h ((nxt h e).rot 1)).rot 1 = e :=
  hwf e.q (isLive_lt he.1) e.r he.2 he.1

theorem wf_of_live {h : Heap}
    (hl : ∀ e, Live h e →
      Live h (nxt h e) ∧ (nxt h e).r % 2 = e.r % 2 ∧ (nxt h ((nxt h e).rot 1)).rot 1 = e) :
    WellFormed h := fun q _ r hr hq => hl ⟨q, r⟩ ⟨hq, hr⟩

theorem rot_one_r (x : edge_reference) : (x.rot 1).r = (x.r + 1) % 4 := by rw [rot_one]

theorem rot_one_inj {x y : edge_reference} (hx : x.r < 4) (hy : y.r < 4)
    (hxy : x.rot 1 = y.rot 1) : x = y := by
  rw [rot_one, rot_one] at hxy
  cases x; cases y
  simp only [edge_reference.mk.injEq] at hxy ⊢
  refine ⟨hxy.1, ?_⟩
  simp only at hx hy
  omega

theorem SameShape.refl (h : Heap) : SameShape h h := ⟨rfl, fun _ => rfl, fun _ => rfl⟩

theorem SameShape.trans {h1 h2 h3 : Heap} (h12 : SameShape h1 h2) (h23 : SameShape h2 h3) :
    SameShape h1 h3 :=
  ⟨h23.len.trans h12.len, fun q => (h23.live q).trans (h12.live q),
    fun x => (h23.dat x).trans (h12.dat x)⟩

theorem SameShape.live_iff {h h' : Heap} (hs : SameShape h h') (x : edge_reference) :
    Live h' x ↔ Live h x := by
  unfold Live; rw [hs.live]

theorem splice_spec {h : Heap} {a b : edge_reference} (ha : Live h a) (hb : Live h b)
    (hal : Live h ((nxt h a).rot 1)) (hbe : Live h ((nxt h b).rot 1)) :
    ∃ h', splice h a b = .ok h' ∧ SameShape h h' ∧ ∀ x, nxt h' x = spliceF (nxt h) a b x := by
  obtain ⟨h1, e1, s1, n1⟩ := setNext_spec ha (nxt h b)
  obtain ⟨h2, e2, s2, n2⟩ := setNext_spec ((s1.live_iff b).2 hb) (nxt h a)
  have s12 := s1.trans s2
  obtain ⟨h3, e3, s3, n3⟩ :=
    setNext_spec ((s12.live_iff _).2 hal) (nxt h ((nxt h b).rot 1))
  have s13 := s12.trans s3
  obtain ⟨h4, e4, s4, n4⟩ :=
    setNext_spec ((s13.live_iff _).2 hbe) (nxt h ((nxt h a).rot 1))
  refine ⟨h4, ?_, s13.trans s4, ?_⟩
  · simp only [splice, o_next_of_live ha, o_next_of_live hb, o_next_of_live hal,
      o_next_of_live hbe, bind, Except.bind, e1, e2, e3, e4]
  · intro x
    simp only [n4, n3, n2, n1, spliceF]

theorem rot_parity (x : edge_reference) : (x.rot 1).r % 2 = (x.r + 1) % 2 := by
  rw [rot_one_r]; omega

theorem ne_of_parity {x y : edge_reference} (hp : x.r % 2 ≠ y.r % 2) : x ≠ y := by
  intro hxy; rw [hxy] at hp; exact hp rfl

/-- On handles of the parity of `a` and `b`, `splice(a, b)` exchanges the successors of `a`
and `b` and nothing else. -/
theorem spliceF_same_parity {h : Heap} (hwf : WellFormed h) {a b : edge_reference}
    (ha : Live h a) (hb : Live h b) (hpar : a.r % 2 = b.r % 2) (x : edge_reference)
    (hx : x.r % 2 = a.r % 2) :
    spliceF (nxt h) a b x = if x = a then nxt h b else if x = b then nxt h a else nxt h x := by
  obtain ⟨-, pa, -⟩ := wf_live hwf ha
  obtain ⟨-, pb, -⟩ := wf_live hwf hb
  have h1 : x ≠ (nxt h b).rot 1 := ne_of_parity (by rw [rot_parity]; omega)
  have h2 : x ≠ (nxt h a).rot 1 := ne_of_parity (by rw [rot_parity]; omega)
  unfold spliceF
  simp only [h1, h2, if_false]
  by_cases hxb : x = b
  · subst hxb
    by_cases hxa : x = a
    · subst hxa; simp
    · simp [hxa]
  · simp [hxb]

/-- The involution `x ↦ x.o_next().rot()` of a well-formed store. -/
theorem wf_invol {h : Heap} (hwf : WellFormed h) {e : edge_reference} (he : Live h e) :
    (nxt h ((nxt h e).rot 1)).rot 1 = e := (wf_live hwf he).2.2

theorem wf_live_g {h : Heap} (hwf : WellFormed h) {e : edge_reference} (he : Live h e) :
    Live h ((nxt h e).rot 1) := live_rot 1 (wf_live hwf he).1

/-- Calling `splice` succeeds on live handles of equal parity of a well-formed store, and the
resulting store is well-formed. -/
theorem splice_wf {h : Heap} (hwf : WellFormed h) {a b : edge_reference}
    (ha : Live h a) (hb : Live h b) (hpar : a.r % 2 = b.r % 2) :
    ∃ h', splice h a b = .ok h' ∧ SameShape h h' ∧ WellFormed h' ∧
      ∀ x, nxt h' x = spliceF (nxt h) a b x := by
  have hal := wf_live_g hwf ha
  have hbe := wf_live_g hwf hb
  obtain ⟨h', e', s', n'⟩ := splice_spec ha hb hal hbe
  refine ⟨h', e', s', ?_, n'⟩
  obtain ⟨la, pa, ia⟩ := wf_live hwf ha
  obtain ⟨lb, pb, ib⟩ := wf_live hwf hb
  obtain ⟨lal, pal, ial⟩ := wf_live hwf hal
  obtain ⟨lbe, pbe, ibe⟩ := wf_live hwf hbe
  have pal' := rot_parity (nxt h a)
  have pbe' := rot_parity (nxt h b)
  -- the alias-free description of the new successor function
  have key : ∀ x, nxt h' x = nxt h
      (if x = (nxt h b).rot 1 then (nxt h a).rot 1
       else if x = (nxt h a).rot 1 then (nxt h b).rot 1
       else if x = b then a else if x = a then b else x) := by
    intro x
    rw [n']; unfold spliceF
    split_ifs <;> rfl
  have nab : a ≠ (nxt h a).rot 1 ∧ a ≠ (nxt h b).rot 1 ∧ b ≠ (nxt h a).rot 1 ∧
      b ≠ (nxt h b).rot 1 :=
    ⟨ne_of_parity (by omega), ne_of_parity (by omega), ne_of_parity (by omega),
      ne_of_parity (by omega)⟩
  obtain ⟨na1, na2, nb1, nb2⟩ := nab
  apply wf_of_live
  intro x hx'
  have hx : Live h x := (s'.live_iff x).1 hx'
  obtain ⟨lx, px, ix⟩ := wf_live hwf hx
  by_cases c1 : x = (nxt h b).rot 1
  · -- x = beta
    have e1 : nxt h' x = nxt h ((nxt h a).rot 1) := by
      rw [key, if_pos c1]
    have e2 : (nxt h' x).rot 1 = a := by rw [e1]; exact ia
    have e3 : nxt h' a = nxt h b := by
      rw [key]; simp only [na1, na2, if_false]
      by_cases hab : a = b
      · simp [hab]
      · simp [hab]
    refine ⟨(s'.live_iff _).2 (by rw [e1]; exact lal), by rw [e1, c1]; omega, ?_⟩
    rw [e2, e3, c1]
  by_cases c2 : x = (nxt h a).rot 1
  · -- x = alpha
    have e1 : nxt h' x = nxt h ((nxt h b).rot 1) := by
      rw [key, if_neg c1, if_pos c2]
    have e2 : (nxt h' x).rot 1 = b := by rw [e1]; exact ib
    have e3 : nxt h' b = nxt h a := by
      rw [key]; simp [nb1, nb2]
    refine ⟨(s'.live_iff _).2 (by rw [e1]; exact lbe), by rw [e1, c2]; omega, ?_⟩
    rw [e2, e3, c2]
  by_cases c3 : x = b
  · have e1 : nxt h' x = nxt h a := by
      rw [key, if_neg c1, if_neg c2, if_pos c3]
    have e3 : nxt h' ((nxt h a).rot 1) = nxt h ((nxt h b).rot 1) := by
      rw [key]
      by_cases hab : (nxt h a).rot 1 = (nxt h b).rot 1
      · simp [hab]
      · simp [hab]
    refine ⟨(s'.live_iff _).2 (by rw [e1]; exact la), by rw [e1, c3]; omega, ?_⟩
    rw [e1, e3, c3]; exact ib
  by_cases c4 : x = a
  · have e1 : nxt h' x = nxt h b := by
      rw [key, if_neg c1, if_neg c2, if_neg c3, if_pos c4]
    have e3 : nxt h' ((nxt h b).rot 1) = nxt h ((nxt h a).rot 1) := by
      rw [key]; simp
    refine ⟨(s'.live_iff _).2 (by rw [e1]; exact lb), by rw [e1, c4]; omega, ?_⟩
    rw [e1, e3, c4]; exact ia
  · have e1 : nxt h' x = nxt h x := by
      rw [key, if_neg c1, if_neg c2, if_neg c3, if_neg c4]
    have hy := wf_live_g hwf hx
    have d1 : (nxt h x).rot 1 ≠ (nxt h b).rot 1 := by
      intro hc
      have := wf_invol hwf hx
      rw [hc, wf_invol hwf hb] at this
      exact c3 this.symm
    have d2 : (nxt h x).rot 1 ≠ (nxt h a).rot 1 := by
      intro hc
      have := wf_invol hwf hx
      rw [hc, wf_invol hwf ha] at this
      exact c4 this.symm
    have d3 : (nxt h x).rot 1 ≠ b := by
      intro hc
      have := wf_invol hwf hx
      rw [hc] at this
      exact c1 this.symm
    have d4 : (nxt h x).rot 1 ≠ a := by
      intro hc
      have := wf_invol hwf hx
      rw [hc] at this
      exact c2 this.symm
    have e3 : nxt h' ((nxt h x).rot 1) = nxt h ((nxt h x).rot 1) := by
      rw [key]; simp [d1, d2, d3, d4]
    refine ⟨(s'.live_iff _).2 (by rw [e1]; exact lx), by rw [e1]; exact px, ?_⟩
    rw [e1, e3]; exact ix

theorem isLive_make_edge (h : Heap) (q : Nat) :
    isLive (make_edge h).1 q = (decide (q = h.length) || isLive h q) := by
  unfold make_edge isLive
  rcases Nat.lt_trichotomy q h.length with hq | hq | hq
  · have : ¬ q = h.length := by omega
    simp [List.getElem?_append_left hq, this]
  · subst hq; simp
  · have hn : ¬ q = h.length := by omega
    have h1 : (h ++ [some (fresh_record h.length)])[q]? = none :=
      List.getElem?_eq_none (by simp; omega)
    have h2 : h[q]? = none := List.getElem?_eq_none (by omega)
    simp [h1, h2, hn]

theorem quarter_make_edge (h : Heap) (x : edge_reference) :
    quarter (make_edge h).1 x =
      if x.q = h.length then
        (if x.r < 4 then .ok ((fresh_record h.length).slot x.r) else .error (.out_of_bounds x.r))
      else if x.q < h.length then quarter h x else .error (.wild_pointer x.q) := by
  rcases Nat.lt_trichotomy x.q h.length with hq | hq | hq
  · have : ¬ x.q = h.length := by omega
    simp only [this, if_false, hq, if_true]
    exact quarter_append_old h _ hq
  · simp only [hq, if_true]
    show quarter (h ++ [some (fresh_record h.length)]) x = _
    unfold quarter
    rw [hq, record_append_new]
  · have hn : ¬ x.q = h.length := by omega
    have hn' : ¬ x.q < h.length := by omega
    have h1 : (h ++ [some (fresh_record h.length)])[x.q]? = none :=
      List.getElem?_eq_none (by simp; omega)
    simp [quarter, record, make_edge, h1, hn, hn']

theorem nxt_make_edge_old (h : Heap) {x : edge_reference} (hx : x.q < h.length) :
    nxt (make_edge h).1 x = nxt h x := by
  have : ¬ x.q = h.length := by omega
  simp [nxt, quarter_make_edge, this, hx]

theorem dat_make_edge_old (h : Heap) {x : edge_reference} (hx : x.q < h.length) :
    dat (make_edge h).1 x = dat h x := by
  have : ¬ x.q = h.length := by omega
  simp [dat, quarter_make_edge, this, hx]

theorem nxt_make_edge_new (h : Heap) (r : Nat) (hr : r < 4) :
    nxt (make_edge h).1 ⟨h.length, r⟩ = ⟨h.length, (4 - r) % 4⟩ := by
  simp only [nxt, quarter_make_edge, if_true, hr]
  interval_cases r <;> rfl

theorem live_make_edge_old {h : Heap} {x : edge_reference} (hx : Live h x) :
    Live (make_edge h).1 x := by
  refine ⟨?_, hx.2⟩
  rw [isLive_make_edge, hx.1]; simp

theorem live_make_edge_new (h : Heap) (r : Nat) (hr : r < 4) :
    Live (make_edge h).1 ⟨h.length, r⟩ := by
  refine ⟨?_, hr⟩
  rw [isLive_make_edge]; simp

theorem live_make_edge_cases {h : Heap} {x : edge_reference} (hx : Live (make_edge h).1 x) :
    (x.q = h.length ∧ x.r < 4) ∨ Live h x := by
  have h1 := hx.1
  rw [isLive_make_edge] at h1
  simp only [Bool.or_eq_true, decide_eq_true_eq] at h1
  rcases h1 with h1 | h1
  · exact Or.inl ⟨h1, hx.2⟩
  · exact Or.inr ⟨h1, hx.2⟩

/-- Calling `make_edge` keeps a well-formed store well-formed. -/
theorem make_edge_wf {h : Heap} (hwf : WellFormed h) : WellFormed (make_edge h).1 := by
  apply wf_of_live
  intro x hx
  rcases live_make_edge_cases hx with ⟨hq, hr⟩ | hx0
  · obtain ⟨q, r⟩ := x
    simp only at hq hr
    subst hq
    have hr' : ((4 - r) % 4 + 1) % 4 < 4 := Nat.mod_lt _ (by decide)
    have e2 : (edge_reference.mk h.length ((4 - r) % 4)).rot 1 =
        ⟨h.length, ((4 - r) % 4 + 1) % 4⟩ := rot_one _
    rw [nxt_make_edge_new h r hr, e2, nxt_make_edge_new h _ hr', rot_one]
    refine ⟨live_make_edge_new h _ (Nat.mod_lt _ (by decide)), ?_, ?_⟩
    · show (4 - r) % 4 % 2 = r % 2
      omega
    · simp only [edge_reference.mk.injEq, true_and]
      omega
  · obtain ⟨lx, px, ix⟩ := wf_live hwf hx0
    have hq := isLive_lt hx0.1
    have hq1 := isLive_lt (wf_live_g hwf hx0).1
    rw [nxt_make_edge_old h hq, nxt_make_edge_old h hq1]
    exact ⟨live_make_edge_old lx, px, ix⟩

theorem connect_unfold (h : Heap) (a b : edge_reference) :
    connect h a b =
      (DEST (make_edge h).1 a >>= fun d =>
        setData (make_edge h).1 ⟨h.length, 0⟩ d >>= fun h1 =>
        ORG h1 b >>= fun o =>
        setData h1 (edge_reference.sym ⟨h.length, 0⟩) o >>= fun h2 =>
        l_next h2 a >>= fun x =>
        splice h2 ⟨h.length, 0⟩ x >>= fun h3 =>
        splice h3 (edge_reference.sym ⟨h.length, 0⟩) b >>= fun h4 =>
        pure (h4, ⟨h.length, 0⟩)) := rfl

theorem wf_transfer {h h' : Heap} (hwf : WellFormed h) (hl : ∀ q, isLive h' q = isLive h q)
    (hn : ∀ x, nxt h' x = nxt h x) : WellFormed h' := by
  have hl' : ∀ x, Live h' x ↔ Live h x := fun x => by unfold Live; rw [hl]
  apply wf_of_live
  intro x hx
  obtain ⟨lx, px, ix⟩ := wf_live hwf ((hl' x).1 hx)
  rw [hn, hn]
  exact ⟨(hl' _).2 lx, px, ix⟩

theorem nxt_inj {h : Heap} (hwf : WellFormed h) {x y : edge_reference} (hx : Live h x)
    (hy : Live h y) (hxy : nxt h x = nxt h y) : x = y := by
  have ix := wf_invol hwf hx
  rw [hxy, wf_invol hwf hy] at ix
  exact ix.symm

theorem rot_neg_one_rot_one (x : edge_reference) (hx : x.r < 4) : (x.rot (-1)).rot 1 = x := by
  rw [rot_neg_one, rot_one]
  cases x
  simp only [edge_reference.mk.injEq, true_and] at hx ⊢
  omega

theorem rot_one_sym (x : edge_reference) : x.sym.rot 1 = x.rot (-1) := by
  rw [sym_eq, rot_one, rot_neg_one]
  simp only [edge_reference.mk.injEq, true_and]
  omega

theorem sym_sym (x : edge_reference) (hx : x.r < 4) : x.sym.sym = x := by
  rw [sym_eq, sym_eq]
  cases x
  simp only [edge_reference.mk.injEq, true_and] at hx ⊢
  omega

theorem sym_r (x : edge_reference) : x.sym.r = (x.r + 2) % 4 := by rw [sym_eq]

theorem rot_neg_one_r (x : edge_reference) : (x.rot (-1)).r = (x.r + 3) % 4 := by
  rw [rot_neg_one]

/-- In a well-formed store `l_next` is the inverse of `o_next` read at `sym`:
with `x = a.l_next()`, `x.o_next() == a.sym()`. -/
theorem nxt_l_next {h : Heap} (hwf : WellFormed h) {a : edge_reference} (ha : Live h a) :
    Live h ((nxt h (a.rot (-1))).rot 1) ∧
      ((nxt h (a.rot (-1))).rot 1).r % 2 = a.r % 2 ∧
      nxt h ((nxt h (a.rot (-1))).rot 1) = a.sym := by
  have hm := live_rot (-1) ha
  obtain ⟨l1, p1, -⟩ := wf_live hwf hm
  have hx := wf_live_g hwf hm
  refine ⟨hx, ?_, ?_⟩
  · have := rot_neg_one_r a
    rw [rot_parity]; omega
  · have i1 := wf_invol hwf hm
    have l2 := (wf_live hwf hx).1
    apply rot_one_inj l2.2 (sym_r_lt a)
    rw [i1, rot_one_sym]

/-- If `z.o_next() == e` in a well-formed store then `e.o_prev() == z`. -/
theorem o_prev_of_nxt {h : Heap} (hwf : WellFormed h) {z e : edge_reference} (hz : Live h z)
    (hze : nxt h z = e) : (nxt h (e.rot 1)).rot 1 = z := by
  rw [← hze]; exact wf_invol hwf hz

theorem connect_spec {h : Heap} {a b : edge_reference} (hwf : WellFormed h) (ha : Live h a)
    (hb : Live h b) (pa : a.r % 2 = 0) (pb : b.r % 2 = 0) :
    ∃ h0 h2, connect h a b = .ok (h2, ⟨h.length, 0⟩) ∧ ConnectPost h a b h0 h2 := by
  have hE : Live (make_edge h).1 ⟨h.length, 0⟩ := live_make_edge_new h 0 (by decide)
  have hS : edge_reference.sym ⟨h.length, 0⟩ = ⟨h.length, 2⟩ := by simp [sym_eq]
  have hE2 : Live (make_edge h).1 ⟨h.length, 2⟩ := live_make_edge_new h 2 (by decide)
  have haq := isLive_lt ha.1
  have hbq := isLive_lt hb.1
  have hasq : a.sym.q < h.length := by rw [sym_q]; exact haq
  -- allocation and data
  obtain ⟨h1, e1, len1, live1, n1, d1⟩ := setData_spec hE (dat (make_edge h).1 a.sym)
  have lv1 : ∀ y, Live h1 y ↔ Live (make_edge h).1 y := fun y => by unfold Live; rw [live1]
  obtain ⟨h0, e0, len0, live0, n0, d0⟩ := setData_spec ((lv1 _).2 hE2) (dat h1 b)
  have lv0 : ∀ y, Live h0 y ↔ Live (make_edge h).1 y := fun y => by
    unfold Live; rw [live0, live1]
  have lold : ∀ y, Live h y → Live h0 y := fun y hy => (lv0 y).2 (live_make_edge_old hy)
  have nn0 : ∀ y, nxt h0 y = nxt (make_edge h).1 y := fun y => by rw [n0, n1]
  have wf0 : WellFormed h0 :=
    wf_transfer (make_edge_wf hwf) (fun q => by rw [live0, live1]) nn0
  have nold : ∀ y : edge_reference, y.q < h.length → nxt h0 y = nxt h y := fun y hy => by
    rw [nn0, nxt_make_edge_old h hy]
  have bneE : b ≠ ⟨h.length, 0⟩ := by
    intro hc; rw [hc] at hbq; exact Nat.lt_irrefl _ hbq
  have bneS : b ≠ ⟨h.length, 2⟩ := by
    intro hc; rw [hc] at hbq; exact Nat.lt_irrefl _ hbq
  -- the old `a.l_next()`
  obtain ⟨lx, px, nx⟩ := nxt_l_next hwf ha
  have hxq := isLive_lt lx.1
  have xneE : (nxt h (a.rot (-1))).rot 1 ≠ ⟨h.length, 0⟩ := by
    intro hc; rw [hc] at hxq; exact Nat.lt_irrefl _ hxq
  have xneS : (nxt h (a.rot (-1))).rot 1 ≠ ⟨h.length, 2⟩ := by
    intro hc; rw [hc] at hxq; exact Nat.lt_irrefl _ hxq
  have hln : l_next h0 a = .ok ((nxt h (a.rot (-1))).rot 1) := by
    have hm : Live h0 (a.rot (-1)) := lold _ (live_rot (-1) ha)
    have : (a.rot (-1)).q < h.length := by rw [rot_q]; exact haq
    simp only [l_next, o_next_of_live hm, nold _ this, bind, Except.bind, pure, Except.pure]
  -- the two splices
  have hE0 : Live h0 ⟨h.length, 0⟩ := (lv0 _).2 hE
  have hS0 : Live h0 ⟨h.length, 2⟩ := (lv0 _).2 hE2
  have hx0 : Live h0 ((nxt h (a.rot (-1))).rot 1) := lold _ lx
  obtain ⟨h3, e3, s3, wf3, n3⟩ := splice_wf wf0 hE0 hx0 (by simp [px, pa])
  have hS3 : Live h3 ⟨h.length, 2⟩ := (s3.live_iff _).2 hS0
  have hb3 : Live h3 b := (s3.live_iff _).2 (lold _ hb)
  obtain ⟨h4, e4, s4, wf4, n4⟩ := splice_wf wf3 hS3 hb3 (by simp [pb])
  have nE : nxt h0 ⟨h.length, 0⟩ = ⟨h.length, 0⟩ := by
    rw [nn0, nxt_make_edge_new h 0 (by decide)]
  have nS : nxt h0 ⟨h.length, 2⟩ = ⟨h.length, 2⟩ := by
    rw [nn0, nxt_make_edge_new h 2 (by decide)]
  have nx0 : nxt h0 ((nxt h (a.rot (-1))).rot 1) = a.sym := by rw [nold _ hxq, nx]
  have f3 : ∀ y, y.r % 2 = 0 → nxt h3 y =
      if y = ⟨h.length, 0⟩ then a.sym
      else if y = (nxt h (a.rot (-1))).rot 1 then ⟨h.length, 0⟩ else nxt h0 y := by
    intro y hy
    rw [n3, spliceF_same_parity wf0 hE0 hx0 (by simp [px, pa]) y (by simp [hy]), nx0, nE]
  have f4 : ∀ y, y.r % 2 = 0 → nxt h4 y =
      if y = ⟨h.length, 2⟩ then nxt h3 b
      else if y = b then nxt h3 ⟨h.length, 2⟩ else nxt h3 y := by
    intro y hy
    rw [n4, spliceF_same_parity wf3 hS3 hb3 (by simp [pb]) y (by simp [hy])]
  have ES : (⟨h.length, 2⟩ : edge_reference) ≠ ⟨h.length, 0⟩ := by simp
  refine ⟨h0, h4, ?_, ⟨?_, ?_, nold, ?_, ?_, ?_, ?_, wf0, s3.trans s4, wf4, ?_⟩⟩
  · rw [connect_unfold]
    have hDEST : DEST (make_edge h).1 a = .ok (dat (make_edge h).1 a.sym) :=
      data_of_live (live_make_edge_old (live_sym ha))
    have hORG : ORG h1 b = .ok (dat h1 b) :=
      data_of_live ((lv1 _).2 (live_make_edge_old hb))
    simp only [hDEST, hS, e1, hORG, e0, hln, e3, e4, bind, Except.bind, pure, Except.pure]
  · rw [len0, len1]; simp [make_edge]
  · intro q; rw [live0, live1, isLive_make_edge]
  · intro r hr; rw [nn0, nxt_make_edge_new h r hr]
  · intro y hy
    have y1 : y ≠ ⟨h.length, 2⟩ := by
      intro hc; rw [hc] at hy; exact Nat.lt_irrefl _ hy
    have y2 : y ≠ ⟨h.length, 0⟩ := by
      intro hc; rw [hc] at hy; exact Nat.lt_irrefl _ hy
    rw [d0, if_neg y1, d1, if_neg y2, dat_make_edge_old h hy]
  · rw [d0, if_neg ES.symm, d1, if_pos rfl, dat_make_edge_old h hasq]
  · rw [d0, if_pos rfl, d1, if_neg bneE, dat_make_edge_old h hbq]
  · intro y _ hy
    rw [f4 y hy, f3 b pb, f3 ⟨h.length, 2⟩ (by simp), f3 y hy, if_neg bneE, if_neg ES,
      if_neg xneS.symm, nS, nold b hbq]

/-- In a well-formed store `e.o_prev().o_next() == e`. -/
theorem nxt_o_prev {h : Heap} (hwf : WellFormed h) {e : edge_reference} (he : Live h e) :
    Live h ((nxt h (e.rot 1)).rot 1) ∧ ((nxt h (e.rot 1)).rot 1).r % 2 = e.r % 2 ∧
      nxt h ((nxt h (e.rot 1)).rot 1) = e := by
  have h1 := live_rot 1 he
  obtain ⟨-, p1, -⟩ := wf_live hwf h1
  have hp := wf_live_g hwf h1
  refine ⟨hp, ?_, ?_⟩
  · have := rot_parity e
    rw [rot_parity]; omega
  · exact rot_one_inj (wf_live hwf hp).1.2 he.2 (wf_invol hwf h1)

theorem free_spec {h : Heap} {q : Nat} (hq : isLive h q = true) :
    free h q = .ok (h.set q none) ∧ (h.set q none).length = h.length ∧
      (∀ q', isLive (h.set q none) q' = (isLive h q' && !decide (q' = q))) ∧
      (∀ y : edge_reference, y.q ≠ q → quarter (h.set q none) y = quarter h y) := by
  obtain ⟨rec, hrec⟩ := isLive_iff.1 hq
  have hlt := isLive_lt hq
  refine ⟨by simp [free, hrec], by simp, ?_, ?_⟩
  · intro q'
    by_cases hqq : q' = q
    · subst hqq
      simp [isLive, List.getElem?_set_self, hlt]
    · simp [isLive, List.getElem?_set_ne (Ne.symm hqq), hqq]
  · intro y hy
    simp [quarter, record, List.getElem?_set_ne (Ne.symm hy)]

theorem delete_unfold (h : Heap) (e : edge_reference) :
    delete_edge h e =
      (o_prev h e >>= fun p =>
        splice h e p >>= fun h1 =>
        o_prev h1 e.sym >>= fun p' =>
        splice h1 e.sym p' >>= fun h2 =>
        free h2 e.q) := rfl

theorem o_prev_of_live {h : Heap} {e : edge_reference} (he : Live h e) :
    o_prev h e = .ok ((nxt h (e.rot 1)).rot 1) := by
  simp only [o_prev, o_next_of_live (live_rot 1 he), bind, Except.bind, pure, Except.pure]

theorem sym_ne (e : edge_reference) : e ≠ e.sym := by
  intro hc
  have := sym_r e
  rw [← hc] at this
  omega

theorem delete_spec {h : Heap} {e : edge_reference} (hwf : WellFormed h) (he : Live h e) :
    ∃ h1 h2 h3, delete_edge h e = .ok h3 ∧ DeletePost h e h1 h2 h3 := by
  obtain ⟨lp, pp, np⟩ := nxt_o_prev hwf he
  obtain ⟨h1, e1, s1, wf1, n1⟩ := splice_wf hwf he lp pp.symm
  have f1 : ∀ y : edge_reference, y.r % 2 = e.r % 2 → nxt h1 y =
      if y = e then e else if y = (nxt h (e.rot 1)).rot 1 then nxt h e else nxt h y := by
    intro y hy
    rw [n1, spliceF_same_parity hwf he lp pp.symm y hy, np]
  have hs1 : Live h1 e.sym := (s1.live_iff _).2 (live_sym he)
  obtain ⟨lp', pp', np'⟩ := nxt_o_prev wf1 hs1
  obtain ⟨h2, e2, s2, wf2, n2⟩ := splice_wf wf1 hs1 lp' pp'.symm
  have psym : e.sym.r % 2 = e.r % 2 := by rw [sym_r]; omega
  have f2 : ∀ y : edge_reference, y.r % 2 = e.r % 2 → nxt h2 y =
      if y = e.sym then e.sym
      else if y = (nxt h1 (e.sym.rot 1)).rot 1 then nxt h1 e.sym else nxt h1 y := by
    intro y hy
    rw [n2, spliceF_same_parity wf1 hs1 lp' pp'.symm y (by rw [hy, psym]), np']
  have he2 : Live h2 e := (s2.live_iff _).2 ((s1.live_iff _).2 he)
  have hs2 : Live h2 e.sym := (s2.live_iff _).2 hs1
  have fixS : nxt h2 e.sym = e.sym := by rw [f2 _ psym, if_pos rfl]
  have fix1 : nxt h1 e = e := by rw [f1 _ rfl, if_pos rfl]
  have fixE : nxt h2 e = e := by
    have c : e ≠ (nxt h1 (e.sym.rot 1)).rot 1 := by
      intro hc
      rw [← hc, fix1] at np'
      exact sym_ne e np'
    rw [f2 _ rfl, if_neg (sym_ne e), if_neg c, fix1]
  -- the dual quarters
  have fixD1 : nxt h2 (e.rot 1) = e.rot (-1) := by
    have i := wf_invol wf2 he2
    rw [fixE] at i
    have l := (wf_live wf2 (live_rot 1 he2)).1
    apply rot_one_inj l.2 (rot_r_lt e (-1))
    rw [i, rot_neg_one_rot_one e he.2]
  have fixD3 : nxt h2 (e.rot (-1)) = e.rot 1 := by
    have i := wf_invol wf2 hs2
    rw [fixS, rot_one_sym] at i
    have l := (wf_live wf2 (live_rot (-1) he2)).1
    apply rot_one_inj l.2 (rot_r_lt e 1)
    rw [i, rot_one, rot_one, sym_eq]
    simp only [edge_reference.mk.injEq, true_and]
    omega
  have four : ∀ y : edge_reference, y.q = e.q → y.r < 4 →
      y = e ∨ y = e.rot 1 ∨ y = e.sym ∨ y = e.rot (-1) := by
    intro y hq hr
    rw [rot_one, sym_eq, rot_neg_one]
    obtain ⟨yq, yr⟩ := y
    obtain ⟨eq, er⟩ := e
    simp only [edge_reference.mk.injEq] at hq hr he ⊢
    have := he.2
    simp only at this
    subst hq
    simp only [true_and]
    omega
  have own : ∀ y : edge_reference, Live h2 y → y.q = e.q → (nxt h2 y).q = e.q := by
    intro y hy hq
    rcases four y hq hy.2 with c | c | c | c
    · rw [c, fixE]
    · rw [c, fixD1, rot_q]
    · rw [c, fixS, sym_q]
    · rw [c, fixD3, rot_q]
  have iso : ∀ y : edge_reference, Live h2 y → (nxt h2 y).q = e.q → y.q = e.q := by
    intro y hy hq
    have lz := (wf_live wf2 hy).1
    rcases four _ hq lz.2 with c | c | c | c
    · rw [nxt_inj wf2 hy he2 (c.trans fixE.symm)]
    · rw [nxt_inj wf2 hy (live_rot (-1) he2) (c.trans fixD3.symm), rot_q]
    · rw [nxt_inj wf2 hy hs2 (c.trans fixS.symm), sym_q]
    · rw [nxt_inj wf2 hy (live_rot 1 he2) (c.trans fixD1.symm), rot_q]
  obtain ⟨e3, len3, live3, q3⟩ := free_spec he2.1
  have nxt3 : ∀ y : edge_reference, y.q ≠ e.q → nxt (h2.set e.q none) y = nxt h2 y := by
    intro y hy; simp only [nxt, q3 y hy]
  have dat3 : ∀ y : edge_reference, y.q ≠ e.q → dat (h2.set e.q none) y = dat h2 y := by
    intro y hy; simp only [dat, q3 y hy]
  have lv3 : ∀ y : edge_reference, Live (h2.set e.q none) y ↔ Live h2 y ∧ y.q ≠ e.q := by
    intro y
    unfold Live
    rw [live3]
    simp only [Bool.and_eq_true, Bool.not_eq_true', decide_eq_false_iff_not]
    constructor
    · rintro ⟨⟨a1, a2⟩, a3⟩; exact ⟨⟨a1, a3⟩, a2⟩
    · rintro ⟨⟨a1, a3⟩, a2⟩; exact ⟨⟨a1, a2⟩, a3⟩
  refine ⟨h1, h2, h2.set e.q none, ?_, ⟨s1, wf1, f1, s2, wf2, f2, own, iso, len3, live3, nxt3,
    dat3, ?_⟩⟩
  · rw [delete_unfold]
    simp only [o_prev_of_live he, o_prev_of_live hs1, e1, e2, e3, bind, Except.bind]
  · apply wf_of_live
    intro y hy
    obtain ⟨hy2, hyq⟩ := (lv3 y).1 hy
    obtain ⟨lz, pz, iz⟩ := wf_live wf2 hy2
    have hzq : (nxt h2 y).q ≠ e.q := fun hc => hyq (iso y hy2 hc)
    have hzq' : ((nxt h2 y).rot 1).q ≠ e.q := by rw [rot_q]; exact hzq
    rw [nxt3 y hyq, nxt3 _ hzq']
    exact ⟨(lv3 _).2 ⟨lz, hzq⟩, pz, iz⟩

/-- Two well-formed stores with the same live records whose primal successors agree have
the same successors everywhere: the dual rings are determined by the primal ones. -/
theorem nxt_agree {h h' : Heap} (hwf : WellFormed h) (hwf' : WellFormed h')
    (hl : ∀ q, isLive h' q = isLive h q)
    (hev : ∀ y, Live h y → y.r % 2 = 0 → nxt h' y = nxt h y) :
    ∀ y, Live h y → nxt h' y = nxt h y := by
  have lv : ∀ y, Live h' y ↔ Live h y := fun y => by unfold Live; rw [hl]
  intro y hy
  by_cases py : y.r % 2 = 0
  · exact hev y hy py
  · have hy' := (lv y).2 hy
    obtain ⟨l0, p0, i0⟩ := wf_live hwf hy
    obtain ⟨l4, p4, i4⟩ := wf_live hwf' hy'
    have g0 := wf_live_g hwf hy
    have g4 := wf_live_g hwf' hy'
    have pg : ((nxt h y).rot 1).r % 2 = 0 := by rw [rot_parity]; omega
    have e1 := hev _ g0 pg
    have e2 : nxt h' ((nxt h y).rot 1) = nxt h' ((nxt h' y).rot 1) := by
      apply rot_one_inj (wf_live hwf' ((lv _).2 g0)).1.2 (wf_live hwf' g4).1.2
      rw [e1, i0, i4]
    have e3 := nxt_inj hwf' ((lv _).2 g0) g4 e2
    exact (rot_one_inj l0.2 l4.2 e3).symm

theorem wf_empty : WellFormed [] := by
  intro q hq; exact absurd hq (Nat.not_lt_zero q)

/-- Every reachable store is well-formed. -/
theorem reachable_wf {h : Heap} (hr : Reachable h) : WellFormed h := by
  induction hr with
  | empty => exact wf_empty
  | make_edge h _ ih => exact make_edge_wf ih
  | splice h a b h' _ ha hb hp hs ih =>
    obtain ⟨h'', e'', -, wf'', -⟩ := splice_wf ih ha hb hp
    rw [hs] at e''
    cases e''
    exact wf''
  | connect h a b h' e _ ha hb pa pb hc ih =>
    obtain ⟨h0, h2, e2, P⟩ := connect_spec ih ha hb pa pb
    rw [hc] at e2
    cases e2
    exact P.wf2
  | delete_edge h e h' _ he hd ih =>
    obtain ⟨d1, d2, d3, e3, D⟩ := delete_spec ih he
    rw [hd] at e3
    cases e3
    exact D.wf3
  | setData h e p h' _ he hs ih =>
    obtain ⟨h'', e'', -, l'', n'', -⟩ := setData_spec he p
    rw [hs] at e''
    cases e''
    exact wf_transfer ih l'' n''

theorem triangleStore_reachable : Reachable triangleStore := by
  have r2 : Reachable twoEdges := Reachable.make_edge _ (Reachable.make_edge _ Reachable.empty)
  have s : splice twoEdges ⟨0, 2⟩ ⟨1, 0⟩ = .ok
      (match splice twoEdges ⟨0, 2⟩ ⟨1, 0⟩ with
        | .ok h => h
        | .error _ => []) := rfl
  have r3 := Reachable.splice _ _ _ _ r2 (by decide) (by decide) (by decide) s
  refine Reachable.connect _ ⟨1, 0⟩ ⟨0, 0⟩ _ ⟨2, 0⟩ r3 (by decide) (by decide) (by decide)
    (by decide) ?_
  rfl

theorem swapVal_left {α : Type} [DecidableEq α] (σ : α → α) (a b : α) : swapVal σ a b a = σ b := by
  simp [swapVal]

theorem swapVal_right {α : Type} [DecidableEq α] (σ : α → α) (a b : α) : swapVal σ a b b = σ a := by
  unfold swapVal
  by_cases h : b = a
  · rw [if_pos h, h]
  · rw [if_neg h, if_pos rfl]

theorem swapVal_other {α : Type} [DecidableEq α] (σ : α → α) {a b x : α} (ha : x ≠ a) (hb : x ≠ b) :
    swapVal σ a b x = σ x := by
  simp [swapVal, ha, hb]

/-- A set that contains `a` and is closed under `f` contains the forward orbit of `a`. -/
theorem iterate_closed {α : Type} {f : α → α} {P : α → Prop} (hP : ∀ x, P x → P (f x)) {a : α}
    (ha : P a) (k : Nat) : P (f^[k] a) := by
  induction k with
  | zero => exact ha
  | succ k ih => rw [Function.iterate_succ_apply']; exact hP _ ih

theorem iterate_step {α : Type} {f : α → α} {a y : α} (h : ∃ k, f^[k] a = y) : ∃ k, f^[k] a = f y := by
  obtain ⟨k, hk⟩ := h
  exact ⟨k + 1, by rw [Function.iterate_succ_apply', hk]⟩

/-- A point of a periodic orbit that reaches `a` is reached from `a`. -/
theorem orbit_symm {α : Type} {σ : α → α} {a b : α} (hb : b ∈ Function.periodicPts σ)
    (h : ∃ k, σ^[k] b = a) : ∃ k, σ^[k] a = b := by
  obtain ⟨k, hk⟩ := h
  obtain ⟨n, hn, hp⟩ := Function.mem_periodicPts.1 hb
  refine ⟨k * (n - 1), ?_⟩
  rw [← hk, ← Function.iterate_add_apply]
  have : k * (n - 1) + k = n * k := by
    obtain ⟨m, rfl⟩ : ∃ m, n = m + 1 := ⟨n - 1, by omega⟩
    simp only [Nat.add_sub_cancel]
    ring
  rw [this]
  exact (hp.mul_const k)

/-- Splice of two distinct rings: the ring of `a` becomes the union of both. -/
theorem orbit_merge {α : Type} [DecidableEq α] (σ : α → α) (a b : α)
    (hb : b ∈ Function.periodicPts σ) (hnot : ¬ ∃ k, σ^[k] a = b) (x : α) :
    (∃ k, (swapVal σ a b)^[k] a = x) ↔ ((∃ k, σ^[k] a = x) ∨ (∃ k, σ^[k] b = x)) := by
  have hnot' : ¬ ∃ k, σ^[k] b = a := fun hc => hnot (orbit_symm hb hc)
  constructor
  · rintro ⟨k, rfl⟩
    apply iterate_closed (f := swapVal σ a b)
      (P := fun y => (∃ k, σ^[k] a = y) ∨ (∃ k, σ^[k] b = y))
    · intro y hy
      by_cases c1 : y = a
      · rw [c1, swapVal_left]; exact Or.inr ⟨1, rfl⟩
      by_cases c2 : y = b
      · rw [c2, swapVal_right]; exact Or.inl ⟨1, rfl⟩
      rw [swapVal_other σ c1 c2]
      rcases hy with hy | hy
      · exact Or.inl (iterate_step hy)
      · exact Or.inr (iterate_step hy)
    · exact Or.inl ⟨0, rfl⟩
  · have B : ∀ j, ∃ k, (swapVal σ a b)^[k] a = σ^[j + 1] b := by
      intro j
      induction j with
      | zero => exact ⟨1, by simp [swapVal_left]⟩
      | succ j ih =>
        by_cases c : σ^[j + 1] b = b
        · refine ⟨1, ?_⟩
          rw [Function.iterate_succ_apply' (n := j + 1), c]
          simp [swapVal_left]
        · have c' : σ^[j + 1] b ≠ a := fun hc => hnot' ⟨j + 1, hc⟩
          have := iterate_step ih
          rwa [swapVal_other σ c' c, ← Function.iterate_succ_apply' (f := σ)] at this
    have hb' : ∃ k, (swapVal σ a b)^[k] a = b := by
      obtain ⟨n, hn, hp⟩ := Function.mem_periodicPts.1 hb
      obtain ⟨m, rfl⟩ : ∃ m, n = m + 1 := ⟨n - 1, by omega⟩
      obtain ⟨k, hk⟩ := B m
      exact ⟨k, by rw [hk]; exact hp⟩
    have A : ∀ j, ∃ k, (swapVal σ a b)^[k] a = σ^[j + 1] a := by
      intro j
      induction j with
      | zero =>
        have := iterate_step hb'
        rwa [swapVal_right] at this
      | succ j ih =>
        by_cases c : σ^[j + 1] a = a
        · have := iterate_step hb'
          rw [swapVal_right] at this
          rw [Function.iterate_succ_apply' (n := j + 1), c]
          exact this
        · have c' : σ^[j + 1] a ≠ b := fun hc => hnot ⟨j + 1, hc⟩
          have := iterate_step ih
          rwa [swapVal_other σ c c', ← Function.iterate_succ_apply' (f := σ)] at this
    rintro (⟨k, rfl⟩ | ⟨k, rfl⟩)
    · cases k with
      | zero => exact ⟨0, rfl⟩
      | succ k => exact A k
    · cases k with
      | zero => exact hb'
      | succ k => exact B k


/-- Splice inside one ring: the ring of `a` falls into the ring of `a` and the ring of
`b`, which are disjoint. -/
theorem orbit_split {α : Type} [DecidableEq α] (σ : α → α) (a b : α) (hab : a ≠ b)
    (ha : a ∈ Function.periodicPts σ) (hin : ∃ k, σ^[k] a = b) :
    (∀ x, ¬ ((∃ k, (swapVal σ a b)^[k] a = x) ∧ (∃ k, (swapVal σ a b)^[k] b = x))) ∧
    ∀ x, (∃ k, σ^[k] a = x) ↔
      ((∃ k, (swapVal σ a b)^[k] a = x) ∨ (∃ k, (swapVal σ a b)^[k] b = x)) := by
  have hn := Function.minimalPeriod_pos_of_mem_periodicPts ha
  have hper : σ^[Function.minimalPeriod σ a] a = a := Function.iterate_minimalPeriod
  obtain ⟨k0, hk0⟩ := hin
  have hj : σ^[k0 % Function.minimalPeriod σ a] a = b := by
    rw [Function.iterate_mod_minimalPeriod_eq, hk0]
  have hjn : k0 % Function.minimalPeriod σ a < Function.minimalPeriod σ a := Nat.mod_lt _ hn
  generalize k0 % Function.minimalPeriod σ a = j at hj hjn
  generalize hnd : Function.minimalPeriod σ a = n at hn hper hjn
  have inj : ∀ s t, s < n → t < n → σ^[s] a = σ^[t] a → s = t := by
    intro s t hs ht hst
    rw [← hnd] at hs ht
    exact (Function.iterate_eq_iterate_iff_of_lt_minimalPeriod hs ht).1 hst
  have hj0 : j ≠ 0 := by
    intro hc; rw [hc] at hj; exact hab hj
  have nea : ∀ t, t < n → t ≠ 0 → σ^[t] a ≠ a := fun t ht h0 hc => h0 (inj t 0 ht hn hc)
  have neb : ∀ t, t < n → t ≠ j → σ^[t] a ≠ b := fun t ht h0 hc =>
    h0 (inj t j ht hjn (hc.trans hj.symm))
  -- the two position sets
  have clA : ∀ y, (∃ t, t < n ∧ (t = 0 ∨ j < t) ∧ σ^[t] a = y) →
      ∃ t, t < n ∧ (t = 0 ∨ j < t) ∧ σ^[t] a = swapVal σ a b y := by
    rintro y ⟨t, ht, hc, rfl⟩
    have key : ∀ s, j ≤ s → s < n →
        ∃ t, t < n ∧ (t = 0 ∨ j < t) ∧ σ^[t] a = σ^[s + 1] a := by
      intro s hs hsn
      by_cases hlast : s + 1 = n
      · exact ⟨0, hn, Or.inl rfl, by rw [hlast, hper]; rfl⟩
      · exact ⟨s + 1, by omega, Or.inr (by omega), rfl⟩
    rcases hc with h0 | hgt
    · subst h0
      obtain ⟨t, h1, h2, h3⟩ := key j (Nat.le_refl _) hjn
      refine ⟨t, h1, h2, ?_⟩
      rw [h3, Function.iterate_succ_apply', hj]
      simp [swapVal_left]
    · obtain ⟨t', h1, h2, h3⟩ := key t (Nat.le_of_lt hgt) ht
      refine ⟨t', h1, h2, ?_⟩
      rw [h3, Function.iterate_succ_apply',
        swapVal_other σ (nea t ht (by omega)) (neb t ht (by omega))]
  have clB : ∀ y, (∃ t, 1 ≤ t ∧ t ≤ j ∧ σ^[t] a = y) →
      ∃ t, 1 ≤ t ∧ t ≤ j ∧ σ^[t] a = swapVal σ a b y := by
    rintro y ⟨t, h1, h2, rfl⟩
    by_cases htj : t = j
    · subst htj
      refine ⟨1, Nat.le_refl _, h1, ?_⟩
      rw [hj, swapVal_right]; rfl
    · refine ⟨t + 1, by omega, by omega, ?_⟩
      rw [Function.iterate_succ_apply',
        swapVal_other σ (nea t (by omega) (by omega)) (neb t (by omega) htj)]
  have inA : ∀ k, ∃ t, t < n ∧ (t = 0 ∨ j < t) ∧ σ^[t] a = (swapVal σ a b)^[k] a :=
    fun k => iterate_closed (f := swapVal σ a b)
      (P := fun y => ∃ t, t < n ∧ (t = 0 ∨ j < t) ∧ σ^[t] a = y) clA ⟨0, hn, Or.inl rfl, rfl⟩ k
  have inB : ∀ k, ∃ t, 1 ≤ t ∧ t ≤ j ∧ σ^[t] a = (swapVal σ a b)^[k] b :=
    fun k => iterate_closed (f := swapVal σ a b)
      (P := fun y => ∃ t, 1 ≤ t ∧ t ≤ j ∧ σ^[t] a = y) clB ⟨j, by omega, Nat.le_refl _, hj⟩ k
  refine ⟨?_, ?_⟩
  · rintro x ⟨⟨k1, rfl⟩, ⟨k2, h2⟩⟩
    obtain ⟨t, ht, hc, e1⟩ := inA k1
    obtain ⟨s, hs1, hs2, e2⟩ := inB k2
    have := inj t s ht (by omega) (by rw [e1, e2, h2])
    omega
  · intro x
    constructor
    · rintro ⟨k, rfl⟩
      rw [← Function.iterate_mod_minimalPeriod_eq (f := σ) (x := a) (n := k), hnd]
      have hkn : k % n < n := Nat.mod_lt _ hn
      generalize k % n = t at hkn
      have upB : ∀ t, 1 ≤ t → t ≤ j → ∃ k, (swapVal σ a b)^[k] b = σ^[t] a := by
        intro t h1
        induction t with
        | zero => omega
        | succ t ih =>
          intro h2
          by_cases ht0 : t = 0
          · subst ht0
            exact ⟨1, by simp [swapVal_right]⟩
          · have := iterate_step (f := swapVal σ a b) (ih (by omega) (by omega))
            rwa [swapVal_other σ (nea t (by omega) ht0) (neb t (by omega) (by omega)),
              ← Function.iterate_succ_apply' (f := σ)] at this
      have upA : ∀ t, j < t → t < n → ∃ k, (swapVal σ a b)^[k] a = σ^[t] a := by
        intro t h1
        induction t with
        | zero => omega
        | succ t ih =>
          intro h2
          by_cases htj : t = j
          · subst htj
            refine ⟨1, ?_⟩
            show swapVal σ a b a = σ^[t + 1] a
            rw [swapVal_left, Function.iterate_succ_apply', hj]
          · have := iterate_step (f := swapVal σ a b) (ih (by omega) (by omega))
            rwa [swapVal_other σ (nea t (by omega) (by omega)) (neb t (by omega) htj),
              ← Function.iterate_succ_apply' (f := σ)] at this
      by_cases h0 : t = 0
      · subst h0; exact Or.inl ⟨0, rfl⟩
      by_cases hle : t ≤ j
      · exact Or.inr (upB t (by omega) hle)
      · exact Or.inl (upA t (by omega) hkn)
    · rintro (⟨k, rfl⟩ | ⟨k, rfl⟩)
      · obtain ⟨t, -, -, e⟩ := inA k
        exact ⟨t, e⟩
      · obtain ⟨t, -, -, e⟩ := inB k
        exact ⟨t, e⟩

theorem live_finite (h : Heap) : Finite {e : edge_reference // Live h e} := by
  have : Function.Injective
      (fun e : {e : edge_reference // Live h e} =>
        ((⟨e.1.q, isLive_lt e.2.1⟩, ⟨e.1.r, e.2.2⟩) : Fin h.length × Fin 4)) := by
    rintro ⟨⟨q1, r1⟩, h1⟩ ⟨⟨q2, r2⟩, h2⟩ heq
    simp only [Prod.mk.injEq, Fin.mk.injEq] at heq
    simp only [Subtype.mk.injEq, edge_reference.mk.injEq]
    exact heq
  exact Finite.of_injective _ this

theorem iterate_cancel {h : Heap} (hwf : WellFormed h) :
    ∀ (i : Nat) (x y : edge_reference), Live h x → Live h y →
      (nxt h)^[i] x = (nxt h)^[i] y → x = y := by
  intro i
  induction i with
  | zero => intro x y _ _ hxy; exact hxy
  | succ i ih =>
    intro x y hx hy hxy
    rw [Function.iterate_succ_apply, Function.iterate_succ_apply] at hxy
    exact nxt_inj hwf hx hy (ih _ _ (wf_live hwf hx).1 (wf_live hwf hy).1 hxy)

/-- Every handle of a live record of a well-formed store lies on a cycle of `o_next`. -/
theorem nxt_periodic {h : Heap} (hwf : WellFormed h) {a : edge_reference} (ha : Live h a) :
    a ∈ Function.periodicPts (nxt h) := by
  have hl : ∀ k, Live h ((nxt h)^[k] a) := fun k =>
    iterate_closed (f := nxt h) (P := Live h) (fun x hx => (wf_live hwf hx).1) ha k
  haveI := live_finite h
  obtain ⟨i, j, hij, he⟩ := Finite.exists_ne_map_eq_of_infinite
    (fun k : ℕ => (⟨(nxt h)^[k] a, hl k⟩ : {e : edge_reference // Live h e}))
  simp only [Subtype.mk.injEq] at he
  have key : ∀ i j, i < j → (nxt h)^[i] a = (nxt h)^[j] a → a ∈ Function.periodicPts (nxt h) := by
    intro i j hlt heq
    obtain ⟨d, rfl⟩ : ∃ d, j = i + d := ⟨j - i, by omega⟩
    rw [Function.iterate_add_apply] at heq
    have := iterate_cancel hwf i _ _ ha (hl d) heq
    exact Function.mk_mem_periodicPts (by omega : 0 < d) this.symm
  rcases Nat.lt_or_gt_of_ne hij with hlt | hgt
  · exact key i j hlt he
  · exact key j i hgt he.symm

theorem ring_walk_eq {h : Heap} (hwf : WellFormed h) :
    ∀ (k : Nat) (a : edge_reference), Live h a → ring_walk h k a = .ok ((nxt h)^[k] a) := by
  intro k
  induction k with
  | zero => intro a _; rfl
  | succ k ih =>
    intro a ha
    rw [ring_walk, o_next_of_live ha, Function.iterate_succ_apply]
    exact ih _ (wf_live hwf ha).1

theorem inRing_iff {h : Heap} (hwf : WellFormed h) {a : edge_reference} (ha : Live h a)
    (x : edge_reference) : InRing h a x ↔ ∃ k, (nxt h)^[k] a = x := by
  unfold InRing
  constructor
  · rintro ⟨k, hk⟩
    rw [ring_walk_eq hwf k a ha] at hk
    exact ⟨k, Except.ok.inj hk⟩
  · rintro ⟨k, hk⟩
    exact ⟨k, by rw [ring_walk_eq hwf k a ha, hk]⟩

/-- Two functions that agree on a set closed under one of them have the same iterates from
a point of the set. -/
theorem iterate_congr_on {α : Type} {f g : α → α} {P : α → Prop} (hfg : ∀ x, P x → f x = g x)
    (hP : ∀ x, P x → P (g x)) {a : α} (ha : P a) (k : Nat) : f^[k] a = g^[k] a := by
  induction k with
  | zero => rfl
  | succ k ih =>
    rw [Function.iterate_succ_apply', Function.iterate_succ_apply', ih]
    exact hfg _ (iterate_closed hP ha k)

/-- Calling `delaunay` on a range of fewer than two points never reaches a base case. -/
theorem delaunay_short_range (pts : List vertex) (b : Nat) :
    ∀ (fuel : Nat) (h : Heap) (e : Nat), (e : Int) - b = 0 ∨ (e : Int) - b = 1 →
      delaunay pts fuel h b e = .error .fuel_exhausted := by
  intro fuel
  induction fuel with
  | zero => intro h e _; rfl
  | succ fuel ih =>
    intro h e he
    have h2 : ¬ ((e : Int) - b = 2) := by omega
    have h3 : ¬ ((e : Int) - b = 3) := by omega
    have hmid : b + (Int.tdiv ((e : Int) - b) 2).toNat = b := by
      rcases he with he | he <;> rw [he] <;> rfl
    rw [delaunay, if_neg h2, if_neg h3]
    simp only [hmid]
    rw [ih h b (Or.inl (by omega))]
    rfl

theorem detZ_eq_area2 (a b c : vertex) : detZ a b c = area2 a b c := by
  unfold detZ crossZ area2; ring

theorem liftedMatrix_det (a b c d : vertex) :
    (liftedMatrix a b c d).det =
      magZ a * detZ b c d - magZ b * detZ a c d + magZ c * detZ a b d - magZ d * detZ a b c := by
  have e1 : Fin.succAbove (2 : Fin 4) (2 : Fin 3) = 3 := by decide
  have e2 : Fin.succAbove (1 : Fin 4) (2 : Fin 3) = 3 := by decide
  have e3 : Fin.castSucc (2 : Fin 3) = (2 : Fin 4) := by decide
  unfold liftedMatrix magZ detZ crossZ
  simp [Matrix.det_succ_row_zero, Fin.sum_univ_succ, e1, e2, e3]
  ring


theorem in_circle_centre_identity (a b c d : vertex) (cx cy : ℚ)
    (hc : Circumcentre cx cy a b c) :
    ((magZ a * detZ b c d - magZ b * detZ a c d + magZ c * detZ a b d
        - magZ d * detZ a b c : Int) : ℚ) =
      (detZ a b c : ℚ) * (distSq cx cy a - distSq cx cy d) := by
  obtain ⟨hb, hc⟩ := hc
  unfold distSq at hb hc ⊢
  unfold magZ detZ crossZ
  push_cast
  linear_combination
    (-((a.x : ℚ) * c.y - a.y * c.x - (a.x * d.y - a.y * d.x) + (c.x * d.y - c.y * d.x))) * hb +
    ((a.x : ℚ) * b.y - a.y * b.x - (a.x * d.y - a.y * d.x) + (b.x * d.y - b.y * d.x)) * hc

theorem circumcentre_exists (a b c : vertex) (h : detZ a b c ≠ 0) :
    ∃ cx cy : ℚ, Circumcentre cx cy a b c := by
  have hD : (detZ a b c : ℚ) ≠ 0 := by exact_mod_cast h
  have hD' : ((a.x : ℚ) * b.y - a.y * b.x - (a.x * c.y - a.y * c.x) + (b.x * c.y - b.y * c.x)) ≠ 0 := by
    have : (detZ a b c : ℚ) =
        (a.x : ℚ) * b.y - a.y * b.x - (a.x * c.y - a.y * c.x) + (b.x * c.y - b.y * c.x) := by
      unfold detZ crossZ; push_cast; ring
    rwa [this] at hD
  refine ⟨((magZ a : ℚ) * (b.y - c.y) + magZ b * (c.y - a.y) + magZ c * (a.y - b.y)) /
      (2 * ((a.x : ℚ) * b.y - a.y * b.x - (a.x * c.y - a.y * c.x) + (b.x * c.y - b.y * c.x))),
    ((magZ a : ℚ) * (c.x - b.x) + magZ b * (a.x - c.x) + magZ c * (b.x - a.x)) /
      (2 * ((a.x : ℚ) * b.y - a.y * b.x - (a.x * c.y - a.y * c.x) + (b.x * c.y - b.y * c.x))),
    ?_, ?_⟩
  · unfold distSq magZ
    push_cast
    field_simp
    ring
  · unfold distSq magZ
    push_cast
    field_simp
    ring

theorem i32_of_fits {z : Int} (h1 : -2147483648 ≤ z) (h2 : z ≤ 2147483647) : i32 z = z := by
  unfold i32; omega

theorem i64_of_fits {z : Int} (h1 : -9223372036854775808 ≤ z) (h2 : z ≤ 9223372036854775807) :
    i64 z = z := by
  unfold i64; omega

theorem i32_sub (x y : Int) : i32 (i32 x - i32 y) = i32 (x - y) := by
  unfold i32; omega

theorem i32_add (x y : Int) : i32 (i32 x + i32 y) = i32 (x + y) := by
  unfold i32; omega

theorem cross32_eq (p q : vertex) : cross32 p q = i32 (crossZ p q) := by
  unfold cross32 sub32 mul32 crossZ
  exact i32_sub _ _

/-- With wrap-around, the `int` determinant expression is the exact value reduced to 32
bits, whatever overflows in between. -/
theorem det32_eq (p q s : vertex) : det32 p q s = i32 (detZ p q s) := by
  unfold det32 add32 sub32 detZ
  rw [cross32_eq, cross32_eq, cross32_eq, i32_sub, i32_add]

theorem chk32_eq_some {z v : Int} (h : chk32 z = some v) :
    v = z ∧ -2147483648 ≤ z ∧ z ≤ 2147483647 := by
  unfold chk32 at h
  split at h
  · next hz => exact ⟨(Option.some.inj h).symm, hz.1, hz.2⟩
  · cases h

theorem chk64_eq_some {z v : Int} (h : chk64 z = some v) :
    v = z ∧ -9223372036854775808 ≤ z ∧ z ≤ 9223372036854775807 := by
  unfold chk64 at h
  split at h
  · next hz => exact ⟨(Option.some.inj h).symm, hz.1, hz.2⟩
  · cases h

theorem chk32_of_fits {z : Int} (h1 : -2147483648 ≤ z) (h2 : z ≤ 2147483647) :
    chk32 z = some z := by
  unfold chk32; rw [if_pos ⟨h1, h2⟩]

theorem chk64_of_fits {z : Int} (h1 : -9223372036854775808 ≤ z)
    (h2 : z ≤ 9223372036854775807) : chk64 z = some z := by
  unfold chk64; rw [if_pos ⟨h1, h2⟩]

theorem cross32c_eq_some {p q : vertex} {v : Int} (h : cross32c p q = some v) :
    v = crossZ p q := by
  unfold cross32c at h
  simp only [Option.bind_eq_some] at h
  obtain ⟨m1, h1, m2, h2, h3⟩ := h
  rw [(chk32_eq_some h3).1, (chk32_eq_some h1).1, (chk32_eq_some h2).1]
  rfl

/-- If no intermediate result overflows, the `int` determinant expression has its exact
value, which fits in 32 bits. -/
theorem det32c_eq_some {p q s : vertex} {v : Int} (h : det32c p q s = some v) :
    v = detZ p q s ∧ -2147483648 ≤ detZ p q s ∧ detZ p q s ≤ 2147483647 := by
  unfold det32c at h
  simp only [Option.bind_eq_some] at h
  obtain ⟨c1, h1, c2, h2, d, h3, c3, h4, h5⟩ := h
  have e5 := chk32_eq_some h5
  have e3 := chk32_eq_some h3
  have hv : v = detZ p q s := by
    rw [e5.1, e3.1, cross32c_eq_some h1, cross32c_eq_some h2, cross32c_eq_some h4]
    rfl
  rw [← hv, e5.1]
  exact ⟨rfl, e5.2.1, e5.2.2⟩

theorem mul_bounds {x y A B : Int} (hx1 : -A ≤ x) (hx2 : x ≤ A) (hy1 : -B ≤ y) (hy2 : y ≤ B) :
    -(A * B) ≤ x * y ∧ x * y ≤ A * B := by
  constructor
  · nlinarith [mul_nonneg (sub_nonneg.2 hx2) (sub_nonneg.2 hy2),
      mul_nonneg (by linarith : (0 : Int) ≤ x + A) (by linarith : (0 : Int) ≤ y + B)]
  · nlinarith [mul_nonneg (sub_nonneg.2 hx2) (by linarith : (0 : Int) ≤ y + B),
      mul_nonneg (by linarith : (0 : Int) ≤ x + A) (sub_nonneg.2 hy2)]

theorem small_mul {x y : Int} (hx1 : -16384 ≤ x) (hx2 : x ≤ 16384) (hy1 : -16384 ≤ y)
    (hy2 : y ≤ 16384) : -268435456 ≤ x * y ∧ x * y ≤ 268435456 := by
  have := mul_bounds hx1 hx2 hy1 hy2
  norm_num at this
  exact this

theorem small_cross {p q : vertex} (hp : SmallPoint p) (hq : SmallPoint q) :
    cross32c p q = some (crossZ p q) ∧ -536870912 ≤ crossZ p q ∧ crossZ p q ≤ 536870912 := by
  obtain ⟨p1, p2, p3, p4⟩ := hp
  obtain ⟨q1, q2, q3, q4⟩ := hq
  have m1 := small_mul p1 p2 q3 q4
  have m2 := small_mul p3 p4 q1 q2
  unfold cross32c crossZ
  rw [chk32_of_fits (by omega) (by omega), Option.some_bind,
    chk32_of_fits (by omega) (by omega), Option.some_bind, chk32_of_fits (by omega) (by omega)]
  exact ⟨rfl, by omega, by omega⟩

theorem small_det {p q s : vertex} (hp : SmallPoint p) (hq : SmallPoint q) (hs : SmallPoint s) :
    det32c p q s = some (detZ p q s) ∧ -1610612736 ≤ detZ p q s ∧ detZ p q s ≤ 1610612736 := by
  obtain ⟨c1, b1, b1'⟩ := small_cross hp hq
  obtain ⟨c2, b2, b2'⟩ := small_cross hp hs
  obtain ⟨c3, b3, b3'⟩ := small_cross hq hs
  unfold det32c detZ
  rw [c1, Option.some_bind, c2, Option.some_bind, chk32_of_fits (by omega) (by omega),
    Option.some_bind, c3, Option.some_bind, chk32_of_fits (by omega) (by omega)]
  exact ⟨rfl, by omega, by omega⟩

theorem small_mag {p : vertex} (hp : SmallPoint p) :
    mag64c p = some (magZ p) ∧ 0 ≤ magZ p ∧ magZ p ≤ 536870912 ∧
      mag64 p = magZ p := by
  obtain ⟨p1, p2, p3, p4⟩ := hp
  have m1 := small_mul p1 p2 p1 p2
  have m2 := small_mul p3 p4 p3 p4
  have n1 : 0 ≤ p.x * p.x := mul_self_nonneg _
  have n2 : 0 ≤ p.y * p.y := mul_self_nonneg _
  unfold mag64c magZ mag64 mul32
  rw [chk64_of_fits (by omega) (by omega), Option.some_bind,
    chk32_of_fits (by omega) (by omega), Option.some_bind, chk64_of_fits (by omega) (by omega),
    i64_of_fits (z := p.x * p.x) (by omega) (by omega), i32_of_fits (by omega) (by omega),
    i64_of_fits (by omega) (by omega)]
  exact ⟨rfl, by omega, by omega, rfl⟩

theorem small_term {p q r s : vertex} (hp : SmallPoint p) (hq : SmallPoint q)
    (hr : SmallPoint r) (hs : SmallPoint s) :
    term64c p q r s = some (magZ p * detZ q r s) ∧
      -864691128455135232 ≤ magZ p * detZ q r s ∧
      magZ p * detZ q r s ≤ 864691128455135232 := by
  obtain ⟨m, m0, m1, -⟩ := small_mag hp
  obtain ⟨d, d0, d1⟩ := small_det hq hr hs
  have b := mul_bounds (A := 536870912) (B := 1610612736) (by omega) m1 d0 d1
  norm_num at b
  unfold term64c
  rw [m, Option.some_bind, d, Option.some_bind, chk64_of_fits (by omega) (by omega)]
  exact ⟨rfl, b.1, b.2⟩

theorem three_point_chain_empty : three_point_chain [] 0 = .ok (chain3, ⟨0, 0⟩, ⟨1, 0⟩) := rfl

theorem connect_chain3 : connect chain3 ⟨1, 0⟩ ⟨0, 0⟩ = .ok (triangle3, ⟨2, 0⟩) := rfl

/-- The three-point case of `delaunay` on the empty store. -/
theorem delaunay_three (s1 s2 s3 : vertex) (fuel : Nat) :
    delaunay [s1, s2, s3] (fuel + 1) [] 0 3 =
      if ccw s1 s2 s3 = true then .ok (triangle3, ⟨0, 0⟩, ⟨1, 2⟩)
      else if ccw s1 s3 s2 = true then .ok (triangle3, ⟨2, 2⟩, ⟨2, 0⟩)
      else .ok (chain3, ⟨0, 0⟩, ⟨1, 2⟩) := rfl


theorem ccw_false_of_collinear {a b c : vertex} (h : area2 a b c = 0) : ccw a b c = false := by
  unfold ccw
  rw [det32_eq, detZ_eq_area2, h]
  decide

theorem ccw_of_checked {a b c : vertex} (h : (ccw_checked a b c).isSome = true) :
    ccw a b c = decide (0 < area2 a b c) := by
  unfold ccw_checked at h
  cases hd : det32c a b c with
  | none => rw [hd] at h; cases h
  | some d =>
    obtain ⟨-, e2, e3⟩ := det32c_eq_some hd
    unfold ccw
    rw [det32_eq, i32_of_fits e2 e3, detZ_eq_area2]

theorem area2_swap (a b c : vertex) : area2 a c b = -area2 a b c := by
  unfold area2; ring

theorem live_chain3_cases {e : edge_reference} (he : Live chain3 e) :
    (e.q = 0 ∨ e.q = 1) ∧ e.r < 4 := by
  have := isLive_lt he.1
  have h2 : chain3.length = 2 := rfl
  rw [h2] at this
  exact ⟨by omega, he.2⟩

theorem nd_live {h : Heap} (hnd : NoDangling h) {e : edge_reference} (he : Live h e) :
    isLive h (nxt h e).q = true :=
  hnd e.q (isLive_lt he.1) e.r he.2 he.1

theorem nd_of_live {h : Heap} (hl : ∀ e, Live h e → isLive h (nxt h e).q = true) :
    NoDangling h := fun q _ r hr hq => hl ⟨q, r⟩ ⟨hq, hr⟩

theorem nd_live_g {h : Heap} (hnd : NoDangling h) {e : edge_reference} (he : Live h e) (n : Int) :
    Live h ((nxt h e).rot n) :=
  ⟨by rw [rot_q]; exact nd_live hnd he, rot_r_lt _ _⟩

theorem wf_nd {h : Heap} (hwf : WellFormed h) : NoDangling h :=
  nd_of_live fun _ he => (wf_live hwf he).1.1

theorem nd_empty : NoDangling [] := fun q hq => absurd hq (by simp)

/-- Calling `make_edge` leaves no dangling reference. -/
theorem make_edge_nd {h : Heap} (hnd : NoDangling h) : NoDangling (make_edge h).1 := by
  apply nd_of_live
  intro x hx
  rcases live_make_edge_cases hx with ⟨hq, hr⟩ | hx'
  · have hxe : x = ⟨h.length, x.r⟩ := by rw [← hq]
    rw [hxe, nxt_make_edge_new h x.r hr, isLive_make_edge]
    simp
  · rw [nxt_make_edge_old h (isLive_lt hx'.1), isLive_make_edge, nd_live hnd hx']
    simp

theorem spliceF_cases (σ : edge_reference → edge_reference) (a b x : edge_reference) :
    spliceF σ a b x = σ ((σ a).rot 1) ∨ spliceF σ a b x = σ ((σ b).rot 1) ∨
      spliceF σ a b x = σ a ∨ spliceF σ a b x = σ b ∨ spliceF σ a b x = σ x := by
  unfold spliceF
  split
  · exact Or.inl rfl
  · split
    · exact Or.inr (Or.inl rfl)
    · split
      · exact Or.inr (Or.inr (Or.inl rfl))
      · split
        · exact Or.inr (Or.inr (Or.inr (Or.inl rfl)))
        · exact Or.inr (Or.inr (Or.inr (Or.inr rfl)))

/-- Calling `splice` on live handles succeeds and leaves no dangling reference. -/
theorem splice_nd {h : Heap} (hnd : NoDangling h) {a b : edge_reference}
    (ha : Live h a) (hb : Live h b) :
    ∃ h', splice h a b = .ok h' ∧ SameShape h h' ∧ NoDangling h' ∧
      ∀ x, nxt h' x = spliceF (nxt h) a b x := by
  have hal := nd_live_g hnd ha 1
  have hbe := nd_live_g hnd hb 1
  obtain ⟨h', e, s, n⟩ := splice_spec ha hb hal hbe
  refine ⟨h', e, s, ?_, n⟩
  apply nd_of_live
  intro x hx
  have hx0 := (s.live_iff x).1 hx
  rw [s.live, n]
  rcases spliceF_cases (nxt h) a b x with e | e | e | e | e <;> rw [e]
  · exact nd_live hnd hal
  · exact nd_live hnd hbe
  · exact nd_live hnd ha
  · exact nd_live hnd hb
  · exact nd_live hnd hx0

theorem nd_transfer {h h' : Heap} (hnd : NoDangling h) (hl : ∀ q, isLive h' q = isLive h q)
    (hn : ∀ x, nxt h' x = nxt h x) : NoDangling h' := by
  apply nd_of_live
  intro x hx
  have hx0 : Live h x := by unfold Live at hx ⊢; rw [← hl]; exact hx
  rw [hl, hn]
  exact nd_live hnd hx0

/-- Calling `connect` on live handles succeeds and leaves no dangling reference. -/
theorem connect_nd {h : Heap} (hnd : NoDangling h) {a b : edge_reference}
    (ha : Live h a) (hb : Live h b) :
    ∃ h', connect h a b = .ok (h', ⟨h.length, 0⟩) ∧ NoDangling h' := by
  have hE : Live (make_edge h).1 ⟨h.length, 0⟩ := live_make_edge_new h 0 (by decide)
  have hS : edge_reference.sym ⟨h.length, 0⟩ = ⟨h.length, 2⟩ := by simp [sym_eq]
  have hE2 : Live (make_edge h).1 ⟨h.length, 2⟩ := live_make_edge_new h 2 (by decide)
  obtain ⟨h1, e1, len1, live1, n1, d1⟩ := setData_spec hE (dat (make_edge h).1 a.sym)
  have lv1 : ∀ y, Live h1 y ↔ Live (make_edge h).1 y := fun y => by unfold Live; rw [live1]
  obtain ⟨h0, e0, len0, live0, n0, d0⟩ := setData_spec ((lv1 _).2 hE2) (dat h1 b)
  have lv0 : ∀ y, Live h0 y ↔ Live (make_edge h).1 y := fun y => by
    unfold Live; rw [live0, live1]
  have lold : ∀ y, Live h y → Live h0 y := fun y hy => (lv0 y).2 (live_make_edge_old hy)
  have nd0 : NoDangling h0 :=
    nd_transfer (make_edge_nd hnd) (fun q => by rw [live0, live1]) (fun y => by rw [n0, n1])
  have hm : Live h0 (a.rot (-1)) := lold _ (live_rot (-1) ha)
  have hln : l_next h0 a = .ok ((nxt h0 (a.rot (-1))).rot 1) := by
    simp only [l_next, o_next_of_live hm, bind, Except.bind, pure, Except.pure]
  have hx0 : Live h0 ((nxt h0 (a.rot (-1))).rot 1) := nd_live_g nd0 hm 1
  obtain ⟨h3, e3, s3, nd3, -⟩ := splice_nd nd0 ((lv0 _).2 hE) hx0
  have hS3 : Live h3 ⟨h.length, 2⟩ := (s3.live_iff _).2 ((lv0 _).2 hE2)
  have hb3 : Live h3 b := (s3.live_iff _).2 (lold _ hb)
  obtain ⟨h4, e4, s4, nd4, -⟩ := splice_nd nd3 hS3 hb3
  refine ⟨h4, ?_, nd4⟩
  have hDEST : DEST (make_edge h).1 a = .ok (dat (make_edge h).1 a.sym) :=
    data_of_live (live_make_edge_old (live_sym ha))
  have hORG : ORG h1 b = .ok (dat h1 b) := data_of_live ((lv1 _).2 (live_make_edge_old hb))
  rw [connect_unfold]
  simp only [hDEST, hORG, e1, hS, e0, hln, e3, e4, bind, Except.bind, pure, Except.pure]

/-- Calling `delete_edge` on a live handle of a well-formed store succeeds, frees the record of
the handle, and no slot of a remaining record names the freed record. -/
theorem delete_nd {h : Heap} (hwf : WellFormed h) {e : edge_reference} (he : Live h e) :
    ∃ h', delete_edge h e = .ok h' ∧ NoDangling h' ∧ isLive h' e.q = false ∧
      ∀ y, Live h' y → (nxt h' y).q ≠ e.q := by
  obtain ⟨h1, h2, h3, e3, post⟩ := delete_spec hwf he
  have nd3 := wf_nd post.wf3
  have dead : isLive h3 e.q = false := by rw [post.live3]; simp
  refine ⟨h3, e3, nd3, dead, ?_⟩
  intro y hy hc
  have := nd_live nd3 hy
  rw [hc, dead] at this
  cases this

theorem quad_edge_ext {r1 r2 : quad_edge} (h : ∀ r, r < 4 → r1.slot r = r2.slot r) :
    r1 = r2 := by
  have h0 := h 0 (by decide)
  have h1 := h 1 (by decide)
  have h2 := h 2 (by decide)
  have h3 := h 3 (by decide)
  simp only [quad_edge.slot] at h0 h1 h2 h3
  cases r1; cases r2
  simp_all

/-- Two stores with the same addresses, the same live records and the same `next` and `data`
fields are equal. -/
theorem heap_ext {h h' : Heap} (hlen : h'.length = h.length)
    (hlive : ∀ q, isLive h' q = isLive h q) (hn : ∀ x, nxt h' x = nxt h x)
    (hd : ∀ x, dat h' x = dat h x) : h' = h := by
  apply List.ext_getElem?
  intro q
  by_cases hq : isLive h q = true
  · have hq' : isLive h' q = true := by rw [hlive]; exact hq
    obtain ⟨rec, hrec⟩ := isLive_iff.1 hq
    obtain ⟨rec', hrec'⟩ := isLive_iff.1 hq'
    rw [hrec, hrec']
    have : rec' = rec := by
      apply quad_edge_ext
      intro r hr
      have l : Live h ⟨q, r⟩ := ⟨hq, hr⟩
      have l' : Live h' ⟨q, r⟩ := ⟨hq', hr⟩
      obtain ⟨c, hc, qc⟩ := quarter_of_live l
      obtain ⟨c', hc', qc'⟩ := quarter_of_live l'
      have ec : c = rec := by
        have := hc.symm.trans hrec
        simpa using this
      have ec' : c' = rec' := by
        have := hc'.symm.trans hrec'
        simpa using this
      subst ec; subst ec'
      have n := hn ⟨q, r⟩
      have d := hd ⟨q, r⟩
      simp only [nxt, dat, qc, qc'] at n d
      cases hs : c.slot r
      cases hs' : c'.slot r
      rw [hs, hs'] at n d
      simp only at n d
      rw [n, d]
    rw [this]
  · have hq' : ¬ isLive h' q = true := by rw [hlive]; exact hq
    by_cases hlt : q < h.length
    · have hlt' : q < h'.length := by omega
      rw [List.getElem?_eq_getElem hlt, List.getElem?_eq_getElem hlt']
      cases c : h[q] with
      | some rec =>
        exact absurd (isLive_iff.2 ⟨rec, by rw [List.getElem?_eq_getElem hlt, c]⟩) hq
      | none =>
        cases c' : h'[q] with
        | some rec' =>
          exact absurd (isLive_iff.2 ⟨rec', by rw [List.getElem?_eq_getElem hlt', c']⟩) hq'
        | none => rfl
    · rw [List.getElem?_eq_none (by omega), List.getElem?_eq_none (by omega)]

/-- The four assignments of `splice(a, b)` and of `splice(b, a)` give the same successors. -/
theorem spliceF_comm (σ : edge_reference → edge_reference) (a b x : edge_reference) :
    spliceF σ a b x = spliceF σ b a x := by
  unfold spliceF
  by_cases h1 : x = (σ b).rot 1
  · by_cases h2 : x = (σ a).rot 1
    · rw [if_pos h1, if_pos h2, ← h1, ← h2]
    · rw [if_pos h1, if_neg h2, if_pos h1]
  · by_cases h2 : x = (σ a).rot 1
    · rw [if_neg h1, if_pos h2, if_pos h2]
    · rw [if_neg h1, if_neg h2, if_neg h2, if_neg h1]
      by_cases h3 : x = b
      · by_cases h4 : x = a
        · rw [if_pos h3, if_pos h4, ← h3, ← h4]
        · rw [if_pos h3, if_neg h4, if_pos h3]
      · by_cases h4 : x = a
        · rw [if_neg h3, if_pos h4, if_pos h4]
        · rw [if_neg h3, if_neg h4, if_neg h4, if_neg h3]

/-- On handles of the other parity than `a` and `b`, `splice(a, b)` exchanges the successors
of `a.o_next().rot()` and `b.o_next().rot()` and nothing else. -/
theorem spliceF_other_parity (h : Heap) {a b : edge_reference}
    (hpar : a.r % 2 = b.r % 2) (x : edge_reference) (hx : x.r % 2 ≠ a.r % 2) :
    spliceF (nxt h) a b x =
      if x = (nxt h b).rot 1 then nxt h ((nxt h a).rot 1)
      else if x = (nxt h a).rot 1 then nxt h ((nxt h b).rot 1) else nxt h x := by
  have h1 : x ≠ a := ne_of_parity hx
  have h2 : x ≠ b := ne_of_parity (by rw [← hpar]; exact hx)
  unfold spliceF
  simp only [h1, h2, if_false]

/-- Performing `splice(a, b)` twice gives back the successor function. -/
theorem spliceF_twice {h h' : Heap} (hwf : WellFormed h) (hwf' : WellFormed h')
    {a b : edge_reference} (ha : Live h a) (hb : Live h b) (ha' : Live h' a) (hb' : Live h' b)
    (hpar : a.r % 2 = b.r % 2) (n1 : ∀ x, nxt h' x = spliceF (nxt h) a b x)
    (x : edge_reference) : spliceF (nxt h') a b x = nxt h x := by
  have na : nxt h' a = nxt h b := by
    rw [n1, spliceF_same_parity hwf ha hb hpar a rfl, if_pos rfl]
  have nb : nxt h' b = nxt h a := by
    rw [n1, spliceF_same_parity hwf ha hb hpar b hpar.symm]
    by_cases hba : b = a
    · rw [if_pos hba, hba]
    · rw [if_neg hba, if_pos rfl]
  by_cases hx : x.r % 2 = a.r % 2
  · rw [spliceF_same_parity hwf' ha' hb' hpar x hx, na, nb]
    by_cases hxa : x = a
    · rw [if_pos hxa, hxa]
    · rw [if_neg hxa]
      by_cases hxb : x = b
      · rw [if_pos hxb, hxb]
      · rw [if_neg hxb, n1, spliceF_same_parity hwf ha hb hpar x hx, if_neg hxa, if_neg hxb]
  · rw [spliceF_other_parity h' hpar x hx, na, nb]
    obtain ⟨-, pa, -⟩ := wf_live hwf ha
    obtain ⟨-, pb, -⟩ := wf_live hwf hb
    have pal : ((nxt h a).rot 1).r % 2 ≠ a.r % 2 := by rw [rot_parity]; omega
    have pbe : ((nxt h b).rot 1).r % 2 ≠ a.r % 2 := by rw [rot_parity]; omega
    have nal : nxt h' ((nxt h a).rot 1) =
        if (nxt h a).rot 1 = (nxt h b).rot 1 then nxt h ((nxt h a).rot 1)
        else nxt h ((nxt h b).rot 1) := by
      rw [n1, spliceF_other_parity h hpar _ pal]
      by_cases hab : (nxt h a).rot 1 = (nxt h b).rot 1
      · rw [if_pos hab, if_pos hab]
      · rw [if_neg hab, if_neg hab, if_pos rfl]
    have nbe : nxt h' ((nxt h b).rot 1) = nxt h ((nxt h a).rot 1) := by
      rw [n1, spliceF_other_parity h hpar _ pbe, if_pos rfl]
    by_cases hxa : x = (nxt h a).rot 1
    · rw [if_pos hxa, nbe, hxa]
    · rw [if_neg hxa]
      by_cases hxb : x = (nxt h b).rot 1
      · rw [if_pos hxb, nal, hxb]
        by_cases hab : (nxt h a).rot 1 = (nxt h b).rot 1
        · rw [if_pos hab, hab]
        · rw [if_neg hab]
      · rw [if_neg hxb, n1, spliceF_other_parity h hpar x hx, if_neg hxb, if_neg hxa]

/-- Outside the range in which the predicates are exact the merge step can delete the edge
whose handle `delaunay` returns: on `wrapPoints` the call returns the left handle `{0, 0}`,
the record `0` has been freed, and reading `Org` of the returned handle is a use after
free. -/
theorem delaunay_wrap_frees_left_handle :
    (sortedPoints wrapPoints = true ∧ wrapPoints.Nodup) ∧
    (ccw_checked ⟨-34271, -11793⟩ ⟨3827, -41310⟩ ⟨22258, 48065⟩ = none) ∧
    ∀ fuel,
      (delaunay wrapPoints (fuel + 7) [] 0 5).map (fun r => (r.2.1, isLive r.1 r.2.1.q)) =
        .ok (⟨0, 0⟩, false) ∧
      (delaunay wrapPoints (fuel + 7) [] 0 5).bind (fun r => ORG r.1 r.2.1) =
        .error (.use_after_free 0) := by
  refine ⟨by decide, by decide, fun fuel => ⟨rfl, rfl⟩⟩

theorem bind_error {α β : Type} {x : Except Fault α} {f : α → Except Fault β} {e : Fault}
    (h : (x >>= f) = .error e) : x = .error e ∨ ∃ a, x = .ok a ∧ f a = .error e := by
  cases x with
  | error e' =>
    left
    simpa [bind, Except.bind] using h
  | ok a => exact Or.inr ⟨a, rfl, h⟩

theorem bind_ok {α β : Type} {x : Except Fault α} {f : α → Except Fault β} {b : β}
    (h : (x >>= f) = .ok b) : ∃ a, x = .ok a ∧ f a = .ok b := by
  cases x with
  | error e' => cases h
  | ok a => exact ⟨a, rfl, h⟩

theorem ne_exh_bind {α β : Type} {x : Except Fault α} {f : α → Except Fault β}
    (hx : x ≠ .error .fuel_exhausted) (hf : ∀ a, x = .ok a → f a ≠ .error .fuel_exhausted) :
    (x >>= f) ≠ .error .fuel_exhausted := by
  intro hc
  rcases bind_error hc with h1 | ⟨a, h1, h2⟩
  · exact hx h1
  · exact hf a h1 h2

theorem record_ne_exh (h : Heap) (q : Nat) : record h q ≠ .error .fuel_exhausted := by
  unfold record
  split <;> simp

theorem quarter_ne_exh (h : Heap) (e : edge_reference) :
    quarter h e ≠ .error .fuel_exhausted := by
  have hr := record_ne_exh h e.q
  unfold quarter
  split
  · split <;> simp
  · next f hf =>
    intro hc
    rw [Except.error.inj hc] at hf
    exact hr hf

theorem o_next_ne_exh (h : Heap) (e : edge_reference) :
    o_next h e ≠ .error .fuel_exhausted := by
  have hr := quarter_ne_exh h e
  unfold o_next
  split
  · simp
  · next f hf =>
    intro hc
    rw [Except.error.inj hc] at hf
    exact hr hf

theorem free_ne_exh (h : Heap) (q : Nat) : free h q ≠ .error .fuel_exhausted := by
  unfold free
  split <;> simp

theorem pure_ne_exh {α : Type} (a : α) : (pure a : Except Fault α) ≠ .error .fuel_exhausted := by
  simp [pure, Except.pure]

theorem o_prev_ne_exh (h : Heap) (e : edge_reference) : o_prev h e ≠ .error .fuel_exhausted :=
  ne_exh_bind (o_next_ne_exh _ _) fun _ _ => pure_ne_exh _

/-- C8. `make_edge` allocates a record that did not exist before, returns its rotation-0
handle `e`, and the record carries the four self-contained rings: `e.o_next() == e`,
`e.rot(1).o_next() == e.rot(3)`, `e.sym().o_next() == e.sym()`,
`e.rot(3).o_next() == e.rot(1)`; hence `e.o_prev() == e`,
`e.l_next() == e.r_next() == e.sym()`, and for the loop `f = e.rot()`:
`f.l_next() == f.r_next() == f`, `f.o_next() == f.o_prev() == f.sym()`.  Every
pre-existing cell of the store is unchanged. -/
theorem make_edge_rings (h : Heap) :
    ((make_edge h).2.r = 0 ∧ (make_edge h).2.q = h.length ∧ h[(make_edge h).2.q]? = none ∧
      isLive (make_edge h).1 (make_edge h).2.q = true) ∧
    (o_next (make_edge h).1 (make_edge h).2 = .ok (make_edge h).2 ∧
      o_next (make_edge h).1 ((make_edge h).2.rot 1) = .ok ((make_edge h).2.rot 3) ∧
      o_next (make_edge h).1 (make_edge h).2.sym = .ok (make_edge h).2.sym ∧
      o_next (make_edge h).1 ((make_edge h).2.rot 3) = .ok ((make_edge h).2.rot 1)) ∧
    (o_prev (make_edge h).1 (make_edge h).2 = .ok (make_edge h).2 ∧
      l_next (make_edge h).1 (make_edge h).2 = .ok (make_edge h).2.sym ∧
      r_next (make_edge h).1 (make_edge h).2 = .ok (make_edge h).2.sym) ∧
    (l_next (make_edge h).1 ((make_edge h).2.rot 1) = .ok ((make_edge h).2.rot 1) ∧
      r_next (make_edge h).1 ((make_edge h).2.rot 1) = .ok ((make_edge h).2.rot 1) ∧
      o_next (make_edge h).1 ((make_edge h).2.rot 1) = .ok ((make_edge h).2.rot 1).sym ∧
      o_prev (make_edge h).1 ((make_edge h).2.rot 1) = .ok ((make_edge h).2.rot 1).sym) ∧
    (∀ q, q < h.length → (make_edge h).1[q]? = h[q]?) := by
  have e_def : (make_edge h).2 = ⟨h.length, 0⟩ := rfl
  have r1 : ∀ q : Nat, edge_reference.rot ⟨q, 0⟩ 1 = ⟨q, 1⟩ := fun q => by simp [rot_one]
  have r2 : ∀ q : Nat, edge_reference.rot ⟨q, 1⟩ 1 = ⟨q, 2⟩ := fun q => by simp [rot_one]
  have r3 : ∀ q : Nat, edge_reference.rot ⟨q, 2⟩ 1 = ⟨q, 3⟩ := fun q => by simp [rot_one]
  have r4 : ∀ q : Nat, edge_reference.rot ⟨q, 3⟩ 1 = ⟨q, 0⟩ := fun q => by simp [rot_one]
  have m0 : ∀ q : Nat, edge_reference.rot ⟨q, 0⟩ (-1) = ⟨q, 3⟩ := fun q => by simp [rot_neg_one]
  have m1 : ∀ q : Nat, edge_reference.rot ⟨q, 1⟩ (-1) = ⟨q, 0⟩ := fun q => by simp [rot_neg_one]
  have m2 : ∀ q : Nat, edge_reference.rot ⟨q, 2⟩ (-1) = ⟨q, 1⟩ := fun q => by simp [rot_neg_one]
  have m3 : ∀ q : Nat, edge_reference.rot ⟨q, 3⟩ (-1) = ⟨q, 2⟩ := fun q => by simp [rot_neg_one]
  have t0 : ∀ q : Nat, edge_reference.rot ⟨q, 0⟩ 3 = ⟨q, 3⟩ := fun q => by rw [rot_eq]; rfl
  have s0 : ∀ q : Nat, edge_reference.sym ⟨q, 0⟩ = ⟨q, 2⟩ := fun q => by simp [sym_eq]
  have s1 : ∀ q : Nat, edge_reference.sym ⟨q, 1⟩ = ⟨q, 3⟩ := fun q => by simp [sym_eq]
  have n0 := o_next_make_edge h 0 (by decide)
  have n1 := o_next_make_edge h 1 (by decide)
  have n2 := o_next_make_edge h 2 (by decide)
  have n3 := o_next_make_edge h 3 (by decide)
  simp only [quad_edge.slot, fresh_record] at n0 n1 n2 n3
  simp only [e_def, r1, r2, r3, r4, m0, m1, m2, m3, t0, s0, s1, n0, n1, n2, n3, o_prev,
    l_next, r_next, bind, Except.bind, pure, Except.pure, and_self, true_and]
  refine ⟨⟨by simp, ?_⟩, ?_⟩
  · simp [isLive, make_edge]
  · intro q hq
    simp [make_edge, List.getElem?_append_left hq]

/-- C10. For a handle `e` with rotation index `r < 4` and every 32-bit signed `n`,
`e.rot(n)` names the same record and has rotation index the non-negative residue
`(r + n) mod 4`, although `r + n` is an `unsigned` sum passed through
`modulo(int, int)`; hence `e.rot(4) == e`, `e.sym().sym() == e` and
`e.rot(-1).rot(1) == e`.  (The conversions wrap, so the statement holds for every
integer `n`, in particular for every value of `int`.) -/
theorem rot_residue (e : edge_reference) (n : Int) (hr : e.r < 4) :
    (e.rot n).q = e.q ∧ ((e.rot n).r : Int) = ((e.r : Int) + n) % 4 ∧
      e.rot 4 = e ∧ e.sym.sym = e ∧ (e.rot (-1)).rot 1 = e := by
  obtain ⟨q, r⟩ := e
  simp only at hr
  refine ⟨rfl, ?_, ?_, ?_, ?_⟩
  · rw [rot_eq]
    show ((((r : Int) % 4294967296 + n) % 4).toNat : Int) = ((r : Int) + n) % 4
    omega
  · rw [rot_eq]
    simp only [edge_reference.mk.injEq, true_and]
    omega
  · rw [sym_eq, sym_eq]
    simp only [edge_reference.mk.injEq, true_and]
    omega
  · rw [rot_neg_one, rot_one]
    simp only [edge_reference.mk.injEq, true_and]
    omega

theorem rot_residue_witness :
    3 < 4 ∧
      ((edge_reference.rot ⟨7, 3⟩ (-2147483648)).q = 7 ∧
        ((edge_reference.rot ⟨7, 3⟩ (-2147483648)).r : Int) = ((3 : Nat) + -2147483648) % 4 ∧
        edge_reference.rot ⟨7, 3⟩ 4 = ⟨7, 3⟩ ∧
        (edge_reference.sym ⟨7, 3⟩).sym = ⟨7, 3⟩ ∧
        (edge_reference.rot ⟨7, 3⟩ (-1)).rot 1 = ⟨7, 3⟩) :=
  ⟨by decide, rot_residue ⟨7, 3⟩ (-2147483648) (by decide)⟩

/-- C6. For handles `a`, `b` of equal rotation parity in a well-formed store, with
`alpha = a.o_next().rot()` and `beta = b.o_next().rot()` taken before the call,
`splice(a, b)` succeeds and makes the new `a.o_next()` the old `b.o_next()`, the new
`b.o_next()` the old `a.o_next()`, the new `alpha.o_next()` the old `beta.o_next()` and
the new `beta.o_next()` the old `alpha.o_next()`; the `next` field of every other quarter
slot and every data field are unchanged. -/
theorem splice_exchanges (h : Heap) (a b : edge_reference) (hwf : WellFormed h)
    (ha : Live h a) (hb : Live h b) (hpar : a.r % 2 = b.r % 2) :
    ∃ ao bo alo beo h',
      o_next h a = .ok ao ∧ o_next h b = .ok bo ∧
      o_next h (ao.rot 1) = .ok alo ∧ o_next h (bo.rot 1) = .ok beo ∧
      splice h a b = .ok h' ∧
      o_next h' a = .ok bo ∧ o_next h' b = .ok ao ∧
      o_next h' (ao.rot 1) = .ok beo ∧ o_next h' (bo.rot 1) = .ok alo ∧
      (∀ x, Live h x → x ≠ a → x ≠ b → x ≠ ao.rot 1 → x ≠ bo.rot 1 →
        o_next h' x = o_next h x) ∧
      (∀ x, Live h x → data h' x = data h x) := by
  have hal := wf_live_g hwf ha
  have hbe := wf_live_g hwf hb
  obtain ⟨h', e', s', n'⟩ := splice_spec ha hb hal hbe
  obtain ⟨-, pa, -⟩ := wf_live hwf ha
  obtain ⟨-, pb, -⟩ := wf_live hwf hb
  have pal := rot_parity (nxt h a)
  have pbe := rot_parity (nxt h b)
  have na1 : a ≠ (nxt h a).rot 1 := ne_of_parity (by omega)
  have na2 : a ≠ (nxt h b).rot 1 := ne_of_parity (by omega)
  have nb1 : b ≠ (nxt h a).rot 1 := ne_of_parity (by omega)
  have nb2 : b ≠ (nxt h b).rot 1 := ne_of_parity (by omega)
  have l' : ∀ x, Live h x → Live h' x := fun x hx => (s'.live_iff x).2 hx
  refine ⟨nxt h a, nxt h b, nxt h ((nxt h a).rot 1), nxt h ((nxt h b).rot 1), h',
    o_next_of_live ha, o_next_of_live hb, o_next_of_live hal, o_next_of_live hbe, e',
    ?_, ?_, ?_, ?_, ?_, ?_⟩
  · rw [o_next_of_live (l' a ha), n']
    unfold spliceF
    rw [if_neg na2, if_neg na1]
    by_cases hab : a = b
    · rw [if_pos hab, hab]
    · rw [if_neg hab, if_pos rfl]
  · rw [o_next_of_live (l' b hb), n']
    unfold spliceF
    rw [if_neg nb2, if_neg nb1, if_pos rfl]
  · rw [o_next_of_live (l' _ hal), n']
    unfold spliceF
    by_cases hab : (nxt h a).rot 1 = (nxt h b).rot 1
    · rw [if_pos hab, hab]
    · rw [if_neg hab, if_pos rfl]
  · rw [o_next_of_live (l' _ hbe), n']
    unfold spliceF
    rw [if_pos rfl]
  · intro x hx x1 x2 x3 x4
    rw [o_next_of_live (l' x hx), o_next_of_live hx, n']
    unfold spliceF
    rw [if_neg x4, if_neg x3, if_neg x2, if_neg x1]
  · intro x hx
    rw [data_of_live (l' x hx), data_of_live hx, s'.dat]

theorem splice_exchanges_witness :
    (WellFormed twoEdges ∧ Live twoEdges ⟨0, 0⟩ ∧ Live twoEdges ⟨1, 2⟩ ∧ 0 % 2 = 2 % 2) ∧
    ∃ ao bo alo beo h',
      o_next twoEdges ⟨0, 0⟩ = .ok ao ∧ o_next twoEdges ⟨1, 2⟩ = .ok bo ∧
      o_next twoEdges (ao.rot 1) = .ok alo ∧ o_next twoEdges (bo.rot 1) = .ok beo ∧
      splice twoEdges ⟨0, 0⟩ ⟨1, 2⟩ = .ok h' ∧
      o_next h' ⟨0, 0⟩ = .ok bo ∧ o_next h' ⟨1, 2⟩ = .ok ao ∧
      o_next h' (ao.rot 1) = .ok beo ∧ o_next h' (bo.rot 1) = .ok alo ∧
      (∀ x, Live twoEdges x → x ≠ ⟨0, 0⟩ → x ≠ ⟨1, 2⟩ → x ≠ ao.rot 1 → x ≠ bo.rot 1 →
        o_next h' x = o_next twoEdges x) ∧
      (∀ x, Live twoEdges x → data h' x = data twoEdges x) :=
  ⟨by decide, splice_exchanges twoEdges ⟨0, 0⟩ ⟨1, 2⟩ (by decide) (by decide) (by decide)
    (by decide)⟩

/-- C4. For primal handles `a`, `b` of live records of a well-formed store,
`connect(a, b)` succeeds and returns the rotation-0 handle `e` of a record allocated by
the call, with `Org(e) = Dest(a)` and `Dest(e) = Org(b)`; afterwards
`a.l_next() == e` and `e.l_next() == b`. -/
theorem connect_left_face (h : Heap) (a b : edge_reference) (hwf : WellFormed h)
    (ha : Live h a) (hb : Live h b) (pa : a.r % 2 = 0) (pb : b.r % 2 = 0) :
    ∃ h' e d o,
      connect h a b = .ok (h', e) ∧
      (h[e.q]? = none ∧ isLive h' e.q = true ∧ e.r = 0) ∧
      (DEST h a = .ok d ∧ ORG h b = .ok o ∧ ORG h' e = .ok d ∧ DEST h' e = .ok o) ∧
      l_next h' a = .ok e ∧ l_next h' e = .ok b := by
  obtain ⟨h0, h2, hc, P⟩ := connect_spec hwf ha hb pa pb
  have hE0 : Live h0 ⟨h.length, 0⟩ := ⟨by rw [P.live0]; simp, by simp⟩
  have hE : Live h2 ⟨h.length, 0⟩ := (P.shape.live_iff _).2 hE0
  have hS0 : Live h0 ⟨h.length, 2⟩ := ⟨by rw [P.live0]; simp, by simp⟩
  have hS : Live h2 ⟨h.length, 2⟩ := (P.shape.live_iff _).2 hS0
  have hold : ∀ y, Live h y → Live h2 y := fun y hy =>
    (P.shape.live_iff _).2 ⟨by rw [P.live0, hy.1]; simp, hy.2⟩
  have hbq := isLive_lt hb.1
  have bneS : b ≠ ⟨h.length, 2⟩ := by
    intro hc; rw [hc] at hbq; exact Nat.lt_irrefl _ hbq
  have ES : (⟨h.length, 0⟩ : edge_reference) ≠ ⟨h.length, 2⟩ := by simp
  have bneE : b ≠ ⟨h.length, 0⟩ := by
    intro hc; rw [hc] at hbq; exact Nat.lt_irrefl _ hbq
  have nE : nxt h2 ⟨h.length, 0⟩ = a.sym := by
    rw [P.nxt2 _ hE0 (by simp), if_neg ES, if_neg bneE.symm, if_pos rfl]
  have nb : nxt h2 b = ⟨h.length, 2⟩ := by
    rw [P.nxt2 _ ((P.shape.live_iff _).1 (hold b hb)) pb, if_neg bneS, if_pos rfl]
  have hSym : edge_reference.sym ⟨h.length, 0⟩ = ⟨h.length, 2⟩ := by simp [sym_eq]
  refine ⟨h2, ⟨h.length, 0⟩, dat h a.sym, dat h b, hc,
    ⟨List.getElem?_eq_none (Nat.le_refl _), hE.1, rfl⟩, ⟨?_, ?_, ?_, ?_⟩, ?_, ?_⟩
  · exact data_of_live (live_sym ha)
  · exact data_of_live hb
  · show data h2 ⟨h.length, 0⟩ = _
    rw [data_of_live hE, P.shape.dat, P.dat0_org]
  · show data h2 (edge_reference.sym ⟨h.length, 0⟩) = _
    rw [hSym, data_of_live hS, P.shape.dat, P.dat0_dest]
  · have i := wf_invol P.wf2 hE
    rw [nE, rot_one_sym] at i
    simp only [l_next, o_next_of_live (live_rot (-1) (hold a ha)), i, bind, Except.bind, pure,
      Except.pure]
  · have i := wf_invol P.wf2 (hold b hb)
    have r3 : edge_reference.rot ⟨h.length, 2⟩ 1 = ⟨h.length, 3⟩ := by simp [rot_one]
    have m3 : edge_reference.rot ⟨h.length, 0⟩ (-1) = ⟨h.length, 3⟩ := by simp [rot_neg_one]
    rw [nb, r3] at i
    have l3 : Live h2 ⟨h.length, 3⟩ := ⟨hE.1, by simp⟩
    simp only [l_next, m3, o_next_of_live l3, i, bind, Except.bind, pure, Except.pure]

theorem connect_left_face_witness :
    (WellFormed twoEdges ∧ Live twoEdges ⟨0, 0⟩ ∧ Live twoEdges ⟨1, 0⟩ ∧ 0 % 2 = 0 ∧
      0 % 2 = 0) ∧
    ∃ h' e d o,
      connect twoEdges ⟨0, 0⟩ ⟨1, 0⟩ = .ok (h', e) ∧
      (twoEdges[e.q]? = none ∧ isLive h' e.q = true ∧ e.r = 0) ∧
      (DEST twoEdges ⟨0, 0⟩ = .ok d ∧ ORG twoEdges ⟨1, 0⟩ = .ok o ∧ ORG h' e = .ok d ∧
        DEST h' e = .ok o) ∧
      l_next h' ⟨0, 0⟩ = .ok e ∧ l_next h' e = .ok ⟨1, 0⟩ :=
  ⟨by decide, connect_left_face twoEdges ⟨0, 0⟩ ⟨1, 0⟩ (by decide) (by decide) (by decide)
    (by decide) (by decide)⟩

/-- C7. `delete_edge` undoes `connect`: for primal handles `a`, `b` of live records of a
well-formed store, `e = connect(a, b)` followed by `delete_edge(e)` succeeds, restores the
`next` field of every quarter slot of every pre-existing record, leaves their data fields
unchanged, and leaves exactly the pre-existing records live. -/
theorem delete_edge_inverts_connect (h : Heap) (a b : edge_reference) (hwf : WellFormed h)
    (ha : Live h a) (hb : Live h b) (pa : a.r % 2 = 0) (pb : b.r % 2 = 0) :
    ∃ h' e h'',
      connect h a b = .ok (h', e) ∧ delete_edge h' e = .ok h'' ∧
      (∀ x, Live h x → o_next h'' x = o_next h x ∧ data h'' x = data h x) ∧
      (∀ q, isLive h'' q = isLive h q) := by
  obtain ⟨h0, h2, hc, P⟩ := connect_spec hwf ha hb pa pb
  have hE0 : Live h0 ⟨h.length, 0⟩ := ⟨by rw [P.live0]; simp, by simp⟩
  have hE : Live h2 ⟨h.length, 0⟩ := (P.shape.live_iff _).2 hE0
  have hS0 : Live h0 ⟨h.length, 2⟩ := ⟨by rw [P.live0]; simp, by simp⟩
  have hS : Live h2 ⟨h.length, 2⟩ := (P.shape.live_iff _).2 hS0
  obtain ⟨d1, d2, d3, hd, D⟩ := delete_spec P.wf2 hE
  have hSym : edge_reference.sym ⟨h.length, 0⟩ = ⟨h.length, 2⟩ := by simp [sym_eq]
  have hold0 : ∀ y, Live h y → Live h0 y := fun y hy =>
    ⟨by rw [P.live0, hy.1]; simp, hy.2⟩
  have hold : ∀ y, Live h y → Live h2 y := fun y hy => (P.shape.live_iff _).2 (hold0 y hy)
  have hbq := isLive_lt hb.1
  have bneS : b ≠ ⟨h.length, 2⟩ := by
    intro hc; rw [hc] at hbq; exact Nat.lt_irrefl _ hbq
  have bneE : b ≠ ⟨h.length, 0⟩ := by
    intro hc; rw [hc] at hbq; exact Nat.lt_irrefl _ hbq
  have ES : (⟨h.length, 0⟩ : edge_reference) ≠ ⟨h.length, 2⟩ := by simp
  obtain ⟨lx, px, nx⟩ := nxt_l_next hwf ha
  have hxq := isLive_lt lx.1
  have xneE : (nxt h (a.rot (-1))).rot 1 ≠ ⟨h.length, 0⟩ := by
    intro hc; rw [hc] at hxq; exact Nat.lt_irrefl _ hxq
  have xneS : (nxt h (a.rot (-1))).rot 1 ≠ ⟨h.length, 2⟩ := by
    intro hc; rw [hc] at hxq; exact Nat.lt_irrefl _ hxq
  have px0 : ((nxt h (a.rot (-1))).rot 1).r % 2 = 0 := by rw [px, pa]
  -- successors after `connect`
  have nE : nxt h2 ⟨h.length, 0⟩ = a.sym := by
    rw [P.nxt2 _ hE0 (by simp), if_neg ES, if_neg bneE.symm, if_pos rfl]
  have nb : nxt h2 b = ⟨h.length, 2⟩ := by
    rw [P.nxt2 _ (hold0 b hb) pb, if_neg bneS, if_pos rfl]
  have nS : nxt h2 ⟨h.length, 2⟩ =
      if b = (nxt h (a.rot (-1))).rot 1 then ⟨h.length, 0⟩ else nxt h b := by
    rw [P.nxt2 _ hS0 (by simp), if_pos rfl]
  have n0E : nxt h0 ⟨h.length, 0⟩ = ⟨h.length, 0⟩ := P.nxt0_new 0 (by decide)
  have n0S : nxt h0 ⟨h.length, 2⟩ = ⟨h.length, 2⟩ := P.nxt0_new 2 (by decide)
  -- the handle spliced with `e` by `delete_edge`
  obtain ⟨lp, -, np⟩ := nxt_o_prev P.wf2 hE
  have hp : (nxt h2 (edge_reference.rot ⟨h.length, 0⟩ 1)).rot 1 =
      if b = (nxt h (a.rot (-1))).rot 1 then ⟨h.length, 2⟩
      else (nxt h (a.rot (-1))).rot 1 := by
    by_cases hbx : b = (nxt h (a.rot (-1))).rot 1
    · rw [if_pos hbx]
      apply nxt_inj P.wf2 lp hS
      rw [np, nS, if_pos hbx]
    · rw [if_neg hbx]
      apply nxt_inj P.wf2 lp (hold _ lx)
      rw [np, P.nxt2 _ (hold0 _ lx) px0, if_neg xneS, if_neg (Ne.symm hbx), if_neg xneE,
        if_pos rfl]
  have f1 : ∀ y : edge_reference, y.r % 2 = 0 → nxt d1 y =
      if y = ⟨h.length, 0⟩ then ⟨h.length, 0⟩
      else if y = (if b = (nxt h (a.rot (-1))).rot 1 then ⟨h.length, 2⟩
        else (nxt h (a.rot (-1))).rot 1) then a.sym else nxt h2 y := by
    intro y hy
    rw [D.n1 y (by simp [hy]), hp, nE]
  have n1b : nxt d1 b = ⟨h.length, 2⟩ := by
    rw [f1 b pb, if_neg bneE]
    by_cases hbx : b = (nxt h (a.rot (-1))).rot 1
    · rw [if_pos hbx, if_neg bneS, nb]
    · rw [if_neg hbx, if_neg hbx, nb]
  have hS1 : Live d1 ⟨h.length, 2⟩ := (D.s1.live_iff _).2 hS
  have hp' : (nxt d1 ((edge_reference.sym ⟨h.length, 0⟩).rot 1)).rot 1 = b := by
    have hS1' : Live d1 (edge_reference.sym ⟨h.length, 0⟩) := by rw [hSym]; exact hS1
    obtain ⟨lp', -, np'⟩ := nxt_o_prev D.wf1 hS1'
    apply nxt_inj D.wf1 lp' ((D.s1.live_iff _).2 (hold b hb))
    rw [np', n1b, hSym]
  have f2 : ∀ y : edge_reference, y.r % 2 = 0 → nxt d2 y =
      if y = ⟨h.length, 2⟩ then ⟨h.length, 2⟩
      else if y = b then nxt d1 ⟨h.length, 2⟩ else nxt d1 y := by
    intro y hy
    rw [D.n2 y (by simp [hy]), hp', hSym]
  -- the primal successors are those of the store before the splices of `connect`
  have hev : ∀ y, Live h0 y → y.r % 2 = 0 → nxt d2 y = nxt h0 y := by
    intro y hy py
    rw [f2 y py]
    by_cases c1 : y = ⟨h.length, 2⟩
    · rw [if_pos c1, c1, n0S]
    rw [if_neg c1]
    by_cases c2 : y = b
    · rw [if_pos c2, f1 _ (by simp), if_neg ES.symm, c2, P.nxt0_old b hbq]
      by_cases hbx : b = (nxt h (a.rot (-1))).rot 1
      · rw [if_pos hbx, if_pos rfl, hbx, nx]
      · rw [if_neg hbx, if_neg xneS.symm, nS, if_neg hbx]
    rw [if_neg c2, f1 y py]
    by_cases c3 : y = ⟨h.length, 0⟩
    · rw [if_pos c3, c3, n0E]
    rw [if_neg c3]
    by_cases hbx : b = (nxt h (a.rot (-1))).rot 1
    · rw [if_pos hbx, if_neg c1, P.nxt2 y hy py, if_neg c1, if_neg c2, if_neg c3,
        if_neg (by rw [← hbx]; exact c2)]
    · rw [if_neg hbx]
      by_cases c4 : y = (nxt h (a.rot (-1))).rot 1
      · rw [if_pos c4, c4, P.nxt0_old _ hxq, nx]
      · rw [if_neg c4, P.nxt2 y hy py, if_neg c1, if_neg c2, if_neg c3, if_neg c4]
  have s02 : SameShape h0 d2 := (P.shape.trans D.s1).trans D.s2
  have hall := nxt_agree P.wf0 D.wf2 s02.live hev
  have lenq : ∀ y, Live h y → y.q ≠ h.length := fun y hy hc => by
    have := isLive_lt hy.1
    omega
  have live3 : ∀ q, isLive d3 q = isLive h q := by
    intro q
    rw [D.live3, s02.live, P.live0]
    by_cases hq : q = h.length
    · have : isLive h q = false := by
        cases hl : isLive h q
        · rfl
        · have := isLive_lt hl; omega
      simp [hq, this]
      rw [← hq]; exact this
    · simp [hq]
  refine ⟨h2, ⟨h.length, 0⟩, d3, hc, hd, ?_, live3⟩
  intro x hx
  have hx3 : Live d3 x := ⟨by rw [live3]; exact hx.1, hx.2⟩
  have hxq' := isLive_lt hx.1
  rw [o_next_of_live hx3, o_next_of_live hx, data_of_live hx3, data_of_live hx,
    D.nxt3 x (lenq x hx), hall x (hold0 x hx), P.nxt0_old x hxq', D.dat3 x (lenq x hx),
    s02.dat, P.dat0_old x hxq']
  exact ⟨rfl, rfl⟩

theorem delete_edge_inverts_connect_witness :
    (WellFormed twoEdges ∧ Live twoEdges ⟨0, 0⟩ ∧ Live twoEdges ⟨1, 0⟩ ∧ 0 % 2 = 0 ∧
      0 % 2 = 0) ∧
    ∃ h' e h'',
      connect twoEdges ⟨0, 0⟩ ⟨1, 0⟩ = .ok (h', e) ∧ delete_edge h' e = .ok h'' ∧
      (∀ x, Live twoEdges x → o_next h'' x = o_next twoEdges x ∧
        data h'' x = data twoEdges x) ∧
      (∀ q, isLive h'' q = isLive twoEdges q) :=
  ⟨by decide, delete_edge_inverts_connect twoEdges ⟨0, 0⟩ ⟨1, 0⟩ (by decide) (by decide)
    (by decide) (by decide) (by decide)⟩

/-- C9 (counterexample). From the `make_edge` result `oneEdge`, the calls
`connect({0,0}, {0,1})` (its second argument is a dual handle), `splice({0,0}, {1,2})` and
`splice({0,0}, {0,2})` (each on live handles of equal rotation parity) all succeed, and in
the resulting store the live handle `{1,1}` has `o_next().o_prev() == {0,2}`, not `{1,1}`,
and the live handle `{1,0}` has `o_prev().o_next() == {0,1}`, not `{1,0}`. -/
theorem o_prev_not_inverse_after_dual_connect :
    oneEdge = (make_edge []).1 ∧
    (Live oneEdge ⟨0, 0⟩ ∧ Live oneEdge ⟨0, 1⟩ ∧
      connect oneEdge ⟨0, 0⟩ ⟨0, 1⟩ = .ok (dualConnectStore, ⟨1, 0⟩)) ∧
    (Live dualConnectStore ⟨0, 0⟩ ∧ Live dualConnectStore ⟨1, 2⟩ ∧
      (⟨0, 0⟩ : edge_reference).r % 2 = (⟨1, 2⟩ : edge_reference).r % 2 ∧
      splice dualConnectStore ⟨0, 0⟩ ⟨1, 2⟩ = .ok dualSpliceStore) ∧
    (Live dualSpliceStore ⟨0, 0⟩ ∧ Live dualSpliceStore ⟨0, 2⟩ ∧
      (⟨0, 0⟩ : edge_reference).r % 2 = (⟨0, 2⟩ : edge_reference).r % 2 ∧
      splice dualSpliceStore ⟨0, 0⟩ ⟨0, 2⟩ = .ok dualBrokenStore) ∧
    (Live dualBrokenStore ⟨1, 1⟩ ∧
      (o_next dualBrokenStore ⟨1, 1⟩ >>= o_prev dualBrokenStore) = .ok ⟨0, 2⟩ ∧
      (o_next dualBrokenStore ⟨1, 1⟩ >>= o_prev dualBrokenStore) ≠ .ok ⟨1, 1⟩) ∧
    (Live dualBrokenStore ⟨1, 0⟩ ∧
      (o_prev dualBrokenStore ⟨1, 0⟩ >>= o_next dualBrokenStore) = .ok ⟨0, 1⟩ ∧
      (o_prev dualBrokenStore ⟨1, 0⟩ >>= o_next dualBrokenStore) ≠ .ok ⟨1, 0⟩) := by
  refine ⟨rfl, ⟨by decide, by decide, rfl⟩, ⟨by decide, by decide, rfl, rfl⟩,
    ⟨by decide, by decide, rfl, rfl⟩, ⟨by decide, rfl, by decide⟩, ⟨by decide, rfl, by decide⟩⟩

/-- C9 (amended). In every store reachable from `make_edge` results by `splice` (on handles
of equal rotation parity), `connect` (on primal handles) and `delete_edge`, every handle `e`
of a live record satisfies `e.o_next().o_prev() == e` and `e.o_prev().o_next() == e`. -/
theorem o_prev_inverts_o_next (h : Heap) (hr : Reachable h) (e : edge_reference)
    (he : Live h e) :
    (o_next h e >>= o_prev h) = .ok e ∧ (o_prev h e >>= o_next h) = .ok e := by
  have hwf := reachable_wf hr
  obtain ⟨l1, -, i1⟩ := wf_live hwf he
  obtain ⟨l2, -, i2⟩ := nxt_o_prev hwf he
  constructor
  · simp only [o_next_of_live he, o_prev_of_live l1, bind, Except.bind]
    rw [i1]
  · simp only [o_prev_of_live he, o_next_of_live l2, i2, bind, Except.bind]

theorem o_prev_inverts_o_next_witness :
    (Reachable triangleStore ∧ Live triangleStore ⟨2, 0⟩) ∧
      (o_next triangleStore ⟨2, 0⟩ >>= o_prev triangleStore) = .ok ⟨2, 0⟩ ∧
      (o_prev triangleStore ⟨2, 0⟩ >>= o_next triangleStore) = .ok ⟨2, 0⟩ :=
  ⟨⟨triangleStore_reachable, by decide⟩,
    o_prev_inverts_o_next triangleStore triangleStore_reachable ⟨2, 0⟩ (by decide)⟩

/-- C5. For distinct primal handles `a`, `b` of live records of a well-formed store,
`splice(a, b)` succeeds; if `b` is not in the Onext ring of `a`, the new ring of `a` is
exactly the union of the two former rings; if `b` is in the Onext ring of `a`, then
afterwards `a` and `b` lie in two disjoint rings whose union is the former ring. -/
theorem splice_merges_or_splits (h : Heap) (a b : edge_reference) (hwf : WellFormed h)
    (ha : Live h a) (hb : Live h b) (pa : a.r % 2 = 0) (pb : b.r % 2 = 0) (hab : a ≠ b) :
    ∃ h', splice h a b = .ok h' ∧
      (¬ InRing h a b → ∀ x, InRing h' a x ↔ (InRing h a x ∨ InRing h b x)) ∧
      (InRing h a b →
        (InRing h' a a ∧ InRing h' b b) ∧
        (∀ x, ¬ (InRing h' a x ∧ InRing h' b x)) ∧
        ∀ x, InRing h a x ↔ (InRing h' a x ∨ InRing h' b x)) := by
  have hpar : a.r % 2 = b.r % 2 := by rw [pa, pb]
  obtain ⟨h', e', s', wf', n'⟩ := splice_wf hwf ha hb hpar
  have ha' : Live h' a := (s'.live_iff a).2 ha
  have hb' : Live h' b := (s'.live_iff b).2 hb
  -- on primal handles the new successor function exchanges the values at `a` and `b`
  have hfg : ∀ x : edge_reference, (Live h x ∧ x.r % 2 = 0) →
      nxt h' x = swapVal (nxt h) a b x := by
    rintro x ⟨-, px⟩
    rw [n', spliceF_same_parity hwf ha hb hpar x (by rw [px, pa])]
    rfl
  have hcl : ∀ x : edge_reference, (Live h x ∧ x.r % 2 = 0) →
      (Live h (swapVal (nxt h) a b x) ∧ (swapVal (nxt h) a b x).r % 2 = 0) := by
    rintro x ⟨lx, px⟩
    unfold swapVal
    obtain ⟨l1, p1, -⟩ := wf_live hwf ha
    obtain ⟨l2, p2, -⟩ := wf_live hwf hb
    obtain ⟨l3, p3, -⟩ := wf_live hwf lx
    split_ifs
    · exact ⟨l2, by rw [p2, pb]⟩
    · exact ⟨l1, by rw [p1, pa]⟩
    · exact ⟨l3, by rw [p3, px]⟩
  have ia : ∀ x, InRing h' a x ↔ ∃ k, (swapVal (nxt h) a b)^[k] a = x := by
    intro x
    rw [inRing_iff wf' ha']
    constructor
    · rintro ⟨k, hk⟩; exact ⟨k, by rw [← iterate_congr_on hfg hcl ⟨ha, pa⟩ k, hk]⟩
    · rintro ⟨k, hk⟩; exact ⟨k, by rw [iterate_congr_on hfg hcl ⟨ha, pa⟩ k, hk]⟩
  have ib : ∀ x, InRing h' b x ↔ ∃ k, (swapVal (nxt h) a b)^[k] b = x := by
    intro x
    rw [inRing_iff wf' hb']
    constructor
    · rintro ⟨k, hk⟩; exact ⟨k, by rw [← iterate_congr_on hfg hcl ⟨hb, pb⟩ k, hk]⟩
    · rintro ⟨k, hk⟩; exact ⟨k, by rw [iterate_congr_on hfg hcl ⟨hb, pb⟩ k, hk]⟩
  refine ⟨h', e', ?_, ?_⟩
  · intro hnot x
    rw [ia, inRing_iff hwf ha, inRing_iff hwf hb]
    rw [inRing_iff hwf ha] at hnot
    exact orbit_merge (nxt h) a b (nxt_periodic hwf hb) hnot x
  · intro hin
    rw [inRing_iff hwf ha] at hin
    obtain ⟨hdisj, hun⟩ := orbit_split (nxt h) a b hab (nxt_periodic hwf ha) hin
    refine ⟨⟨⟨0, rfl⟩, ⟨0, rfl⟩⟩, ?_, ?_⟩
    · intro x
      rw [ia, ib]
      exact hdisj x
    · intro x
      rw [ia, ib, inRing_iff hwf ha]
      exact hun x

theorem splice_merges_or_splits_witness :
    (WellFormed twoEdges ∧ Live twoEdges ⟨0, 0⟩ ∧ Live twoEdges ⟨1, 0⟩ ∧ 0 % 2 = 0 ∧
      0 % 2 = 0 ∧ (⟨0, 0⟩ : edge_reference) ≠ ⟨1, 0⟩) ∧
    ∃ h', splice twoEdges ⟨0, 0⟩ ⟨1, 0⟩ = .ok h' ∧
      (¬ InRing twoEdges ⟨0, 0⟩ ⟨1, 0⟩ →
        ∀ x, InRing h' ⟨0, 0⟩ x ↔ (InRing twoEdges ⟨0, 0⟩ x ∨ InRing twoEdges ⟨1, 0⟩ x)) ∧
      (InRing twoEdges ⟨0, 0⟩ ⟨1, 0⟩ →
        (InRing h' ⟨0, 0⟩ ⟨0, 0⟩ ∧ InRing h' ⟨1, 0⟩ ⟨1, 0⟩) ∧
        (∀ x, ¬ (InRing h' ⟨0, 0⟩ x ∧ InRing h' ⟨1, 0⟩ x)) ∧
        ∀ x, InRing twoEdges ⟨0, 0⟩ x ↔ (InRing h' ⟨0, 0⟩ x ∨ InRing h' ⟨1, 0⟩ x)) :=
  ⟨by decide, splice_merges_or_splits twoEdges ⟨0, 0⟩ ⟨1, 0⟩ (by decide) (by decide)
    (by decide) (by decide) (by decide) (by decide)⟩

/-- C2 (the code does not do this). On the closed triangle that `delaunay` builds for the
three sorted, non-collinear points `(0,0), (1,0), (1,1)` (three live records),
`kill_graph(l)` on the returned left handle does not free every record exactly once: for
every recursion bound that lets it run, it reads the `next` field of record `1` after that
record has been freed. -/
theorem kill_graph_triangle_use_after_free :
    (sortedPoints trianglePoints = true ∧ ccw ⟨0, 0⟩ ⟨1, 0⟩ ⟨1, 1⟩ = true) ∧
    (∃ h l r, delaunay trianglePoints 1 [] 0 3 = .ok (h, l, r) ∧
      isLive h 0 = true ∧ isLive h 1 = true ∧ isLive h 2 = true ∧ h.length = 3) ∧
    ∀ fuel, triangulate_then_kill trianglePoints (fuel + 3) = .error (.use_after_free 1) := by
  refine ⟨by decide, ⟨_, _, _, rfl, by decide⟩, ?_⟩
  intro fuel
  rfl

/-- C3 (counterexample). The two points `(1,0), (0,0)` are not in ascending order, yet
`delaunay` reports no precondition violation: it returns normally with a live record. -/
theorem delaunay_unsorted_accepted :
    sortedPoints [⟨1, 0⟩, ⟨0, 0⟩] = false ∧
    ∃ h l r, delaunay [⟨1, 0⟩, ⟨0, 0⟩] 1 [] 0 2 = .ok (h, l, r) ∧ isLive h 0 = true :=
  ⟨by decide, _, _, _, rfl, by decide⟩

/-- C3 (amended). `delaunay` does not validate its input.  Given fewer than two points it
returns nothing: the recursion never reaches a base case, whatever the bound.  Given two
points in any order, sorted or not, it allocates one record and returns the handles
`{q, 0}` and `{q, 2}` of that record. -/
theorem delaunay_no_validation (pts : List vertex) (p q : vertex) (fuel : Nat) (h : Heap) :
    (pts.length < 2 → delaunay pts fuel h 0 pts.length = .error .fuel_exhausted) ∧
    ∃ h', delaunay [p, q] (fuel + 1) h 0 2 = .ok (h', ⟨h.length, 0⟩, ⟨h.length, 2⟩) ∧
      h'.length = h.length + 1 ∧ isLive h' h.length = true := by
  constructor
  · intro hlen
    apply delaunay_short_range
    omega
  · obtain ⟨h1, e1, len1, live1, -, -⟩ :=
      setData_spec (live_make_edge_new h 0 (by decide)) (some 0)
    have l2 : Live h1 ⟨h.length, 2⟩ := ⟨by rw [live1, isLive_make_edge]; simp, by simp⟩
    obtain ⟨h2, e2, len2, live2, -, -⟩ := setData_spec l2 (some (0 + 1))
    have hS : edge_reference.sym ⟨h.length, 0⟩ = ⟨h.length, 2⟩ := by simp [sym_eq]
    refine ⟨h2, ?_, ?_, ?_⟩
    · have e1' : setData (h ++ [some (fresh_record h.length)]) ⟨h.length, 0⟩ (some 0) =
          .ok h1 := e1
      rw [delaunay, if_pos (by rfl)]
      simp only [make_edge, hS, e1', e2, bind, Except.bind, pure, Except.pure]
    · rw [len2, len1]; simp [make_edge]
    · rw [live2, live1, isLive_make_edge]; simp

theorem delaunay_no_validation_witness :
    [(⟨5, 5⟩ : vertex)].length < 2 ∧
    delaunay [⟨5, 5⟩] 7 [] 0 [(⟨5, 5⟩ : vertex)].length = .error .fuel_exhausted ∧
    ∃ h', delaunay [⟨1, 0⟩, ⟨0, 0⟩] (7 + 1) [] 0 2 =
        .ok (h', ⟨([] : Heap).length, 0⟩, ⟨([] : Heap).length, 2⟩) ∧
      h'.length = ([] : Heap).length + 1 ∧ isLive h' ([] : Heap).length = true :=
  ⟨by decide, (delaunay_no_validation [⟨5, 5⟩] ⟨1, 0⟩ ⟨0, 0⟩ 7 []).1 (by decide),
    (delaunay_no_validation [⟨5, 5⟩] ⟨1, 0⟩ ⟨0, 0⟩ 7 []).2⟩

/-- C12. Over the integers, `in_circle(a, b, c, d)` is true iff the determinant of the
4×4 matrix with rows `(p.x, p.y, p.x² + p.y², 1)`, `p = a, b, c, d`, is strictly
positive.  So when `ccw(a, b, c)` holds, the circle through `a`, `b`, `c` exists and
`in_circle` is true exactly when `d` is strictly nearer to its centre than `a`, that is,
strictly inside the circle. -/
theorem in_circle_exact_iff (a b c d : vertex) :
    (in_circle_exact a b c d = true ↔ 0 < (liftedMatrix a b c d).det) ∧
    (ccw_exact a b c = true →
      (∃ cx cy : ℚ, Circumcentre cx cy a b c) ∧
      ∀ cx cy : ℚ, Circumcentre cx cy a b c →
        (in_circle_exact a b c d = true ↔ distSq cx cy d < distSq cx cy a)) := by
  constructor
  · rw [liftedMatrix_det]
    simp [in_circle_exact]
  · intro hccw
    have hD : 0 < detZ a b c := by simpa [ccw_exact] using hccw
    refine ⟨circumcentre_exists a b c (ne_of_gt hD), ?_⟩
    intro cx cy hc
    have key := in_circle_centre_identity a b c d cx cy hc
    have hDq : (0 : ℚ) < (detZ a b c : ℚ) := by exact_mod_cast hD
    have h1 : in_circle_exact a b c d = true ↔
        (0 : ℚ) < ((magZ a * detZ b c d - magZ b * detZ a c d + magZ c * detZ a b d
          - magZ d * detZ a b c : Int) : ℚ) := by
      rw [Int.cast_pos]
      simp [in_circle_exact]
    rw [h1, key]
    constructor
    · intro h
      have := (mul_pos_iff_of_pos_left hDq).1 h
      linarith
    · intro h
      exact mul_pos hDq (by linarith)

theorem in_circle_exact_iff_witness :
    ccw_exact ⟨0, 0⟩ ⟨2, 0⟩ ⟨0, 2⟩ = true ∧
    (in_circle_exact ⟨0, 0⟩ ⟨2, 0⟩ ⟨0, 2⟩ ⟨1, 1⟩ = true ↔
      0 < (liftedMatrix ⟨0, 0⟩ ⟨2, 0⟩ ⟨0, 2⟩ ⟨1, 1⟩).det) ∧
    (∃ cx cy : ℚ, Circumcentre cx cy ⟨0, 0⟩ ⟨2, 0⟩ ⟨0, 2⟩) ∧
    ∀ cx cy : ℚ, Circumcentre cx cy ⟨0, 0⟩ ⟨2, 0⟩ ⟨0, 2⟩ →
      (in_circle_exact ⟨0, 0⟩ ⟨2, 0⟩ ⟨0, 2⟩ ⟨1, 1⟩ = true ↔
        distSq cx cy ⟨1, 1⟩ < distSq cx cy ⟨0, 0⟩) :=
  ⟨by decide, (in_circle_exact_iff ⟨0, 0⟩ ⟨2, 0⟩ ⟨0, 2⟩ ⟨1, 1⟩).1,
    (in_circle_exact_iff ⟨0, 0⟩ ⟨2, 0⟩ ⟨0, 2⟩ ⟨1, 1⟩).2 (by decide)⟩

/-- C13 (counterexample). For `a = (46340, 46340)`, `b = (-46340, 46340)`, `c = (0, 0)`
none of the six 32-bit products of `ccw` overflows, twice the signed area is
`4294791200 > 0`, yet `ccw(a, b, c)` is false: the difference
`a.x * b.y - a.y * b.x` overflows. -/
theorem ccw_products_fit_but_wrong :
    ((chk32 ((46340 : Int) * 46340)).isSome = true ∧
      (chk32 ((46340 : Int) * (-46340))).isSome = true ∧
      (chk32 ((46340 : Int) * 0)).isSome = true ∧
      (chk32 ((-46340 : Int) * 0)).isSome = true) ∧
    area2 ⟨46340, 46340⟩ ⟨-46340, 46340⟩ ⟨0, 0⟩ = 4294791200 ∧
    ccw ⟨46340, 46340⟩ ⟨-46340, 46340⟩ ⟨0, 0⟩ = false ∧
    ¬ (ccw ⟨46340, 46340⟩ ⟨-46340, 46340⟩ ⟨0, 0⟩ = true ↔
      0 < area2 ⟨46340, 46340⟩ ⟨-46340, 46340⟩ ⟨0, 0⟩) := by
  decide

/-- C13 (amended). For all points `a`, `b`, `c` for which no 32-bit intermediate result of
`ccw` overflows (neither a product nor a difference nor a sum), `ccw(a, b, c)` is true
iff twice the signed area `(b.x - a.x)(c.y - a.y) - (b.y - a.y)(c.x - a.x)` is strictly
positive; and `ccw` is false for every collinear triple, repeated points included. -/
theorem ccw_iff_area (a b c : vertex) :
    (∀ v, ccw_checked a b c = some v →
      ccw a b c = v ∧ (ccw a b c = true ↔ 0 < area2 a b c)) ∧
    (area2 a b c = 0 → ccw a b c = false) := by
  constructor
  · intro v hv
    unfold ccw_checked at hv
    simp only [Option.bind_eq_some] at hv
    obtain ⟨d, hd, hv⟩ := hv
    obtain ⟨e1, e2, e3⟩ := det32c_eq_some hd
    have hw : det32 a b c = detZ a b c := by rw [det32_eq, i32_of_fits e2 e3]
    have hccw : ccw a b c = decide (0 < detZ a b c) := by unfold ccw; rw [hw]
    refine ⟨?_, ?_⟩
    · rw [hccw, ← e1]; exact Option.some.inj hv
    · rw [hccw, detZ_eq_area2]; simp
  · intro h0
    unfold ccw
    rw [det32_eq, detZ_eq_area2, h0]
    decide

theorem ccw_iff_area_witness :
    ccw_checked ⟨0, 0⟩ ⟨3, 0⟩ ⟨0, 4⟩ = some true ∧
    (ccw ⟨0, 0⟩ ⟨3, 0⟩ ⟨0, 4⟩ = true ∧
      (ccw ⟨0, 0⟩ ⟨3, 0⟩ ⟨0, 4⟩ = true ↔ 0 < area2 ⟨0, 0⟩ ⟨3, 0⟩ ⟨0, 4⟩)) ∧
    area2 ⟨1, 1⟩ ⟨2, 2⟩ ⟨1, 1⟩ = 0 ∧ ccw ⟨1, 1⟩ ⟨2, 2⟩ ⟨1, 1⟩ = false :=
  ⟨by decide, (ccw_iff_area ⟨0, 0⟩ ⟨3, 0⟩ ⟨0, 4⟩).1 true (by decide), by decide,
    (ccw_iff_area ⟨1, 1⟩ ⟨2, 2⟩ ⟨1, 1⟩).2 (by decide)⟩

/-- C20. For points whose coordinates have absolute value at most `16384` (in particular
for the range `[0, 600)` generated by the program) no intermediate result of `ccw` or
`in_circle` overflows (32-bit products, differences and sums; 64-bit squared magnitudes,
products and sums), and both predicates, evaluated with the machine arithmetic of the
code, return the value they have over the integers. -/
theorem predicates_no_overflow (a b c d : vertex) (ha : SmallPoint a) (hb : SmallPoint b)
    (hc : SmallPoint c) (hd : SmallPoint d) :
    (ccw_checked a b c = some (ccw_exact a b c) ∧ ccw a b c = ccw_exact a b c) ∧
    (in_circle_checked a b c d = some (in_circle_exact a b c d) ∧
      in_circle a b c d = in_circle_exact a b c d) := by
  obtain ⟨e1, l1, u1⟩ := small_det ha hb hc
  obtain ⟨e2, l2, u2⟩ := small_det hb hc hd
  obtain ⟨e3, l3, u3⟩ := small_det ha hc hd
  obtain ⟨e4, l4, u4⟩ := small_det ha hb hd
  obtain ⟨t1, tl1, tu1⟩ := small_term ha hb hc hd
  obtain ⟨t2, tl2, tu2⟩ := small_term hb ha hc hd
  obtain ⟨t3, tl3, tu3⟩ := small_term hc ha hb hd
  obtain ⟨t4, tl4, tu4⟩ := small_term hd ha hb hc
  obtain ⟨-, -, -, ma⟩ := small_mag ha
  obtain ⟨-, -, -, mb⟩ := small_mag hb
  obtain ⟨-, -, -, mc⟩ := small_mag hc
  obtain ⟨-, -, -, md⟩ := small_mag hd
  refine ⟨⟨?_, ?_⟩, ?_, ?_⟩
  · unfold ccw_checked ccw_exact
    rw [e1, Option.some_bind]
  · unfold ccw ccw_exact
    rw [det32_eq, i32_of_fits (by omega) (by omega)]
  · unfold in_circle_checked in_circle_exact
    rw [t1, Option.some_bind, t2, Option.some_bind, chk64_of_fits (by omega) (by omega),
      Option.some_bind, t3, Option.some_bind, chk64_of_fits (by omega) (by omega),
      Option.some_bind, t4, Option.some_bind, chk64_of_fits (by omega) (by omega),
      Option.some_bind]
  · unfold in_circle in_circle_exact
    rw [ma, mb, mc, md, det32_eq, det32_eq, det32_eq, det32_eq,
      i32_of_fits (z := detZ b c d) (by omega) (by omega),
      i32_of_fits (z := detZ a c d) (by omega) (by omega),
      i32_of_fits (z := detZ a b d) (by omega) (by omega),
      i32_of_fits (z := detZ a b c) (by omega) (by omega),
      i64_of_fits (z := magZ a * detZ b c d) (by omega) (by omega),
      i64_of_fits (z := magZ b * detZ a c d) (by omega) (by omega),
      i64_of_fits (z := magZ c * detZ a b d) (by omega) (by omega),
      i64_of_fits (z := magZ d * detZ a b c) (by omega) (by omega),
      i64_of_fits (z := magZ a * detZ b c d - magZ b * detZ a c d) (by omega) (by omega),
      i64_of_fits (z := magZ a * detZ b c d - magZ b * detZ a c d + magZ c * detZ a b d)
        (by omega) (by omega),
      i64_of_fits (by omega) (by omega)]

theorem predicates_no_overflow_witness :
    (SmallPoint ⟨0, 0⟩ ∧ SmallPoint ⟨16384, -16384⟩ ∧ SmallPoint ⟨599, 599⟩ ∧
      SmallPoint ⟨-16384, 16384⟩) ∧
    (ccw_checked ⟨0, 0⟩ ⟨16384, -16384⟩ ⟨599, 599⟩ =
        some (ccw_exact ⟨0, 0⟩ ⟨16384, -16384⟩ ⟨599, 599⟩) ∧
      ccw ⟨0, 0⟩ ⟨16384, -16384⟩ ⟨599, 599⟩ = ccw_exact ⟨0, 0⟩ ⟨16384, -16384⟩ ⟨599, 599⟩) ∧
    (in_circle_checked ⟨0, 0⟩ ⟨16384, -16384⟩ ⟨599, 599⟩ ⟨-16384, 16384⟩ =
        some (in_circle_exact ⟨0, 0⟩ ⟨16384, -16384⟩ ⟨599, 599⟩ ⟨-16384, 16384⟩) ∧
      in_circle ⟨0, 0⟩ ⟨16384, -16384⟩ ⟨599, 599⟩ ⟨-16384, 16384⟩ =
        in_circle_exact ⟨0, 0⟩ ⟨16384, -16384⟩ ⟨599, 599⟩ ⟨-16384, 16384⟩) :=
  ⟨by decide, predicates_no_overflow ⟨0, 0⟩ ⟨16384, -16384⟩ ⟨599, 599⟩ ⟨-16384, 16384⟩
    (by decide) (by decide) (by decide) (by decide)⟩

/-- C15. For three collinear points `s1`, `s2`, `s3` (in particular pairwise distinct and
sorted, as `(0,0), (1,0), (2,0)`), `delaunay` on the empty store yields exactly two records
and no closing edge: it returns `(a, b.sym())` with `a` the edge `s1 → s2` and `b` the edge
`s2 → s3`; the face ring is `a, b, b.sym(), a.sym()` and no primal handle lies on an
`l_next` cycle of length 3. -/
theorem delaunay_collinear (s1 s2 s3 : vertex) (fuel : Nat) (hcol : area2 s1 s2 s3 = 0) :
    delaunay [s1, s2, s3] (fuel + 1) [] 0 3 =
      .ok (chain3, ⟨0, 0⟩, edge_reference.sym ⟨1, 0⟩) ∧
    (chain3.length = 2 ∧ liveCount chain3 = 2) ∧
    (orgPoint [s1, s2, s3] chain3 ⟨0, 0⟩ = .ok s1 ∧
      destPoint [s1, s2, s3] chain3 ⟨0, 0⟩ = .ok s2 ∧
      orgPoint [s1, s2, s3] chain3 ⟨1, 0⟩ = .ok s2 ∧
      destPoint [s1, s2, s3] chain3 ⟨1, 0⟩ = .ok s3) ∧
    (l_next chain3 ⟨0, 0⟩ = .ok ⟨1, 0⟩ ∧
      l_next chain3 ⟨1, 0⟩ = .ok (edge_reference.sym ⟨1, 0⟩) ∧
      l_next chain3 (edge_reference.sym ⟨1, 0⟩) = .ok (edge_reference.sym ⟨0, 0⟩) ∧
      l_next chain3 (edge_reference.sym ⟨0, 0⟩) = .ok ⟨0, 0⟩) ∧
    ∀ e, Live chain3 e → e.r % 2 = 0 → l_next3 chain3 e ≠ .ok e := by
  have c1 : ccw s1 s2 s3 = false := ccw_false_of_collinear hcol
  have c2 : ccw s1 s3 s2 = false := ccw_false_of_collinear (by rw [area2_swap, hcol]; rfl)
  refine ⟨?_, ⟨rfl, rfl⟩, ⟨rfl, rfl, rfl, rfl⟩, ⟨rfl, rfl, rfl, rfl⟩, ?_⟩
  · rw [delaunay_three, c1, c2]
    rfl
  · rintro ⟨q, r⟩ he hr
    obtain ⟨hq, hr4⟩ := live_chain3_cases he
    simp only at hq hr4 hr
    have hr' : r = 0 ∨ r = 2 := by omega
    rcases hq with rfl | rfl <;> rcases hr' with rfl | rfl <;> decide

theorem delaunay_collinear_witness :
    area2 ⟨0, 0⟩ ⟨1, 0⟩ ⟨2, 0⟩ = 0 ∧
    delaunay [⟨0, 0⟩, ⟨1, 0⟩, ⟨2, 0⟩] (0 + 1) [] 0 3 =
      .ok (chain3, ⟨0, 0⟩, edge_reference.sym ⟨1, 0⟩) ∧
    (chain3.length = 2 ∧ liveCount chain3 = 2) ∧
    (orgPoint [⟨0, 0⟩, ⟨1, 0⟩, ⟨2, 0⟩] chain3 ⟨0, 0⟩ = .ok ⟨0, 0⟩ ∧
      destPoint [⟨0, 0⟩, ⟨1, 0⟩, ⟨2, 0⟩] chain3 ⟨0, 0⟩ = .ok ⟨1, 0⟩ ∧
      orgPoint [⟨0, 0⟩, ⟨1, 0⟩, ⟨2, 0⟩] chain3 ⟨1, 0⟩ = .ok ⟨1, 0⟩ ∧
      destPoint [⟨0, 0⟩, ⟨1, 0⟩, ⟨2, 0⟩] chain3 ⟨1, 0⟩ = .ok ⟨2, 0⟩) ∧
    (l_next chain3 ⟨0, 0⟩ = .ok ⟨1, 0⟩ ∧
      l_next chain3 ⟨1, 0⟩ = .ok (edge_reference.sym ⟨1, 0⟩) ∧
      l_next chain3 (edge_reference.sym ⟨1, 0⟩) = .ok (edge_reference.sym ⟨0, 0⟩) ∧
      l_next chain3 (edge_reference.sym ⟨0, 0⟩) = .ok ⟨0, 0⟩) ∧
    ∀ e, Live chain3 e → e.r % 2 = 0 → l_next3 chain3 e ≠ .ok e :=
  ⟨by decide, delaunay_collinear ⟨0, 0⟩ ⟨1, 0⟩ ⟨2, 0⟩ 0 (by decide)⟩

/-- C14 (counterexample). The points `(0,0), (65536,0), (65536,65536)` are sorted, pairwise
distinct and not collinear, but `65536 * 65536` overflows 32 bits, both `ccw` tests come
out false, and `delaunay` yields the open chain: two live records and no `l_next` cycle of
length 3 through the returned left handle. -/
theorem delaunay_overflow_no_triangle :
    (sortedPoints overflowPoints = true ∧ overflowPoints.Nodup ∧
      area2 ⟨0, 0⟩ ⟨65536, 0⟩ ⟨65536, 65536⟩ ≠ 0) ∧
    delaunay overflowPoints 1 [] 0 3 = .ok (chain3, ⟨0, 0⟩, ⟨1, 2⟩) ∧
    liveCount chain3 = 2 ∧ l_next3 chain3 ⟨0, 0⟩ ≠ .ok ⟨0, 0⟩ := by
  refine ⟨by decide, rfl, rfl, by decide⟩

/-- C14 (amended). For every three non-collinear points `s1`, `s2`, `s3` (in particular
pairwise distinct and sorted, as `(0,0), (0,1), (1,0)`) for which no 32-bit intermediate
result of `ccw(s1, s2, s3)` and `ccw(s1, s3, s2)` overflows, `delaunay` on the empty store
yields exactly one triangle: exactly three records are live, and the returned left handle
`le` satisfies `le.l_next().l_next().l_next() == le` with `le`, `le.l_next()` and
`le.l_next().l_next()` in three different records whose origins are the three input
points. -/
theorem delaunay_one_triangle (s1 s2 s3 : vertex) (fuel : Nat)
    (hne : area2 s1 s2 s3 ≠ 0) (h1 : (ccw_checked s1 s2 s3).isSome = true)
    (h2 : (ccw_checked s1 s3 s2).isSome = true) :
    ∃ h le re e1 e2,
      delaunay [s1, s2, s3] (fuel + 1) [] 0 3 = .ok (h, le, re) ∧
      (h.length = 3 ∧ liveCount h = 3) ∧
      (l_next h le = .ok e1 ∧ l_next h e1 = .ok e2 ∧ l_next h e2 = .ok le) ∧
      (le.q ≠ e1.q ∧ e1.q ≠ e2.q ∧ le.q ≠ e2.q) ∧
      orgPoint [s1, s2, s3] h le = .ok s1 ∧
      ((orgPoint [s1, s2, s3] h e1 = .ok s2 ∧ orgPoint [s1, s2, s3] h e2 = .ok s3) ∨
        (orgPoint [s1, s2, s3] h e1 = .ok s3 ∧ orgPoint [s1, s2, s3] h e2 = .ok s2)) := by
  have c1 := ccw_of_checked h1
  have c2 := ccw_of_checked h2
  rw [area2_swap] at c2
  by_cases hpos : 0 < area2 s1 s2 s3
  · have t1 : ccw s1 s2 s3 = true := by rw [c1]; exact decide_eq_true hpos
    refine ⟨triangle3, ⟨0, 0⟩, ⟨1, 2⟩, ⟨1, 0⟩, ⟨2, 0⟩, ?_, ⟨rfl, rfl⟩, ⟨rfl, rfl, rfl⟩,
      by decide, rfl, Or.inl ⟨rfl, rfl⟩⟩
    rw [delaunay_three, if_pos t1]
  · have f1 : ccw s1 s2 s3 = false := by rw [c1]; exact decide_eq_false hpos
    have hneg : 0 < -area2 s1 s2 s3 := by omega
    have t2 : ccw s1 s3 s2 = true := by rw [c2]; exact decide_eq_true hneg
    refine ⟨triangle3, ⟨2, 2⟩, ⟨2, 0⟩, ⟨1, 2⟩, ⟨0, 2⟩, ?_, ⟨rfl, rfl⟩, ⟨rfl, rfl, rfl⟩,
      by decide, rfl, Or.inr ⟨rfl, rfl⟩⟩
    rw [delaunay_three, f1, if_pos t2]
    rfl

theorem delaunay_one_triangle_witness :
    (area2 ⟨0, 0⟩ ⟨0, 1⟩ ⟨1, 0⟩ ≠ 0 ∧ (ccw_checked ⟨0, 0⟩ ⟨0, 1⟩ ⟨1, 0⟩).isSome = true ∧
      (ccw_checked ⟨0, 0⟩ ⟨1, 0⟩ ⟨0, 1⟩).isSome = true) ∧
    ∃ h le re e1 e2,
      delaunay [⟨0, 0⟩, ⟨0, 1⟩, ⟨1, 0⟩] (0 + 1) [] 0 3 = .ok (h, le, re) ∧
      (h.length = 3 ∧ liveCount h = 3) ∧
      (l_next h le = .ok e1 ∧ l_next h e1 = .ok e2 ∧ l_next h e2 = .ok le) ∧
      (le.q ≠ e1.q ∧ e1.q ≠ e2.q ∧ le.q ≠ e2.q) ∧
      orgPoint [⟨0, 0⟩, ⟨0, 1⟩, ⟨1, 0⟩] h le = .ok ⟨0, 0⟩ ∧
      ((orgPoint [⟨0, 0⟩, ⟨0, 1⟩, ⟨1, 0⟩] h e1 = .ok ⟨0, 1⟩ ∧
          orgPoint [⟨0, 0⟩, ⟨0, 1⟩, ⟨1, 0⟩] h e2 = .ok ⟨1, 0⟩) ∨
        (orgPoint [⟨0, 0⟩, ⟨0, 1⟩, ⟨1, 0⟩] h e1 = .ok ⟨1, 0⟩ ∧
          orgPoint [⟨0, 0⟩, ⟨0, 1⟩, ⟨1, 0⟩] h e2 = .ok ⟨0, 1⟩)) :=
  ⟨by decide, delaunay_one_triangle ⟨0, 0⟩ ⟨0, 1⟩ ⟨1, 0⟩ 0 (by decide) (by decide)
    (by decide)⟩

/-- C18 (counterexample). For the sorted points `(0,0), (1,0), (1,1)` with
`ccw(s1, s2, s3)`, the closing edge is `c = connect(b, a) = {2, 0}`, and `delaunay`
returns `(a, b.sym()) = ({0, 0}, {1, 2})`, whose second component is not
`c.sym() = {2, 2}`. -/
theorem delaunay_ccw_returns_not_c_sym :
    (sortedPoints trianglePoints = true ∧ ccw ⟨0, 0⟩ ⟨1, 0⟩ ⟨1, 1⟩ = true) ∧
    three_point_chain [] 0 = .ok (chain3, ⟨0, 0⟩, ⟨1, 0⟩) ∧
    connect chain3 ⟨1, 0⟩ ⟨0, 0⟩ = .ok (triangle3, ⟨2, 0⟩) ∧
    delaunay trianglePoints 1 [] 0 3 = .ok (triangle3, ⟨0, 0⟩, edge_reference.sym ⟨1, 0⟩) ∧
    edge_reference.sym ⟨1, 0⟩ ≠ edge_reference.sym ⟨2, 0⟩ := by
  refine ⟨by decide, rfl, rfl, rfl, by decide⟩

/-- C18 (amended). For every three points `s1`, `s2`, `s3` with `ccw(s1, s2, s3)`,
`delaunay` on the empty store builds `a` (the edge `s1 → s2`) and `b` (the edge
`s2 → s3`), closes the triangle with `c = connect(b, a)` (the edge `s3 → s1`) and
returns the pair `(a, b.sym())`. -/
theorem delaunay_ccw_returns (s1 s2 s3 : vertex) (fuel : Nat) (hccw : ccw s1 s2 s3 = true) :
    ∃ h0 h a b c,
      three_point_chain [] 0 = .ok (h0, a, b) ∧
      connect h0 b a = .ok (h, c) ∧
      delaunay [s1, s2, s3] (fuel + 1) [] 0 3 = .ok (h, a, b.sym) ∧
      (orgPoint [s1, s2, s3] h a = .ok s1 ∧ destPoint [s1, s2, s3] h a = .ok s2) ∧
      (orgPoint [s1, s2, s3] h b = .ok s2 ∧ destPoint [s1, s2, s3] h b = .ok s3) ∧
      (orgPoint [s1, s2, s3] h c = .ok s3 ∧ destPoint [s1, s2, s3] h c = .ok s1) := by
  refine ⟨chain3, triangle3, ⟨0, 0⟩, ⟨1, 0⟩, ⟨2, 0⟩, rfl, rfl, ?_, ⟨rfl, rfl⟩, ⟨rfl, rfl⟩,
    ⟨rfl, rfl⟩⟩
  rw [delaunay_three, if_pos hccw]
  rfl

theorem delaunay_ccw_returns_witness :
    ccw ⟨0, 0⟩ ⟨1, 0⟩ ⟨1, 1⟩ = true ∧
    ∃ h0 h a b c,
      three_point_chain [] 0 = .ok (h0, a, b) ∧
      connect h0 b a = .ok (h, c) ∧
      delaunay [⟨0, 0⟩, ⟨1, 0⟩, ⟨1, 1⟩] (0 + 1) [] 0 3 = .ok (h, a, b.sym) ∧
      (orgPoint [⟨0, 0⟩, ⟨1, 0⟩, ⟨1, 1⟩] h a = .ok ⟨0, 0⟩ ∧
        destPoint [⟨0, 0⟩, ⟨1, 0⟩, ⟨1, 1⟩] h a = .ok ⟨1, 0⟩) ∧
      (orgPoint [⟨0, 0⟩, ⟨1, 0⟩, ⟨1, 1⟩] h b = .ok ⟨1, 0⟩ ∧
        destPoint [⟨0, 0⟩, ⟨1, 0⟩, ⟨1, 1⟩] h b = .ok ⟨1, 1⟩) ∧
      (orgPoint [⟨0, 0⟩, ⟨1, 0⟩, ⟨1, 1⟩] h c = .ok ⟨1, 1⟩ ∧
        destPoint [⟨0, 0⟩, ⟨1, 0⟩, ⟨1, 1⟩] h c = .ok ⟨0, 0⟩) :=
  ⟨by decide, delaunay_ccw_returns ⟨0, 0⟩ ⟨1, 0⟩ ⟨1, 1⟩ 0 (by decide)⟩

/-- C17. For every input of exactly two points (and every store `h` the call starts
from), `delaunay` allocates exactly one record and returns the pair `(a, a.sym())` of its
handles, where `Org(a)` is the first point, `Dest(a)` the second and `a.o_next() == a`. -/
theorem delaunay_two_points (p q : vertex) (fuel : Nat) (h : Heap) :
    ∃ h' a,
      delaunay [p, q] (fuel + 1) h 0 2 = .ok (h', a, a.sym) ∧
      (a = ⟨h.length, 0⟩ ∧ h'.length = h.length + 1 ∧ isLive h' h.length = true ∧
        ∀ k, k < h.length → isLive h' k = isLive h k) ∧
      orgPoint [p, q] h' a = .ok p ∧ destPoint [p, q] h' a = .ok q ∧
      o_next h' a = .ok a := by
  have la : Live (make_edge h).1 ⟨h.length, 0⟩ := live_make_edge_new h 0 (by decide)
  obtain ⟨h1, e1, len1, live1, n1, d1⟩ := setData_spec la (some 0)
  have l2 : Live h1 ⟨h.length, 2⟩ := ⟨by rw [live1, isLive_make_edge]; simp, by simp⟩
  obtain ⟨h2, e2, len2, live2, n2, d2⟩ := setData_spec l2 (some (0 + 1))
  have hS : edge_reference.sym ⟨h.length, 0⟩ = ⟨h.length, 2⟩ := by simp [sym_eq]
  have la2 : Live h2 ⟨h.length, 0⟩ := ⟨by rw [live2, live1, isLive_make_edge]; simp, by simp⟩
  have ls2 : Live h2 ⟨h.length, 2⟩ := ⟨by rw [live2, live1, isLive_make_edge]; simp, by simp⟩
  have ne02 : (⟨h.length, 0⟩ : edge_reference) ≠ ⟨h.length, 2⟩ := by simp
  have dorg : dat h2 ⟨h.length, 0⟩ = some 0 := by
    rw [d2, if_neg ne02, d1, if_pos rfl]
  have ddest : dat h2 ⟨h.length, 2⟩ = some 1 := by
    rw [d2, if_pos rfl]
  refine ⟨h2, ⟨h.length, 0⟩, ?_, ⟨rfl, ?_, ?_, ?_⟩, ?_, ?_, ?_⟩
  · have e1' : setData (h ++ [some (fresh_record h.length)]) ⟨h.length, 0⟩ (some 0) =
        .ok h1 := e1
    rw [delaunay, if_pos (by rfl)]
    simp only [make_edge, hS, e1', e2, bind, Except.bind, pure, Except.pure]
  · rw [len2, len1]; simp [make_edge]
  · exact la2.1
  · intro k hk
    have : ¬ k = h.length := by omega
    rw [live2, live1, isLive_make_edge]; simp [this]
  · unfold orgPoint ORG
    rw [data_of_live la2, dorg]
    rfl
  · unfold destPoint DEST
    rw [hS, data_of_live ls2, ddest]
    rfl
  · rw [o_next_of_live la2, n2, n1, nxt_make_edge_new h 0 (by decide)]

/-- C16. On the unit square in sorted order `(0,0), (0,1), (1,0), (1,1)`, `delaunay`
(from the empty store, for every bound that lets it finish) yields exactly five records:
the four sides and one diagonal, the one joining `(1,0)` and `(0,1)`.  The faces that are
counter-clockwise triangles are the two triangles beside the diagonal (each listed once
for each of its three boundary handles), and `in_circle` of the corners of either
triangle with any of the four points, the fourth included, is false. -/
theorem delaunay_unit_square :
    sortedPoints squarePoints = true ∧
    (∀ fuel, delaunay squarePoints (fuel + 4) [] 0 4 = .ok (squareStore, ⟨2, 2⟩, ⟨1, 2⟩)) ∧
    (squareStore.length = 5 ∧ liveCount squareStore = 5) ∧
    edgeList squarePoints squareStore =
      [(⟨0, 0⟩, ⟨0, 1⟩), (⟨1, 0⟩, ⟨1, 1⟩), (⟨1, 0⟩, ⟨0, 0⟩), (⟨1, 0⟩, ⟨0, 1⟩),
        (⟨1, 1⟩, ⟨0, 1⟩)] ∧
    triangleList squarePoints squareStore =
      [(⟨0, 1⟩, ⟨0, 0⟩, ⟨1, 0⟩), (⟨1, 0⟩, ⟨1, 1⟩, ⟨0, 1⟩), (⟨0, 0⟩, ⟨1, 0⟩, ⟨0, 1⟩),
        (⟨1, 0⟩, ⟨0, 1⟩, ⟨0, 0⟩), (⟨0, 1⟩, ⟨1, 0⟩, ⟨1, 1⟩), (⟨1, 1⟩, ⟨0, 1⟩, ⟨1, 0⟩)] ∧
    (∀ t ∈ triangleList squarePoints squareStore, ∀ d ∈ squarePoints,
      in_circle t.1 t.2.1 t.2.2 d = false) ∧
    (in_circle ⟨0, 0⟩ ⟨1, 0⟩ ⟨0, 1⟩ ⟨1, 1⟩ = false ∧
      in_circle ⟨1, 0⟩ ⟨1, 1⟩ ⟨0, 1⟩ ⟨0, 0⟩ = false) := by
  refine ⟨by decide, fun _ => rfl, by decide, by decide, by decide, by decide, by decide⟩

/-- C19. No dangling references.  The predicate `NoDangling` (the `next` field of every quarter
slot of every live record names a live record) holds after `make_edge` on the empty store and
is preserved by `make_edge`; on live handles `a`, `b` of a store `h` without dangling
references `splice(a, b)` and `connect(a, b)` succeed and leave no dangling reference; and
when `h` is well-formed, `delete_edge(a)` succeeds, leaves no dangling reference, frees the
record of `a`, and no quarter slot of any remaining record refers to the freed record. -/
theorem no_dangling_references (h : Heap) (a b : edge_reference) (hnd : NoDangling h)
    (ha : Live h a) (hb : Live h b) :
    NoDangling (make_edge []).1 ∧ NoDangling (make_edge h).1 ∧
    (∃ h', splice h a b = .ok h' ∧ NoDangling h') ∧
    (∃ h' e, connect h a b = .ok (h', e) ∧ NoDangling h') ∧
    (WellFormed h → ∃ h', delete_edge h a = .ok h' ∧ NoDangling h' ∧ isLive h' a.q = false ∧
      ∀ q r, isLive h' q = true → r < 4 → (nxt h' ⟨q, r⟩).q ≠ a.q) := by
  refine ⟨make_edge_nd nd_empty, make_edge_nd hnd, ?_, ?_, ?_⟩
  · obtain ⟨h', e, -, nd, -⟩ := splice_nd hnd ha hb
    exact ⟨h', e, nd⟩
  · obtain ⟨h', e, nd⟩ := connect_nd hnd ha hb
    exact ⟨h', _, e, nd⟩
  · intro hwf
    obtain ⟨h', e, nd, dead, iso⟩ := delete_nd hwf ha
    exact ⟨h', e, nd, dead, fun q r hq hr => iso ⟨q, r⟩ ⟨hq, hr⟩⟩

theorem no_dangling_references_witness :
    NoDangling triangleStore ∧ Live triangleStore ⟨0, 0⟩ ∧ Live triangleStore ⟨1, 2⟩ ∧
    WellFormed triangleStore ∧
    (NoDangling (make_edge []).1 ∧ NoDangling (make_edge triangleStore).1 ∧
    (∃ h', splice triangleStore ⟨0, 0⟩ ⟨1, 2⟩ = .ok h' ∧ NoDangling h') ∧
    (∃ h' e, connect triangleStore ⟨0, 0⟩ ⟨1, 2⟩ = .ok (h', e) ∧ NoDangling h') ∧
    (WellFormed triangleStore → ∃ h', delete_edge triangleStore ⟨0, 0⟩ = .ok h' ∧
      NoDangling h' ∧ isLive h' 0 = false ∧
      ∀ q r, isLive h' q = true → r < 4 → (nxt h' ⟨q, r⟩).q ≠ 0)) :=
  ⟨by decide, by decide, by decide, by decide,
    no_dangling_references triangleStore ⟨0, 0⟩ ⟨1, 2⟩ (by decide) (by decide) (by decide)⟩

/-- C23. `splice` is its own inverse and symmetric: for live handles `a` and `b` of equal
rotation parity in a well-formed store `h`, `splice(a, b)` succeeds with a store `h'`,
a second `splice(a, b)` on `h'` gives back exactly `h` (so every quarter slot has the `next`
field it had before), and `splice(b, a)` on `h` gives the same store `h'`. -/
theorem splice_involution_symmetric (h : Heap) (a b : edge_reference) (hwf : WellFormed h)
    (ha : Live h a) (hb : Live h b) (hpar : a.r % 2 = b.r % 2) :
    ∃ h', splice h a b = .ok h' ∧ splice h' a b = .ok h ∧ splice h b a = .ok h' ∧
      ∀ q r, nxt h' ⟨q, r⟩ = spliceF (nxt h) a b ⟨q, r⟩ := by
  obtain ⟨h', e1, s1, wf1, n1⟩ := splice_wf hwf ha hb hpar
  have ha' : Live h' a := (s1.live_iff a).2 ha
  have hb' : Live h' b := (s1.live_iff b).2 hb
  obtain ⟨h'', e2, s2, -, n2⟩ := splice_wf wf1 ha' hb' hpar
  obtain ⟨h2, e3, s3, -, n3⟩ := splice_wf hwf hb ha hpar.symm
  have back : h'' = h := by
    have s := s1.trans s2
    refine heap_ext s.len s.live ?_ s.dat
    intro x
    rw [n2]
    exact spliceF_twice hwf wf1 ha hb ha' hb' hpar n1 x
  have same : h2 = h' := by
    refine heap_ext (s3.len.trans s1.len.symm) (fun q => by rw [s3.live, s1.live]) ?_
      (fun x => by rw [s3.dat, s1.dat])
    intro x
    rw [n3, n1, spliceF_comm]
  rw [back] at e2
  rw [same] at e3
  exact ⟨h', e1, e2, e3, fun q r => n1 ⟨q, r⟩⟩

theorem splice_involution_symmetric_witness :
    WellFormed triangleStore ∧ Live triangleStore ⟨0, 0⟩ ∧ Live triangleStore ⟨1, 2⟩ ∧
    (⟨0, 0⟩ : edge_reference).r % 2 = (⟨1, 2⟩ : edge_reference).r % 2 ∧
    ∃ h', splice triangleStore ⟨0, 0⟩ ⟨1, 2⟩ = .ok h' ∧
      splice h' ⟨0, 0⟩ ⟨1, 2⟩ = .ok triangleStore ∧
      splice triangleStore ⟨1, 2⟩ ⟨0, 0⟩ = .ok h' ∧
      ∀ q r, nxt h' ⟨q, r⟩ = spliceF (nxt triangleStore) ⟨0, 0⟩ ⟨1, 2⟩ ⟨q, r⟩ :=
  ⟨by decide, by decide, by decide, by decide,
    splice_involution_symmetric triangleStore ⟨0, 0⟩ ⟨1, 2⟩ (by decide) (by decide) (by decide)
      (by decide)⟩

end DV
